import Mathlib

/-!
# frunk — formal model of the dependency graph builder and execution engine

This file gives a shallow embedding, in Lean 4, of the core of the `frunk`
parallel script runner:

* `src/core/pattern-matcher.ts` — `PatternMatcher` (pattern resolution);
* `src/core/parser.ts`          — `Parser` (CLI argument parsing);
* `src/core/graph-builder.ts`   — `GraphBuilder.buildGraph` and its helpers;
* `src/execution/executor.ts`   — the `Executor` scheduling loop.

External JavaScript libraries are modelled at their documented contract:

* `micromatch(list, pattern)` is modelled as basic glob matching where `*`
  matches any (possibly empty) character sequence, `?` matches exactly one
  character and every other character matches itself literally.
* `graphlib` (`Graph`, `alg.isAcyclic`, `alg.topsort`, `alg.findCycles`) is
  modelled by an insertion-ordered node/edge store plus a Kahn-style
  topological sort satisfying the graphlib contract (for every edge `v → w`,
  `v` precedes `w` in `topsort`'s output; `isAcyclic` decides cycle
  existence; `findCycles` returns the strongly connected components that lie
  on a cycle).  The relative order of mutually unordered nodes is an
  implementation detail in both graphlib and this model.
* JavaScript regular expressions (used by `parseFrunkCommand` and the
  `SEQ` marker handling) are modelled by a small backtracking regular
  expression engine whose alternative ordering mirrors JavaScript's
  (greedy quantifiers prefer longer matches, lazy quantifiers prefer
  shorter ones, alternation is left-biased).

Machine integers do not occur in the modelled code paths (node counters and
group indices are small naturals); JavaScript numbers are modelled as `Nat`.
Exceptions (`throw new Error(...)`) are modelled with `Except`, with
structured error values for the distinct `throw` sites.
-/

namespace Frunk

/-! ## Data model (`src/types.ts`, as consumed by the embedded modules)

`Script` is a manifest entry, `Task` a resolved runnable command, and
`ExecutionNode` the scheduling unit produced by the graph builder. -/

/-- Thrown errors are modelled with `Except`; equality of outcomes is
decidable so concrete runs can be checked by evaluation. -/
instance instDecEqExcept {ε α : Type} [DecidableEq ε] [DecidableEq α] :
    DecidableEq (Except ε α)
  | .error e, .error f =>
    if h : e = f then isTrue (h ▸ rfl)
    else isFalse (fun hc => h (Except.error.inj hc))
  | .error _, .ok _ => isFalse (fun hc => Except.noConfusion hc)
  | .ok _, .error _ => isFalse (fun hc => Except.noConfusion hc)
  | .ok a, .ok b =>
    if h : a = b then isTrue (h ▸ rfl)
    else isFalse (fun hc => h (Except.ok.inj hc))

/-- A manifest entry: a named shell command (`Script` in `src/types.ts`). -/
structure Script where
  name : String
  command : String
deriving Repr, DecidableEq

/-- A resolved task (`Task` in `src/types.ts`).  `dependencies` is unused at
this layer (always `[]`), kept for interface symmetry with the source. -/
structure Task where
  name : String
  command : String
  dependencies : List String
deriving Repr, DecidableEq

/-- A scheduling unit (`ExecutionNode` in `src/types.ts`). -/
structure ExecutionNode where
  id : String
  tasks : List Task
  dependencies : List String
  sequential : Bool
deriving Repr, DecidableEq

/-- `boolean | string` as used for the `prefix` config field. -/
inductive BoolOrString where
  | bool (b : Bool)
  | str (s : String)
deriving Repr, DecidableEq

/-- Run configuration (`Config` in `src/types.ts`); optional fields are
`Option`s.  The source field `continue` is called `continueOnError` here
because `continue` is a Lean keyword. -/
structure Config where
  quiet : Option Bool := none
  continueOnError : Option Bool := none
  prefixCfg : Option BoolOrString := none
deriving Repr, DecidableEq

/-- The result of CLI parsing (`ParsedCommand` in `src/types.ts`). -/
structure ParsedCommand where
  config : Config
  patterns : List String
  command : Option String := none
deriving Repr, DecidableEq

/-- JavaScript string truthiness: `undefined` and `""` are falsy.
`jsStrOr o d` models `o || d` for an optional string `o`. -/
def jsStrOr (o : Option String) (d : String) : String :=
  match o with
  | none => d
  | some s => if s = "" then d else s

/-! ## JavaScript string helpers

All operations work on `String.data` (the underlying character list) so
that theorems can compute on partially symbolic strings. -/

/-- `s.startsWith(pre)` on character lists. -/
def jsStartsWith (s pre : String) : Bool :=
  pre.data.isPrefixOf s.data

/-- Substring search on character lists. -/
def isInfixB (sub : List Char) : List Char → Bool
  | [] => sub.isPrefixOf []
  | c :: rest => sub.isPrefixOf (c :: rest) || isInfixB sub rest

/-- `s.includes(sub)` on character lists. -/
def jsIncludes (s sub : String) : Bool :=
  isInfixB sub.data s.data

/-- `s.trim()`: strip leading and trailing whitespace. -/
def trimChars (l : List Char) : List Char :=
  ((l.dropWhile Char.isWhitespace).reverse.dropWhile Char.isWhitespace).reverse

/-- `s.trim()` for strings. -/
def jsTrim (s : String) : String :=
  (trimChars s.data).asString

/-- `s.split(sep)` for a one-character separator: split on every occurrence
(no escaping, no nesting awareness), like JavaScript `String.split`. -/
def splitChar (sep : Char) : List Char → List (List Char)
  | [] => [[]]
  | c :: rest =>
    let r := splitChar sep rest
    if c = sep then [] :: r
    else
      match r with
      | [] => [[c]]
      | h :: t => (c :: h) :: t

/-- Exact size accounting for `splitChar`: piece lengths plus piece count
equals input length plus one (each separator is traded for one piece). -/
theorem splitChar_sum_add_length (sep : Char) (l : List Char) :
    ((splitChar sep l).map List.length).sum + (splitChar sep l).length
      = l.length + 1 := by
  induction l with
  | nil => simp [splitChar]
  | cons c rest ih =>
    simp only [splitChar]
    by_cases h : c = sep
    · simp only [if_pos h, List.map_cons, List.sum_cons, List.length_nil,
        List.length_cons]
      omega
    · simp only [if_neg h]
      cases hr : splitChar sep rest with
      | nil => simp_all [List.length_cons]
      | cons hd tl =>
        rw [hr] at ih
        simp only [List.map_cons, List.sum_cons, List.length_cons] at ih ⊢
        omega

/-- `trimChars` never lengthens a list. -/
theorem trimChars_length_le (l : List Char) :
    (trimChars l).length ≤ l.length := by
  unfold trimChars
  have h1 := (List.dropWhile_sublist (p := Char.isWhitespace) (l := l)).length_le
  have h2 := (List.dropWhile_sublist (p := Char.isWhitespace)
    (l := (l.dropWhile Char.isWhitespace).reverse)).length_le
  simp only [List.length_reverse] at *
  omega

/-! ## Glob matching (model of the external `micromatch` library)

`micromatch(names, pattern)` filters `names` by glob `pattern`.  We model
the basic glob language: `*` (any sequence), `?` (any one character),
everything else literal. -/

/-- Basic glob matching on character lists: `*` matches any sequence, `?`
any single character, anything else itself. -/
def globMatch : List Char → List Char → Bool
  | [], t => t.isEmpty
  | p :: ps, t =>
    if p = '*' then
      globMatch ps t ||
        (match t with
         | [] => false
         | _ :: ts => globMatch (p :: ps) ts)
    else
      match t with
      | [] => false
      | c :: ts => (p = '?' || p = c) && globMatch ps ts
termination_by p t => (p.length, t.length)

/-- Model of `micromatch(names, pattern)`: the elements of `names` matching
`pattern`, in list order. -/
def micromatch (names : List String) (pattern : String) : List String :=
  names.filter (fun n => globMatch pattern.data n.data)

/-- A glob pattern without `*` and `?` matches exactly itself. -/
theorem globMatch_no_wildcard {p t : List Char}
    (hstar : '*' ∉ p) (hq : '?' ∉ p) : globMatch p t = true ↔ p = t := by
  induction p generalizing t with
  | nil =>
    cases t <;> simp [globMatch]
  | cons c ps ih =>
    have hc1 : c ≠ '*' := fun h => hstar (h ▸ List.mem_cons_self _ _)
    have hc2 : c ≠ '?' := fun h => hq (h ▸ List.mem_cons_self _ _)
    have hs : '*' ∉ ps := fun h => hstar (List.mem_cons_of_mem _ h)
    have hq' : '?' ∉ ps := fun h => hq (List.mem_cons_of_mem _ h)
    cases t with
    | nil => simp [globMatch, hc1]
    | cons d ts =>
      simp only [globMatch, if_neg hc1]
      simp only [Bool.or_eq_true, Bool.and_eq_true, decide_eq_true_eq]
      constructor
      · rintro ⟨h1 | h1, h2⟩
        · exact absurd h1 hc2
        · rw [h1, (ih hs hq').mp h2]
      · intro h
        injection h with e1 e2
        exact ⟨Or.inr e1, (ih hs hq').mpr e2⟩

/-! ## `PatternMatcher` (`src/core/pattern-matcher.ts`)

`resolvePatterns` resolves a pattern list to script names, processing
patterns left to right; `!`-prefixed patterns exclude, `SEQ:`-prefixed
patterns recurse (tagging results with `SEQ:`), plain patterns are looked
up via `findMatches`, which throws `Script not found` for an unmatched
non-glob literal.  Thrown errors are modelled with `Except String`. -/

/-- `s.slice(n)`: drop the first `n` characters. -/
def strDrop (s : String) (n : Nat) : String :=
  (s.data.drop n).asString

/-- `s.endsWith(suf)`. -/
def jsEndsWith (s suf : String) : Bool :=
  suf.data.isSuffixOf s.data

/-- Does the string contain the character? -/
def containsChar (s : String) (c : Char) : Bool :=
  s.data.contains c

/-- `PatternMatcher.isGlobPattern`: the pattern contains one of
`*`, `?`, `[`, `:`. -/
def isGlobPattern (p : String) : Bool :=
  containsChar p '*' || containsChar p '?' || containsChar p '[' ||
    containsChar p ':'

/-- `PatternMatcher.findMatches`: glob patterns are matched, known literals
returned as-is, and anything else is tried as a glob before throwing
`Script not found`. -/
def findMatches (pattern : String) (scriptNames : List String) :
    Except String (List String) :=
  if isGlobPattern pattern then .ok (micromatch scriptNames pattern)
  else if scriptNames.contains pattern then .ok [pattern]
  else
    let ms := micromatch scriptNames pattern
    if ms.length > 0 then .ok ms
    else .error ("Script not found: " ++ pattern)

/-- `PatternMatcher.processExclusion`: remove matches of the exclusion
pattern from the running result. -/
def processExclusion (excludePattern : String) (result : List String) :
    List String :=
  if containsChar excludePattern '*' || containsChar excludePattern '?' then
    let toRemove := micromatch result excludePattern
    result.filter (fun name => !toRemove.contains name)
  else
    result.filter (fun name => name ≠ excludePattern)

/-- `PatternMatcher.parseNestedGroup`: strip the surrounding brackets and
split on commas, trimming each piece. -/
def parseNestedGroup (input : String) : List String :=
  (splitChar ',' (input.data.drop 1).dropLast).map
    (fun cs => (trimChars cs).asString)

/-- Cost measure for pattern lists, used to justify the recursion of
`resolveGo` into nested `SEQ:[...]` groups. -/
def patternsMeasure (l : List String) : Nat :=
  (l.map (fun p => p.data.length)).sum + l.length

theorem patternsMeasure_nested_lt (p : String) (rest : List String)
    (hseq : jsStartsWith p "SEQ:" = true) :
    patternsMeasure (parseNestedGroup (strDrop p 4)) <
      patternsMeasure (p :: rest) := by
  have hlen : 4 ≤ p.data.length := by
    unfold jsStartsWith at hseq
    have := List.IsPrefix.length_le (List.isPrefixOf_iff_prefix.mp hseq)
    simpa using this
  unfold patternsMeasure parseNestedGroup strDrop
  have hdata : ((p.data.drop 4).asString).data = p.data.drop 4 := rfl
  simp only [hdata]
  have hinner := splitChar_sum_add_length ','
    (((p.data.drop 4)).drop 1).dropLast
  have hlen2 : ((p.data.drop 4).drop 1).dropLast.length ≤ p.data.length - 4 := by
    simp only [List.length_dropLast, List.length_drop]
    omega
  set pieces := splitChar ',' ((p.data.drop 4).drop 1).dropLast with hp
  have hmap : ((pieces.map (fun cs => (trimChars cs).asString)).map
      (fun q => q.data.length)).sum ≤ (pieces.map List.length).sum := by
    rw [List.map_map]
    apply List.sum_le_sum
    intro cs _
    simpa using trimChars_length_le cs
  simp only [List.length_map, List.map_cons, List.sum_cons]
  omega

/-- The worker of `PatternMatcher.resolvePatterns`: fold the patterns left
to right over the running result.  The nested-group branch of
`processSequential` re-enters the full `resolvePatterns` (including its
final duplicate removal). -/
def resolveGo (scriptNames : List String) :
    Nat → List String → List String → Except String (List String)
  | 0, _, result => .ok result
  | _ + 1, [], result => .ok result
  | fuel + 1, p :: rest, result =>
    if jsStartsWith p "!" then
      resolveGo scriptNames fuel rest (processExclusion (strDrop p 1) result)
    else if jsStartsWith p "SEQ:" then
      let actualPattern := strDrop p 4
      if jsStartsWith actualPattern "[" && jsEndsWith actualPattern "]" then
        match resolveGo scriptNames fuel (parseNestedGroup actualPattern) [] with
        | .error e => .error e
        | .ok nested =>
          resolveGo scriptNames fuel rest
            (result ++ nested.eraseDups.map (fun r => "SEQ:" ++ r))
      else
        resolveGo scriptNames fuel rest
          (result ++ (micromatch scriptNames actualPattern).map
            (fun m => "SEQ:" ++ m))
    else
      match findMatches p scriptNames with
      | .error e => .error e
      | .ok ms => resolveGo scriptNames fuel rest (result ++ ms)

/-- `PatternMatcher.resolvePatterns`: process all patterns, then remove
duplicates while preserving order (`[...new Set(result)]`).  The fuel of
`patternsMeasure patterns + 1` always suffices: every recursion step
strictly decreases `patternsMeasure` of the pattern list
(`patternsMeasure_nested_lt` for the nested-group branch). -/
def resolvePatterns (patterns : List String) (availableScripts : List Script) :
    Except String (List String) :=
  let scriptNames := availableScripts.map (fun s => s.name)
  (resolveGo scriptNames (patternsMeasure patterns + 1) patterns []).map
    List.eraseDups

/-! ## A small backtracking regular-expression engine

`GraphBuilder` classifies and parses manifest commands with four JavaScript
regular expressions.  We model them with an explicit AST and an engine that
enumerates every match of a prefix of the input, in JavaScript's
backtracking priority order: alternation is left-biased, greedy `*`/`+`/`?`
prefer longer matches, lazy `*?`/`+?` prefer shorter ones.  Star iterations
must consume input (the standard no-empty-iteration semantics; every star
body below consumes at least one character anyway).  None of the modelled
regexes places a capture group under a quantifier, so capture-overwrite
order is irrelevant. -/

/-- Character classes occurring in the modelled regexes: `.` (any character
except newline), `\s` (whitespace) and `\d` (a decimal digit). -/
inductive CharClass where
  | dot
  | ws
  | digit
deriving Repr, DecidableEq

/-- Does a character belong to a class? -/
def classMatch : CharClass → Char → Bool
  | .dot, c => c ≠ '\n'
  | .ws, c => c.isWhitespace
  | .digit, c => c.isDigit

/-- Regular-expression AST.  `starG`/`starL` are greedy/lazy Kleene star,
`optG` a greedy `(?: … )?`, `group i` a numbered capture group. -/
inductive RE where
  | eps
  | ch (c : Char)
  | cls (k : CharClass)
  | seq (a b : RE)
  | alt (a b : RE)
  | starG (a : RE)
  | starL (a : RE)
  | optG (a : RE)
  | group (idx : Nat) (a : RE)
deriving Repr, DecidableEq

/-- Captured groups: group index paired with the captured characters. -/
abbrev Caps := List (Nat × List Char)

/-- Structural size of a regex, used to bound the engine's recursion
depth. -/
def reSize : RE → Nat
  | .eps => 1
  | .ch _ => 1
  | .cls _ => 1
  | .seq a b => reSize a + reSize b + 1
  | .alt a b => reSize a + reSize b + 1
  | .starG a => reSize a + 1
  | .starL a => reSize a + 1
  | .optG a => reSize a + 1
  | .group _ a => reSize a + 1

/-- The fuelled engine: all ways to match a prefix of `s` against `re`, as
(captures, rest of input) pairs, in backtracking priority order.  Every
recursive call strictly decreases `reSize re + s.length`, so the wrapper's
fuel of `reSize re + s.length + 1` is never exhausted. -/
def reMatchF : Nat → RE → List Char → List (Caps × List Char)
  | 0, _, _ => []
  | fuel + 1, re, s =>
    match re with
    | .eps => [([], s)]
    | .ch c =>
      match s with
      | [] => []
      | d :: t => if c = d then [([], t)] else []
    | .cls k =>
      match s with
      | [] => []
      | d :: t => if classMatch k d then [([], t)] else []
    | .seq a b =>
      (reMatchF fuel a s).flatMap
        (fun pr => (reMatchF fuel b pr.2).map (fun qr => (pr.1 ++ qr.1, qr.2)))
    | .alt a b => reMatchF fuel a s ++ reMatchF fuel b s
    | .optG a => reMatchF fuel a s ++ [([], s)]
    | .starG a =>
      ((reMatchF fuel a s).flatMap
        (fun pr =>
          if pr.2.length < s.length then
            (reMatchF fuel (.starG a) pr.2).map
              (fun qr => (pr.1 ++ qr.1, qr.2))
          else [])) ++ [([], s)]
    | .starL a =>
      ([], s) ::
        (reMatchF fuel a s).flatMap
          (fun pr =>
            if pr.2.length < s.length then
              (reMatchF fuel (.starL a) pr.2).map
                (fun qr => (pr.1 ++ qr.1, qr.2))
            else [])
    | .group i a =>
      (reMatchF fuel a s).map
        (fun pr => ((i, s.take (s.length - pr.2.length)) :: pr.1, pr.2))

/-- All ways to match a prefix of `s` against `re` (sufficient fuel). -/
def reMatch (re : RE) (s : List Char) : List (Caps × List Char) :=
  reMatchF (reSize re + s.length + 1) re s

/-- Look up capture group `i` (the first hit wins; groups are unique in the
modelled regexes). -/
def capLookup (caps : Caps) (i : Nat) : Option String :=
  (caps.find? (fun pr => pr.1 = i)).map (fun pr => pr.2.asString)

/-- `s.match(re)` for a `^…$`-anchored regex: the highest-priority match
consuming the whole input. -/
def reFullMatch (re : RE) (s : String) : Option Caps :=
  ((reMatch re s.data).find? (fun pr => pr.2.isEmpty)).map (fun pr => pr.1)

/-- `re.test(s)` for a `^…`-anchored regex without `$`: does any prefix
match? -/
def reTest (re : RE) (s : String) : Bool :=
  !(reMatch re s.data).isEmpty

/-- The non-empty suffixes of a list, longest (leftmost start) first,
ending with `[]`. -/
def tailsList : List Char → List (List Char)
  | [] => [[]]
  | c :: t => (c :: t) :: tailsList t

/-- `s.match(re)` for an unanchored regex ending in `$`: try each start
position from the left, taking the first position with a match that
reaches the end of the input. -/
def reSearchFull (re : RE) (s : String) : Option Caps :=
  (tailsList s.data).findSome?
    (fun suf => ((reMatch re suf).find? (fun pr => pr.2.isEmpty)).map
      (fun pr => pr.1))

/-- A literal string as a regex. -/
def strRE (s : String) : RE :=
  s.data.foldr (fun c r => .seq (.ch c) r) .eps

/-- Greedy `+`. -/
def plusG (a : RE) : RE := .seq a (.starG a)

/-- Lazy `+?`. -/
def plusL (a : RE) : RE := .seq a (.starL a)

/-- `\s` -/
def wsRE : RE := .cls .ws

/-- `.` -/
def dotRE : RE := .cls .dot

/-- `(?:f|frunk)` -/
def aliasRE : RE := .alt (strRE "f") (strRE "frunk")

/-- `SIMPLE_FRUNK_PATTERN`: `^(?:f|frunk)\s+--\s+(.+)$` -/
def simpleFrunkRE : RE :=
  .seq aliasRE (.seq (plusG wsRE)
    (.seq (strRE "--") (.seq (plusG wsRE) (.group 1 (plusG dotRE)))))

/-- The `(\[.+?\])` capture group shared by the standard and path-based
patterns. -/
def bracketGroupRE : RE :=
  .group 1 (.seq (.ch '[') (.seq (plusL dotRE) (.ch ']')))

/-- The shared tail `(?:\s+.*?)?\s*(?:--\s+(.+))?` of the standard and
path-based patterns. -/
def frunkTailRE : RE :=
  .seq (.optG (.seq (plusG wsRE) (.starL dotRE)))
    (.seq (.starG wsRE)
      (.optG (.seq (strRE "--") (.seq (plusG wsRE) (.group 2 (plusG dotRE))))))

/-- `STANDARD_FRUNK_PATTERN`:
`^(?:f|frunk)\s+(\[.+?\])(?:\s+.*?)?\s*(?:--\s+(.+))?$` -/
def standardFrunkRE : RE :=
  .seq aliasRE (.seq (plusG wsRE) (.seq bracketGroupRE frunkTailRE))

/-- `PATH_BASED_PATTERN` (unanchored at the start):
`(?:cli\.js|node\s+.*\/cli\.js)\s+(\[.+?\])(?:\s+.*?)?\s*(?:--\s+(.+))?$` -/
def pathBasedRE : RE :=
  .seq (.alt (strRE "cli.js")
      (.seq (strRE "node") (.seq (plusG wsRE)
        (.seq (.starG dotRE) (strRE "/cli.js")))))
    (.seq (plusG wsRE) (.seq bracketGroupRE frunkTailRE))

/-- `NODE_CLI_PATTERN`: `^node\s+.*\/cli\.js\s+\[` -/
def nodeCliRE : RE :=
  .seq (strRE "node") (.seq (plusG wsRE)
    (.seq (.starG dotRE) (.seq (strRE "/cli.js")
      (.seq (plusG wsRE) (.ch '[')))))

/-! ## `GraphBuilder.parseFrunkCommand` and the `SEQ` marker helpers
(`src/core/graph-builder.ts`) -/

/-- The result of parsing an orchestration invocation: raw dependency
patterns and the optional trailing command. -/
structure FrunkCmd where
  dependencies : List String
  finalCommand : Option String
deriving Repr, DecidableEq

/-- The standard/path-based branch of `parseFrunkCommand`: try the standard
`f`/`frunk` format, fall back to the path-based format, then split the
bracketed group on commas. -/
def parseFrunkStd (command : String) : Option FrunkCmd :=
  let m : Option Caps :=
    match reFullMatch standardFrunkRE command with
    | some caps => some caps
    | none => reSearchFull pathBasedRE command
  match m with
  | none => none
  | some caps =>
    match capLookup caps 1 with
    | none => none
    | some patternsStr =>
      if patternsStr = "" then none
      else if jsStartsWith patternsStr "[" && jsEndsWith patternsStr "]" then
        let pats := ((splitChar ',' (patternsStr.data.drop 1).dropLast).map
          (fun cs => (trimChars cs).asString)).filter (fun p => p ≠ "")
        let finalCommand :=
          match capLookup caps 2 with
          | some f => if f ≠ "" then some (jsTrim f) else none
          | none => none
        some { dependencies := pats, finalCommand := finalCommand }
      else none

/-- `GraphBuilder.parseFrunkCommand`: first the simple `f -- command`
format (no dependencies), then the standard and path-based formats. -/
def parseFrunkCommand (command : String) : Option FrunkCmd :=
  let simpleG1 : Option String :=
    match reFullMatch simpleFrunkRE command with
    | some caps => capLookup caps 1
    | none => none
  match simpleG1 with
  | some g1 =>
    if g1 ≠ "" then some { dependencies := [], finalCommand := some (jsTrim g1) }
    else parseFrunkStd command
  | none => parseFrunkStd command

/-- The `isFrunkCommand` classification in `processScript`: alias prefix,
distribution path, or the `node …/cli.js [` shape. -/
def isFrunkCommand (cmd : String) : Bool :=
  jsStartsWith cmd "f " || jsStartsWith cmd "frunk " ||
    jsIncludes cmd "/frunk/dist/cli.js" || jsIncludes cmd "frunk/dist/cli.js" ||
    reTest nodeCliRE cmd

/-- `p.replace(SEQ_MARKER_REGEX, "")` with `SEQ_MARKER_REGEX = /^SEQ\d*:/`:
strip a leading `SEQ<digits>:` marker if present. -/
def stripSeqMarker (p : String) : String :=
  match p.data with
  | 'S' :: 'E' :: 'Q' :: rest =>
    let ds := rest.takeWhile Char.isDigit
    match rest.drop ds.length with
    | ':' :: tail => tail.asString
    | _ => p
  | _ => p

/-- The digit characters of a decimal numeral as a number
(`Number.parseInt(s, 10)` on an all-digit string). -/
def natOfDigits (ds : List Char) : Nat :=
  ds.foldl (fun a c => a * 10 + (c.toNat - 48)) 0

/-- `p.match(SEQ_INDEX_CAPTURE)` with `SEQ_INDEX_CAPTURE = /^SEQ(\d+):(.+)$/`:
the group index and the remaining script name. -/
def seqIndexCapture (p : String) : Option (Nat × String) :=
  match p.data with
  | 'S' :: 'E' :: 'Q' :: rest =>
    let ds := rest.takeWhile Char.isDigit
    if ds.isEmpty then none
    else
      match rest.drop ds.length with
      | ':' :: tail =>
        if tail.isEmpty then none else some (natOfDigits ds, tail.asString)
      | _ => none
  | _ => none

/-- Insert into an ascending list, keeping it sorted. -/
def insertSorted (a : Nat) : List Nat → List Nat
  | [] => [a]
  | b :: t => if a ≤ b then a :: b :: t else b :: insertSorted a t

/-- `Array.sort` with the ascending comparator, on the group indices
(a stable sort; the indices are distinct here). -/
def sortNat (l : List Nat) : List Nat := l.foldr insertSorted []

/-- `GraphBuilder.parseSequentialGroups`: group the patterns by their
`SEQn:` index, order groups by ascending index, and append the
non-sequential patterns as a final group. -/
def parseSequentialGroups (patterns : List String) : List (List String) :=
  if patterns.isEmpty then []
  else
    let hasSequential := patterns.any (fun p => (seqIndexCapture p).isSome)
    if !hasSequential then [patterns]
    else
      let st := patterns.foldl
        (fun (st : List (Nat × List String) × List String) pattern =>
          match seqIndexCapture pattern with
          | some (groupIndex, scriptName) =>
            if st.1.any (fun e => e.1 = groupIndex) then
              (st.1.map (fun e =>
                if e.1 = groupIndex then (e.1, e.2 ++ [scriptName]) else e),
               st.2)
            else (st.1 ++ [(groupIndex, [scriptName])], st.2)
          | none => (st.1, st.2 ++ [pattern]))
        ([], [])
      let sortedIndices := sortNat (st.1.map (fun e => e.1))
      let groups := sortedIndices.foldl
        (fun acc idx =>
          match st.1.find? (fun e => e.1 = idx) with
          | some e => if e.2.length > 0 then acc ++ [e.2] else acc
          | none => acc)
        []
      if st.2.length > 0 then groups ++ [st.2] else groups

/-! ## The dependency graph (model of the external `graphlib` `Graph`)

An insertion-ordered store of nodes (keyed by name, with an optional
`TaskNode` value — `setEdge` creates valueless implicit nodes, exactly as
graphlib does) and of directed edges (deduplicated, dependent →
dependency). -/

/-- The value stored at a graph node by `buildGraph`.  `isPlaceholder` is
declared in the source but never set. -/
structure TaskNode where
  task : Task
  isPlaceholder : Option Bool := none
deriving Repr, DecidableEq

/-- Model of a `graphlib` `Graph` as used by `buildGraph`. -/
structure DGraph where
  nodes : List (String × Option TaskNode)
  edges : List (String × String)
deriving Repr, DecidableEq

namespace DGraph

/-- The empty graph (`new Graph()`). -/
def empty : DGraph := ⟨[], []⟩

/-- `graph.hasNode(v)`. -/
def hasNode (g : DGraph) (v : String) : Bool :=
  g.nodes.any (fun e => e.1 = v)

/-- `graph.node(v)`: the stored value, if any. -/
def node (g : DGraph) (v : String) : Option TaskNode :=
  match g.nodes.find? (fun e => e.1 = v) with
  | some e => e.2
  | none => none

/-- `graph.setNode(v, value)`: update in place if present (order kept),
else append. -/
def setNode (g : DGraph) (v : String) (tn : TaskNode) : DGraph :=
  if g.hasNode v then
    ⟨g.nodes.map (fun e => if e.1 = v then (e.1, some tn) else e), g.edges⟩
  else ⟨g.nodes ++ [(v, some tn)], g.edges⟩

/-- Create a valueless node if absent (what `setEdge` does implicitly). -/
def ensureNode (g : DGraph) (v : String) : DGraph :=
  if g.hasNode v then g else ⟨g.nodes ++ [(v, none)], g.edges⟩

/-- `graph.setEdge(v, w)`: create endpoints if needed, then add the edge if
not already present. -/
def setEdge (g : DGraph) (v w : String) : DGraph :=
  let g := (g.ensureNode v).ensureNode w
  if g.edges.contains (v, w) then g
  else ⟨g.nodes, g.edges ++ [(v, w)]⟩

/-- `graph.nodes()`: keys in insertion order. -/
def nodeKeys (g : DGraph) : List String :=
  g.nodes.map (fun e => e.1)

/-- `graph.successors(v)`: targets of the edges leaving `v`, in edge
insertion order. -/
def successors (g : DGraph) (v : String) : List String :=
  (g.edges.filter (fun e => e.1 = v)).map (fun e => e.2)

/-- Does the key hold a stored value (a real task node rather than an
implicit one)? -/
def isValueKey (g : DGraph) (v : String) : Bool :=
  (g.node v).isSome

end DGraph

/-- Filtering by a stronger predicate never gives a longer list. -/
theorem length_filter_le_of_imp {α : Type} (l : List α)
    (p q : α → Bool) (himp : ∀ x, p x = true → q x = true) :
    (l.filter p).length ≤ (l.filter q).length := by
  induction l with
  | nil => simp
  | cons a rest ih =>
    cases hpa : p a with
    | false =>
      cases hqa : q a with
      | false => simpa [List.filter_cons, hpa, hqa] using ih
      | true => simp only [List.filter_cons, hpa, hqa, if_true, if_false,
                  Bool.false_eq_true, List.length_cons]
                omega
    | true =>
      simp only [List.filter_cons, hpa, himp a hpa, if_true, List.length_cons]
      omega

/-- Filtering out an actual member strictly shrinks a list. -/
theorem length_filter_lt_length {α : Type} (l : List α) (p : α → Bool)
    {x : α} (hx : x ∈ l) (hpx : p x = false) :
    (l.filter p).length < l.length := by
  induction l with
  | nil => cases hx
  | cons a rest ih =>
    rcases List.mem_cons.mp hx with rfl | hmem
    · have := List.length_filter_le p rest
      simp only [List.filter_cons, hpx, if_false, Bool.false_eq_true,
        List.length_cons]
      omega
    · cases hpa : p a with
      | false =>
        have := ih hmem
        simp only [List.filter_cons, hpa, if_false, Bool.false_eq_true,
          List.length_cons]
        omega
      | true =>
        have := ih hmem
        simp only [List.filter_cons, hpa, if_true, List.length_cons]
        omega

/-- If `p` implies `q` and some list element satisfies `q` but not `p`,
filtering by `p` gives a strictly shorter list than filtering by `q`. -/
theorem length_filter_lt_of_imp {α : Type} (l : List α)
    (p q : α → Bool) (himp : ∀ x, p x = true → q x = true) {x : α}
    (hx : x ∈ l) (hqx : q x = true) (hpx : p x = false) :
    (l.filter p).length < (l.filter q).length := by
  induction l with
  | nil => cases hx
  | cons a rest ih =>
    rcases List.mem_cons.mp hx with rfl | hmem
    · have hle := length_filter_le_of_imp rest p q himp
      simp only [List.filter_cons, hpx, hqx, if_true, if_false,
        Bool.false_eq_true, List.length_cons]
      omega
    · cases hpa : p a with
      | false =>
        cases hqa : q a with
        | false => simpa [List.filter_cons, hpa, hqa] using ih hmem
        | true =>
          have := ih hmem
          simp only [List.filter_cons, hpa, hqa, if_true, if_false,
            Bool.false_eq_true, List.length_cons]
          omega
      | true =>
        have := ih hmem
        simp only [List.filter_cons, hpa, himp a hpa, if_true, List.length_cons]
        omega

/-! ## `graphlib.alg`: topological sort, acyclicity, cycle components

`alg.topsort` (contract: for every edge `v → w`, `v` precedes `w`;
defined only on acyclic graphs), `alg.isAcyclic` (decides cycle
existence) and `alg.findCycles` (the strongly connected components lying
on a cycle) are modelled by a Kahn-style elimination and a reachability
closure. -/

/-- A node is ready for (dependency-first) output when all of its
successors have already left `remaining`. -/
def kahnReady (g : DGraph) (remaining : List String) (v : String) : Bool :=
  (g.successors v).all (fun w => !remaining.contains w)

/-- Kahn elimination, sinks (dependency ends) first.  Returns the emitted
order and the nodes that could never be emitted (empty iff acyclic). -/
def kahnGo (g : DGraph) (remaining acc : List String) :
    List String × List String :=
  let ready := remaining.filter (kahnReady g remaining)
  if h : ready.isEmpty then (acc, remaining)
  else
    kahnGo g (remaining.filter (fun v => !ready.contains v)) (acc ++ ready)
termination_by remaining.length
decreasing_by
  rcases List.isEmpty_eq_false_iff_exists_mem.mp (by simpa using h) with ⟨x, hx⟩
  have hx' : x ∈ List.filter (kahnReady g remaining) remaining := hx
  have hcon : (List.filter (kahnReady g remaining) remaining).contains x = true :=
    List.elem_eq_true_of_mem hx'
  obtain ⟨hmemr, hready⟩ := List.mem_filter.mp hx'
  show (List.filter
      (fun v => !(List.filter (kahnReady g remaining) remaining).contains v)
      remaining).length < remaining.length
  exact length_filter_lt_length remaining
    (fun v => !(List.filter (kahnReady g remaining) remaining).contains v)
    hmemr (by simpa using hx')

/-- One Kahn pass over the whole node set. -/
def kahn (g : DGraph) : List String × List String :=
  kahnGo g g.nodeKeys []

/-- `alg.isAcyclic(graph)`: no node was left behind. -/
def isAcyclicG (g : DGraph) : Bool :=
  (kahn g).2.isEmpty

/-- `alg.topsort(graph)`: dependents before dependencies reversed, i.e.,
for every edge `v → w`, `v` precedes `w`. -/
def topsortG (g : DGraph) : List String :=
  (kahn g).1.reverse

/-- One step of the reachability closure: add all successors of the
current set that are not yet present. -/
def expandStep (g : DGraph) (s : List String) : List String :=
  let add := (s.flatMap (fun v => g.successors v)).filter
    (fun w => !s.contains w)
  s ++ add.eraseDups

/-- Iterate `expandStep` to a fixpoint (fuel-bounded; the fuel used below
always suffices). -/
def reachClosure (g : DGraph) : Nat → List String → List String
  | 0, s => s
  | fuel + 1, s =>
    let s' := expandStep g s
    if s'.length = s.length then s else reachClosure g fuel s'

/-- All nodes reachable from `v` (including `v` itself). -/
def reachSet (g : DGraph) (v : String) : List String :=
  reachClosure g (g.nodes.length + 1) [v]

/-- Does `v` lie on a directed cycle? -/
def onCycle (g : DGraph) (v : String) : Bool :=
  (g.successors v).any (fun w => (reachSet g w).contains v)

/-- The component-collecting step of `findCyclesG`: skip a node already
placed in a component, otherwise append its mutual-reachability
component. -/
def compStep (g : DGraph) (base : List String)
    (acc : List (List String)) (v : String) : List (List String) :=
  if acc.any (fun comp => comp.contains v) then acc
  else
    acc ++ [base.filter (fun u =>
      (reachSet g v).contains u && (reachSet g u).contains v)]

/-- `alg.findCycles(graph)`: group the nodes lying on a cycle into their
mutually-reachable components. -/
def findCyclesG (g : DGraph) : List (List String) :=
  let cyc := g.nodeKeys.filter (onCycle g)
  cyc.foldl (compStep g cyc) []

/-! ## `GraphBuilder.buildGraph` (`src/core/graph-builder.ts`)

The discovery pass is the recursive `processScript` closure.  It is
modelled as a job-stack loop that preserves the source's evaluation order
exactly: processing a parsed orchestration entry pushes, for each resolved
dependency in order, first the `setEdge` and then the recursive
`processScript` of that dependency; the shared mutable `visited` set is
threaded through, and each top-level target starts with a fresh one. -/

/-- A pending step of the discovery recursion. -/
inductive Job where
  | proc (name : String)
  | edge (src dst : String)
deriving Repr, DecidableEq

/-- `scriptMap.get(name)` for `scriptMap = new Map(scripts.map(s =>
[s.name, s]))`: the **last** entry with the name wins. -/
def lookupScript (smap : List Script) (n : String) : Option Script :=
  smap.reverse.find? (fun s => s.name = n)

/-- `Array.from(scriptMap.values())`: one entry per name, in first-seen
order, carrying the last-written value. -/
def scriptMapValues (smap : List Script) : List Script :=
  smap.foldl
    (fun acc s =>
      if acc.any (fun t => t.name = s.name) then
        acc.map (fun t => if t.name = s.name then s else t)
      else acc ++ [s])
    []

/-- Dependency resolution for one parsed entry, including the
`try/catch` fallback: on a resolution error, keep only the literal
dependencies that name existing scripts. -/
def effectiveDeps (smap : List Script) (fc : FrunkCmd) : List String :=
  match resolvePatterns fc.dependencies (scriptMapValues smap) with
  | .ok deps => deps
  | .error _ => fc.dependencies.filter (fun d => (lookupScript smap d).isSome)

/-- The task node for a non-orchestration (or unparseable) entry: the
manifest command verbatim. -/
def asIsTaskNode (n cmd : String) : TaskNode :=
  { task := { name := n, command := cmd, dependencies := [] } }

/-- The task node for a parsed orchestration entry: the trailing command,
or the `echo "No command"` placeholder when it is absent or empty. -/
def frunkTaskNode (n : String) (fc : FrunkCmd) : TaskNode :=
  { task := { name := n,
              command := jsStrOr fc.finalCommand "echo \"No command\"",
              dependencies := [] } }

/-- Number of script names not yet visited — the discovery loop's
termination measure. -/
def unvisitedCount (smap : List Script) (visited : List String) : Nat :=
  ((smap.map (fun s => s.name)).filter (fun x => !visited.contains x)).length

theorem lookupScript_none_not_mem {smap : List Script} {n : String}
    (h : lookupScript smap n = none) : n ∉ smap.map (fun s => s.name) := by
  intro hmem
  rcases List.mem_map.mp hmem with ⟨s, hs, hname⟩
  have := List.find?_eq_none.mp h s (List.mem_reverse.mpr hs)
  simp [hname] at this

theorem lookupScript_some_mem {smap : List Script} {n : String} {s : Script}
    (h : lookupScript smap n = some s) : n ∈ smap.map (fun s => s.name) := by
  have hmem := List.mem_reverse.mp (List.mem_of_find?_eq_some h)
  have hname := List.find?_some h
  simp only [decide_eq_true_eq] at hname
  exact List.mem_map.mpr ⟨s, hmem, hname⟩

theorem unvisitedCount_cons_of_not_mem {smap : List Script} {n : String}
    (visited : List String) (h : n ∉ smap.map (fun s => s.name)) :
    unvisitedCount smap (n :: visited) = unvisitedCount smap visited := by
  unfold unvisitedCount
  congr 1
  apply List.filter_congr
  intro x hx
  have hxn : x ≠ n := fun heq => h (heq ▸ hx)
  simp [List.contains_cons, hxn]

theorem unvisitedCount_cons_lt {smap : List Script} {n : String}
    {visited : List String} (hmem : n ∈ smap.map (fun s => s.name))
    (hnv : visited.contains n = false) :
    unvisitedCount smap (n :: visited) < unvisitedCount smap visited := by
  unfold unvisitedCount
  refine length_filter_lt_of_imp _ _ _ ?_ hmem ?_ ?_
  · intro x hx
    simp only [Bool.not_eq_true', List.contains_cons, Bool.or_eq_false_iff] at hx
    simp only [Bool.not_eq_true']
    exact hx.2
  · simp only [Bool.not_eq_true']
    exact hnv
  · simp [List.contains_cons]

/-- The discovery loop (`processScript` and the loop over the requested
script names, as a job stack).  `visited` is the mutable set shared along
the recursion. -/
def discoverLoop (smap : List Script) :
    List Job → List String → DGraph → DGraph
  | [], _, g => g
  | .edge u v :: rest, visited, g =>
    discoverLoop smap rest visited (g.setEdge u v)
  | .proc n :: rest, visited, g =>
    if hv : visited.contains n then discoverLoop smap rest visited g
    else
      match hl : lookupScript smap n with
      | none => discoverLoop smap rest (n :: visited) g
      | some script =>
        if isFrunkCommand script.command then
          match parseFrunkCommand script.command with
          | some fc =>
            discoverLoop smap
              ((effectiveDeps smap fc).flatMap
                (fun d => [Job.edge n d, Job.proc d]) ++ rest)
              (n :: visited)
              (g.setNode n (frunkTaskNode n fc))
          | none =>
            discoverLoop smap rest (n :: visited)
              (g.setNode n (asIsTaskNode n script.command))
        else
          discoverLoop smap rest (n :: visited)
            (g.setNode n (asIsTaskNode n script.command))
termination_by jobs visited _ => (unvisitedCount smap visited, jobs.length)
decreasing_by
  · exact Prod.Lex.right _ (by simp)
  · exact Prod.Lex.right _ (by simp)
  · rw [unvisitedCount_cons_of_not_mem visited (lookupScript_none_not_mem hl)]
    exact Prod.Lex.right _ (by simp)
  · exact Prod.Lex.left _ _
      (unvisitedCount_cons_lt (lookupScript_some_mem hl)
        (Bool.not_eq_true _ ▸ (by simpa using hv)))
  · exact Prod.Lex.left _ _
      (unvisitedCount_cons_lt (lookupScript_some_mem hl)
        (Bool.not_eq_true _ ▸ (by simpa using hv)))
  · exact Prod.Lex.left _ _
      (unvisitedCount_cons_lt (lookupScript_some_mem hl)
        (Bool.not_eq_true _ ▸ (by simpa using hv)))

/-- The graph key of the synthesized trailing-command node. -/
def COMMAND_NODE_NAME : String := "__frunk_command__"

/-- The discovery phase over all requested patterns (markers stripped);
each target starts with a fresh `visited` set. -/
def mkDiscoveryGraph (patterns : List String) (smap : List Script) : DGraph :=
  (patterns.map stripSeqMarker).foldl
    (fun g n => discoverLoop smap [Job.proc n] [] g) DGraph.empty

/-- Cross-group sequential edges: every node of group `N+1` gains an edge
to every node of group `N`, provided both exist in the graph. -/
def addSeqEdges (g : DGraph) (groups : List (List String)) : DGraph :=
  (groups.zip groups.tail).foldl
    (fun g pr =>
      pr.2.foldl
        (fun g currentScript =>
          pr.1.foldl
            (fun g prevScript =>
              if g.hasNode currentScript && g.hasNode prevScript then
                g.setEdge currentScript prevScript
              else g)
            g)
        g)
    g

/-- The synthesized trailing-command node: created when a (truthy) command
and at least one requested script name are present, with an edge to every
requested script that exists in the graph. -/
def addCommandNode (g : DGraph) (command : Option String)
    (resolvedScriptNames : List String) : DGraph :=
  match command with
  | some c =>
    if c ≠ "" && resolvedScriptNames.length > 0 then
      let g := g.setNode COMMAND_NODE_NAME
        { task := { name := "command", command := c, dependencies := [] } }
      resolvedScriptNames.foldl
        (fun g depName =>
          if g.hasNode depName then g.setEdge COMMAND_NODE_NAME depName
          else g)
        g
    else g
  | none => g

/-- The complete internal graph built by `buildGraph` before validation:
discovery, then sequential edges, then the trailing-command node. -/
def fullGraph (patterns : List String) (smap : List Script)
    (command : Option String) : DGraph :=
  addCommandNode
    (addSeqEdges (mkDiscoveryGraph patterns smap)
      (parseSequentialGroups patterns))
    command (patterns.map stripSeqMarker)

/-- `node_${counter}`. -/
def nodeId (i : Nat) : String := "node_" ++ Nat.repr i

/-- The node-construction loop over the reversed topological order:
skip valueless or already-processed keys, translate the successors that
already have ids, assign the next id. -/
def buildNodesGo (g : DGraph) :
    List String → List ExecutionNode → List (String × String) → Nat →
      List ExecutionNode
  | [], nodes, _, _ => nodes
  | taskName :: rest, nodes, nodeIdMap, counter =>
    match g.node taskName with
    | none => buildNodesGo g rest nodes nodeIdMap counter
    | some tn =>
      if nodeIdMap.any (fun e => e.1 = taskName) then
        buildNodesGo g rest nodes nodeIdMap counter
      else
        let depNodeIds := (g.successors taskName).filterMap
          (fun dep => (nodeIdMap.find? (fun e => e.1 = dep)).map
            (fun e => e.2))
        buildNodesGo g rest
          (nodes ++ [{ id := nodeId counter, tasks := [tn.task],
                       dependencies := depNodeIds, sequential := false }])
          (nodeIdMap ++ [(taskName, nodeId counter)])
          (counter + 1)

/-- The two `throw` sites reachable from `buildGraph`: the circular
dependency error, and (were it not caught) the pattern matcher's
`Script not found`.  The latter constructor exists so that "buildGraph
never surfaces a resolution error" is a statable fact. -/
inductive BuildErr where
  | circular (cycles : List (List String))
  | scriptNotFound (message : String)
deriving Repr, DecidableEq

/-- A JavaScript-truthy optional command string: present and nonempty. -/
def cmdTruthy : Option String → Bool
  | some c => c ≠ ""
  | none => false

/-- `GraphBuilder.buildGraph`: build the internal graph, fail on a cycle,
then emit execution nodes in dependency-first order, with the two
empty-pattern special cases appended. -/
def buildGraph (patterns : List String) (availableScripts : List Script)
    (_config : Config) (command : Option String) :
    Except BuildErr (List ExecutionNode) :=
  let g := fullGraph patterns availableScripts command
  if !(isAcyclicG g) then .error (.circular (findCyclesG g))
  else
    let nodes := buildNodesGo g (topsortG g).reverse [] [] 0
    if patterns.length = 0 && cmdTruthy command then
      .ok (nodes ++ [{ id := nodeId nodes.length,
                       tasks := [{ name := "command",
                                   command := command.getD "",
                                   dependencies := [] }],
                       dependencies := [], sequential := false }])
    else if patterns.length = 0 && nodes.length = 0 then
      .ok (nodes ++ [{ id := nodeId nodes.length, tasks := [],
                       dependencies := [], sequential := false }])
    else .ok nodes

/-! ## The `Executor` scheduling loop (`src/execution/executor.ts`)

The loop is modelled synchronously.  At every iteration boundary of the
source loop the `running` set is empty, because the loop `await`s the
joint completion of each launched batch before iterating (and each
`runNode`'s `finally` removes it from `running`), so the source's
`running.size === 0` check is represented by that fact.  Subprocess
execution is abstracted by an `outcome` oracle (`true` = exit 0); the
names of spawned tasks are collected in a log, in spawn order, so that
"no subprocess was spawned" is a statable fact.  Signal-driven shutdown
(`aborted`) is an external event and is not modelled (the flag stays
`false`). -/

/-- The errors `execute` can raise: the stuck-run error (with the ids of
the uncompleted nodes) or a propagated task failure. -/
inductive ExecErr where
  | stuck (nodeIds : List String)
  | taskFailed
deriving Repr, DecidableEq

/-- Run options (`RunOptions` in `src/types.ts`); only `continue` (here
`continueOnError`, a Lean keyword clash) influences scheduling. -/
structure RunOptions where
  quiet : Option Bool := none
  continueOnError : Option Bool := none
  prefixCfg : Option BoolOrString := none
  cwd : Option String := none
deriving Repr, DecidableEq

/-- `canRun`: not already completed (nor running — always empty at the
check, see above) and all dependencies completed. -/
def canRun (completed : List String) (node : ExecutionNode) : Bool :=
  !completed.contains node.id &&
    node.dependencies.all (fun dep => completed.contains dep)

/-- Sequential task execution inside one node: spawn in order; a failing
task stops the node unless `continueOnError`.  Returns the spawned task
names and whether any task failed. -/
def runTasksSeq (outcome : Task → Bool) (copt : Bool) :
    List Task → List String × Bool
  | [] => ([], false)
  | t :: rest =>
    if outcome t then
      let st := runTasksSeq outcome copt rest
      (t.name :: st.1, st.2)
    else if copt then
      let st := runTasksSeq outcome copt rest
      (t.name :: st.1, true)
    else ([t.name], true)

/-- One `runNode`: spawn the node's tasks (all of them when parallel),
returning the spawn log and whether the node threw (it throws exactly
when some task failed and `continueOnError` is off; otherwise, even a
node with failed tasks is added to `completed`). -/
def runNode (outcome : Task → Bool) (copt : Bool) (node : ExecutionNode) :
    List String × Bool :=
  if node.sequential then
    let st := runTasksSeq outcome copt node.tasks
    (st.1, st.2 && !copt)
  else
    (node.tasks.map (fun t => t.name),
     node.tasks.any (fun t => !outcome t) && !copt)

/-- One launched batch (`Promise.all(runnableNodes.map(runNode))`),
linearized: every runnable node runs, non-throwing nodes enter
`completed`, and any throw is re-raised after the batch. -/
def runRound (outcome : Task → Bool) (copt : Bool) :
    List ExecutionNode → List String → List String →
      List String × List String × Bool
  | [], completed, log => (completed, log, false)
  | node :: rest, completed, log =>
    let pr := runNode outcome copt node
    let st := runRound outcome copt rest
      (if pr.2 then completed else completed ++ [node.id]) (log ++ pr.1)
    (st.1, st.2.1, st.2.2 || pr.2)

theorem runRound_completed_length (outcome : Task → Bool) (copt : Bool)
    (runnable : List ExecutionNode) (completed log : List String)
    (h : (runRound outcome copt runnable completed log).2.2 = false) :
    (runRound outcome copt runnable completed log).1.length
      = completed.length + runnable.length := by
  induction runnable generalizing completed log with
  | nil => simp [runRound]
  | cons node rest ih =>
    simp only [runRound] at h ⊢
    cases hthrew : (runNode outcome copt node).2 with
    | true => simp [hthrew] at h
    | false =>
      simp only [hthrew, if_false, Bool.false_eq_true] at h ⊢
      rw [ih _ _ (by simpa using h)]
      simp only [List.length_append, List.length_cons, List.length_nil]
      omega

/-- The main execution loop of `Executor.execute`.  Each iteration either
finishes, raises the stuck-run error, or launches all runnable nodes and
re-iterates (re-raising after the batch if a node threw). -/
def executeLoop (nodes : List ExecutionNode) (copt : Bool)
    (outcome : Task → Bool) (completed log : List String) :
    Except ExecErr Unit × List String :=
  if hlt : completed.length < nodes.length then
    if hempty : (nodes.filter (canRun completed)).isEmpty then
      if (nodes.filter (fun n => !completed.contains n.id)).isEmpty then
        (.ok (), log)
      else
        (.error (.stuck ((nodes.filter
          (fun n => !completed.contains n.id)).map (fun n => n.id))), log)
    else
      if hthrew :
          (runRound outcome copt (nodes.filter (canRun completed))
            completed log).2.2 then
        (.error .taskFailed,
         (runRound outcome copt (nodes.filter (canRun completed))
           completed log).2.1)
      else
        executeLoop nodes copt outcome
          (runRound outcome copt (nodes.filter (canRun completed))
            completed log).1
          (runRound outcome copt (nodes.filter (canRun completed))
            completed log).2.1
  else (.ok (), log)
termination_by nodes.length - completed.length
decreasing_by
  have hlen := runRound_completed_length outcome copt
    (nodes.filter (canRun completed)) completed log (by simpa using hthrew)
  have hne : (nodes.filter (canRun completed)).length ≠ 0 := by
    simpa [List.isEmpty_iff_length_eq_zero] using hempty
  omega

/-- `Executor.execute` on a fresh executor: run the loop from empty
state.  `options.continue` is falsy when absent. -/
def execute (nodes : List ExecutionNode) (options : RunOptions)
    (outcome : Task → Bool) : Except ExecErr Unit × List String :=
  executeLoop nodes (options.continueOnError.getD false) outcome [] []

/-- A fatal error of a whole run: from the graph builder or from the
executor. -/
inductive RunErr where
  | build (e : BuildErr)
  | exec (e : ExecErr)
deriving Repr, DecidableEq

/-- Modelled from the spec: the Runner (`src/execution/runner.ts`, whose
source is not under `src/`) wires Pattern Resolver → Graph Builder →
Execution Engine (§2 control flow); "Graph Builder errors abort before
any subprocess is spawned" (§7), so a builder error is returned with an
empty spawn log and the Executor never receives a node list. -/
def run (patterns : List String) (scripts : List Script) (cfg : Config)
    (cmd : Option String) (options : RunOptions) (outcome : Task → Bool) :
    Except RunErr Unit × List String :=
  match buildGraph patterns scripts cfg cmd with
  | .error e => (.error (.build e), [])
  | .ok ns =>
    let st := execute ns options outcome
    (match st.1 with
     | .ok u => .ok u
     | .error e => .error (.exec e), st.2)

/-! ## The `Parser` (`src/core/parser.ts`) -/

/-- Split an argument list at the first `"--"` (the separator itself is
dropped); `none` when there is no separator. -/
def splitFirstSep : List String → Option (List String × List String)
  | [] => none
  | a :: rest =>
    if a = "--" then some ([], rest)
    else (splitFirstSep rest).map (fun pr => (a :: pr.1, pr.2))

/-- `Parser.extractCommand`: the arguments before the first `--` and the
command assembled (space-joined) from the tokens after it. -/
def extractCommand (args : List String) :
    List String × Option String :=
  match splitFirstSep args with
  | none => (args, none)
  | some pr => (pr.1, some (String.intercalate " " pr.2))

/-- `Parser.processLongFlag` (unknown flags only warn). -/
def processLongFlag (flag : String) (result : ParsedCommand) : ParsedCommand :=
  if flag = "quiet" ∨ flag = "q" then
    { result with config := { result.config with quiet := some true } }
  else if flag = "continue" ∨ flag = "c" then
    { result with config := { result.config with continueOnError := some true } }
  else if flag = "no-prefix" then
    { result with config := { result.config with prefixCfg := some (.bool false) } }
  else if jsStartsWith flag "prefix=" then
    { result with config :=
        { result.config with prefixCfg := some (.str (strDrop flag 7)) } }
  else result

/-- `Parser.processShortFlags` (unknown flags only warn). -/
def processShortFlags (flags : String) (result : ParsedCommand) :
    ParsedCommand :=
  flags.data.foldl
    (fun r flag =>
      if flag = 'q' then { r with config := { r.config with quiet := some true } }
      else if flag = 'c' then
        { r with config := { r.config with continueOnError := some true } }
      else r)
    result

/-- `Parser.parsePatternGroup`: strip brackets and split on top-level
commas, where `{`/`}` raise/lower the nesting depth (the depth is a
JavaScript number, hence an `Int`). -/
def parsePatternGroup (input : String) : List String :=
  let content := (input.data.drop 1).dropLast
  let st := content.foldl
    (fun (st : List String × List Char × Int) c =>
      let depth : Int :=
        if c = '{' then st.2.2 + 1 else if c = '}' then st.2.2 - 1 else st.2.2
      if c = ',' ∧ depth = 0 then
        ((if (trimChars st.2.1).isEmpty then st.1
          else st.1 ++ [(trimChars st.2.1).asString]), [], depth)
      else (st.1, st.2.1 ++ [c], depth))
    ([], [], 0)
  if (trimChars st.2.1).isEmpty then st.1
  else st.1 ++ [(trimChars st.2.1).asString]

/-- `Parser.splitByArrow`: split on `->` occurring at bracket depth 0
(the `>` is skipped); pieces are trimmed and empty pieces dropped. -/
def splitByArrowGo : List Char → List Char → Int → List String → List String
  | [], current, _, parts =>
    if (trimChars current).isEmpty then parts
    else parts ++ [(trimChars current).asString]
  | c :: rest, current, depth, parts =>
    let depth : Int :=
      if c = '[' then depth + 1 else if c = ']' then depth - 1 else depth
    if c = '-' ∧ rest.head? = some '>' ∧ depth = 0 then
      splitByArrowGo rest.tail [] depth
        (if (trimChars current).isEmpty then parts
         else parts ++ [(trimChars current).asString])
    else splitByArrowGo rest (current ++ [c]) depth parts
termination_by chars _ _ _ => chars.length
decreasing_by
  · have := rest.length_tail
    simp only [List.length_cons]
    omega
  · simp only [List.length_cons]
    omega

/-- `Parser.splitByArrow`. -/
def splitByArrow (input : String) : List String :=
  splitByArrowGo input.data [] 0 []

/-- `Parser.formatSequentialPart`: strip surrounding brackets, then tag
groups as `SEQ:[…]` and single items as `SEQ:…`. -/
def formatSequentialPart (part : String) : String :=
  let cleanPart :=
    if jsStartsWith part "[" && jsEndsWith part "]" then
      ((part.data.drop 1).dropLast).asString
    else part
  if containsChar cleanPart ',' then "SEQ:[" ++ cleanPart ++ "]"
  else "SEQ:" ++ cleanPart

/-- `Parser.processPattern`: sequential chains (containing `->`) are split
and tagged, parallel groups are comma-split. -/
def processPattern (arg : String) (result : ParsedCommand) : ParsedCommand :=
  if jsIncludes arg "->" then
    { result with patterns :=
        result.patterns ++ (splitByArrow arg).map formatSequentialPart }
  else
    { result with patterns := result.patterns ++ parsePatternGroup arg }

/-- `Parser.processArg`: bracketed pattern, long flag, short flags, or
ignored. -/
def processArg (arg : String) (result : ParsedCommand) : ParsedCommand :=
  if jsStartsWith arg "[" && jsEndsWith arg "]" then processPattern arg result
  else if jsStartsWith arg "--" then processLongFlag (strDrop arg 2) result
  else if jsStartsWith arg "-" then processShortFlags (strDrop arg 1) result
  else result

/-- `Parser.parse`: extract the trailing command, reject a nested
orchestrator invocation after `--`, then process the remaining
arguments. -/
def parse (args : List String) : Except String ParsedCommand :=
  let pr := extractCommand args
  match pr.2 with
  | some cmd =>
    if jsStartsWith cmd "f " || jsStartsWith cmd "frunk " then
      .error
        "Nested frunk commands are not supported. Cannot use 'f' or 'frunk' after '--'"
    else
      .ok (pr.1.foldl (fun r a => processArg a r)
        { config := {}, patterns := [], command := some cmd })
  | none =>
    .ok (pr.1.foldl (fun r a => processArg a r)
      { config := {}, patterns := [], command := none })

/-! ## Injectivity of `Nat.repr`

Node ids are `"node_" ++ Nat.repr counter`; counting id references
requires distinct counters to give distinct ids. -/

/-- The numeric value of a decimal digit character. -/
def digitVal (c : Char) : Nat := c.toNat - 48

/-- Decode a most-significant-first digit string. -/
def decodeDigits (l : List Char) : Nat :=
  l.foldl (fun a c => a * 10 + digitVal c) 0

theorem digitVal_digitChar {d : Nat} (hd : d < 10) :
    digitVal (Nat.digitChar d) = d := by
  interval_cases d <;> decide

theorem decodeDigits_append_singleton (l : List Char) (c : Char) :
    decodeDigits (l ++ [c]) = 10 * decodeDigits l + digitVal c := by
  unfold decodeDigits
  rw [List.foldl_append]
  simp [Nat.mul_comm]

theorem toDigitsCore_spec :
    ∀ n, ∀ fuel ds, n < fuel →
      Nat.toDigitsCore 10 fuel n ds = Nat.toDigitsCore 10 (n + 1) n [] ++ ds := by
  intro n
  induction n using Nat.strong_induction_on with
  | _ n ih =>
    intro fuel ds hfuel
    match fuel, hfuel with
    | f + 1, hfuel =>
      show Nat.toDigitsCore 10 (f + 1) n ds = _
      rw [Nat.toDigitsCore]
      conv_rhs => rw [Nat.toDigitsCore]
      by_cases hz : n / 10 = 0
      · simp [hz]
      · simp only [hz, if_false, reduceIte]
        have hlt : n / 10 < n := Nat.div_lt_self (by omega) (by omega)
        have h1 : n / 10 < f := by omega
        rw [ih (n / 10) hlt f _ h1, ih (n / 10) hlt n _ hlt]
        simp

theorem decodeDigits_toDigits :
    ∀ n, decodeDigits (Nat.toDigits 10 n) = n := by
  intro n
  induction n using Nat.strong_induction_on with
  | _ n ih =>
    unfold Nat.toDigits
    rw [Nat.toDigitsCore]
    by_cases hz : n / 10 = 0
    · have hn : n < 10 := by omega
      simp only [hz, reduceIte]
      show decodeDigits [Nat.digitChar (n % 10)] = n
      unfold decodeDigits
      simp [digitVal_digitChar (Nat.mod_lt n (by omega) : n % 10 < 10)]
      omega
    · simp only [hz, if_false, reduceIte]
      have hlt : n / 10 < n := Nat.div_lt_self (by omega) (by omega)
      rw [toDigitsCore_spec (n / 10) n _ hlt]
      rw [show Nat.toDigitsCore 10 (n / 10 + 1) (n / 10) [] =
        Nat.toDigits 10 (n / 10) from rfl]
      rw [decodeDigits_append_singleton, ih (n / 10) hlt,
        digitVal_digitChar (Nat.mod_lt n (by omega) : n % 10 < 10)]
      omega

theorem natRepr_inj {m n : Nat} (h : Nat.repr m = Nat.repr n) : m = n := by
  have hdata : (Nat.toDigits 10 m) = (Nat.toDigits 10 n) := by
    have := congrArg String.data h
    simpa [Nat.repr, List.asString] using this
  have := congrArg decodeDigits hdata
  rwa [decodeDigits_toDigits, decodeDigits_toDigits] at this

theorem nodeId_inj {i j : Nat} (h : nodeId i = nodeId j) : i = j := by
  apply natRepr_inj
  have := congrArg String.data h
  simp only [nodeId] at this
  have hd : ("node_" ++ Nat.repr i).data = ("node_" ++ Nat.repr j).data := this
  rw [String.data_append, String.data_append] at hd
  have := List.append_cancel_left hd
  cases hi : Nat.repr i with
  | mk di =>
    cases hj : Nat.repr j with
    | mk dj =>
      rw [hi, hj] at this
      simp only [String.data] at this
      rw [this]

/-! ## Basic lemmas about the graph operations -/

namespace DGraph

theorem hasNode_iff {g : DGraph} {v : String} :
    g.hasNode v = true ↔ v ∈ g.nodeKeys := by
  unfold hasNode nodeKeys
  rw [List.any_eq_true]
  constructor
  · rintro ⟨e, he, hev⟩
    exact List.mem_map.mpr ⟨e, he, by simpa using hev⟩
  · intro hv
    rcases List.mem_map.mp hv with ⟨e, he, hev⟩
    exact ⟨e, he, by simpa using hev⟩

theorem nodeKeys_setNode (g : DGraph) (v : String) (tn : TaskNode) :
    (g.setNode v tn).nodeKeys =
      if g.hasNode v then g.nodeKeys else g.nodeKeys ++ [v] := by
  unfold setNode nodeKeys
  by_cases h : g.hasNode v = true
  · rw [if_pos h, if_pos h]
    show (g.nodes.map _).map _ = _
    rw [List.map_map]
    apply List.map_congr_left
    intro e _
    by_cases he : e.1 = v <;> simp [he]
  · rw [if_neg h, if_neg h]
    simp

theorem edges_setNode (g : DGraph) (v : String) (tn : TaskNode) :
    (g.setNode v tn).edges = g.edges := by
  unfold setNode
  by_cases h : g.hasNode v = true
  · rw [if_pos h]
  · rw [if_neg h]

theorem node_setNode_self (g : DGraph) (v : String) (tn : TaskNode) :
    (g.setNode v tn).node v = some tn := by
  unfold setNode node
  by_cases h : g.hasNode v = true
  · rw [if_pos h]
    show (match (g.nodes.map fun e => if e.1 = v then (e.1, some tn) else e).find?
        (fun e => decide (e.1 = v)) with
      | some e => e.2 | none => none) = some tn
    rw [List.find?_map]
    have hpred : ((fun (e : String × Option TaskNode) => decide (e.1 = v)) ∘
        (fun e => if e.1 = v then (e.1, some tn) else e)) =
        (fun e => decide (e.1 = v)) := by
      funext x
      by_cases hx : x.1 = v <;> simp [hx]
    rw [hpred]
    rcases hf : g.nodes.find? (fun e => decide (e.1 = v)) with _ | e'
    · exfalso
      rcases List.mem_map.mp (hasNode_iff.mp h) with ⟨e, he, rfl⟩
      have := List.find?_eq_none.mp hf e he
      simp at this
    · have h1 := List.find?_some hf
      simp only [decide_eq_true_eq] at h1
      simp [hf, h1]
  · rw [if_neg h]
    show (match (g.nodes ++ [(v, some tn)]).find? (fun e => decide (e.1 = v)) with
      | some e => e.2 | none => none) = some tn
    rw [List.find?_append]
    rcases hf : g.nodes.find? (fun e => decide (e.1 = v)) with _ | e'
    · simp [hf]
    · exfalso
      have h1 := List.find?_some hf
      have h2 := List.mem_of_find?_eq_some hf
      simp only [decide_eq_true_eq] at h1
      exact h (hasNode_iff.mpr (List.mem_map.mpr ⟨e', h2, h1⟩))

theorem node_setNode_ne (g : DGraph) {v w : String} (tn : TaskNode)
    (hne : w ≠ v) : (g.setNode v tn).node w = g.node w := by
  unfold setNode node
  by_cases h : g.hasNode v = true
  · rw [if_pos h]
    show (match (g.nodes.map fun e => if e.1 = v then (e.1, some tn) else e).find?
        (fun e => decide (e.1 = w)) with
      | some e => e.2 | none => none) = _
    rw [List.find?_map]
    have hpred : ((fun (e : String × Option TaskNode) => decide (e.1 = w)) ∘
        (fun e => if e.1 = v then (e.1, some tn) else e)) =
        (fun e => decide (e.1 = w)) := by
      funext x
      by_cases hx : x.1 = v <;> simp [Function.comp, hx]
    rw [hpred]
    rcases hf : g.nodes.find? (fun e => decide (e.1 = w)) with _ | e'
    · simp [hf]
    · have h1 := List.find?_some hf
      simp only [decide_eq_true_eq] at h1
      have hev : e'.1 ≠ v := h1 ▸ hne
      simp [hf, hev]
  · rw [if_neg h]
    show (match (g.nodes ++ [(v, some tn)]).find? (fun e => decide (e.1 = w)) with
      | some e => e.2 | none => none) = _
    rw [List.find?_append]
    have hvw : v ≠ w := fun heq => hne heq.symm
    rcases hf : g.nodes.find? (fun e => decide (e.1 = w)) with _ | e'
    · simp [hf, hvw]
    · simp [hf]

theorem node_ensureNode (g : DGraph) (v w : String) :
    (g.ensureNode v).node w = g.node w := by
  unfold ensureNode node
  by_cases h : g.hasNode v = true
  · rw [if_pos h]
  · rw [if_neg h]
    show (match (g.nodes ++ [(v, none)]).find? (fun e => decide (e.1 = w)) with
      | some (e : String × Option TaskNode) => e.2 | none => none) = _
    rw [List.find?_append]
    rcases hf : g.nodes.find? (fun e => decide (e.1 = w)) with _ | e'
    · by_cases hw : w = v
      · subst hw
        simp [hf]
      · have hvw : v ≠ w := fun heq => hw heq.symm
        simp [hf, hvw]
    · simp [hf]

theorem node_setEdge (g : DGraph) (u v w : String) :
    (g.setEdge u v).node w = g.node w := by
  unfold setEdge
  by_cases h : ((g.ensureNode u).ensureNode v).edges.contains (u, v) = true
  · rw [if_pos h, node_ensureNode, node_ensureNode]
  · rw [if_neg h]
    show (DGraph.mk ((g.ensureNode u).ensureNode v).nodes _).node w = g.node w
    have heq : (DGraph.mk ((g.ensureNode u).ensureNode v).nodes
        (((g.ensureNode u).ensureNode v).edges ++ [(u, v)])).node w =
        ((g.ensureNode u).ensureNode v).node w := rfl
    rw [heq, node_ensureNode, node_ensureNode]

theorem nodeKeys_ensureNode (g : DGraph) (v : String) :
    (g.ensureNode v).nodeKeys =
      if g.hasNode v then g.nodeKeys else g.nodeKeys ++ [v] := by
  unfold ensureNode nodeKeys
  by_cases h : g.hasNode v = true
  · rw [if_pos h, if_pos h]
  · rw [if_neg h, if_neg h]
    simp

theorem edges_ensureNode (g : DGraph) (v : String) :
    (g.ensureNode v).edges = g.edges := by
  unfold ensureNode
  by_cases h : g.hasNode v = true
  · rw [if_pos h]
  · rw [if_neg h]

theorem mem_nodeKeys_ensureNode {g : DGraph} {x w : String} :
    w ∈ (g.ensureNode x).nodeKeys ↔ w ∈ g.nodeKeys ∨ w = x := by
  rw [nodeKeys_ensureNode]
  by_cases h : g.hasNode x = true
  · rw [if_pos h]
    constructor
    · exact Or.inl
    · rintro (hw | rfl)
      · exact hw
      · exact hasNode_iff.mp h
  · rw [if_neg h]
    simp

theorem nodeKeys_setEdge (g : DGraph) (u v : String) :
    (g.setEdge u v).nodeKeys = ((g.ensureNode u).ensureNode v).nodeKeys := by
  unfold setEdge
  by_cases h : ((g.ensureNode u).ensureNode v).edges.contains (u, v) = true
  · rw [if_pos h]
  · rw [if_neg h]
    rfl

theorem mem_nodeKeys_setEdge {g : DGraph} {u v w : String} :
    w ∈ (g.setEdge u v).nodeKeys ↔ w ∈ g.nodeKeys ∨ w = u ∨ w = v := by
  rw [nodeKeys_setEdge, mem_nodeKeys_ensureNode, mem_nodeKeys_ensureNode]
  tauto

theorem edges_setEdge (g : DGraph) (u v : String) :
    (g.setEdge u v).edges =
      if g.edges.contains (u, v) then g.edges else g.edges ++ [(u, v)] := by
  unfold setEdge
  have he : ((g.ensureNode u).ensureNode v).edges = g.edges := by
    rw [edges_ensureNode, edges_ensureNode]
  by_cases h : g.edges.contains (u, v) = true
  · have h' : ((g.ensureNode u).ensureNode v).edges.contains (u, v) = true := by
      rw [he]; exact h
    rw [if_pos h', if_pos h, he]
  · have h' : ¬ ((g.ensureNode u).ensureNode v).edges.contains (u, v) = true := by
      rw [he]; exact h
    rw [if_neg h', if_neg h]
    show ((g.ensureNode u).ensureNode v).edges ++ [(u, v)] = g.edges ++ [(u, v)]
    rw [he]

theorem mem_edges_setEdge {g : DGraph} {u v : String} {e : String × String} :
    e ∈ (g.setEdge u v).edges ↔ e ∈ g.edges ∨ e = (u, v) := by
  rw [edges_setEdge]
  by_cases h : g.edges.contains (u, v) = true
  · rw [if_pos h]
    constructor
    · exact Or.inl
    · rintro (he | rfl)
      · exact he
      · exact List.mem_of_elem_eq_true h
  · rw [if_neg h]
    simp

theorem self_mem_edges_setEdge (g : DGraph) (u v : String) :
    (u, v) ∈ (g.setEdge u v).edges :=
  mem_edges_setEdge.mpr (Or.inr rfl)

theorem mem_successors {g : DGraph} {v w : String} :
    w ∈ g.successors v ↔ (v, w) ∈ g.edges := by
  unfold successors
  constructor
  · intro hw
    rcases List.mem_map.mp hw with ⟨e, he, rfl⟩
    have hmem := (List.mem_filter.mp he).1
    have hfst := (List.mem_filter.mp he).2
    simp only [decide_eq_true_eq] at hfst
    have : e = (v, e.2) := by
      cases e; simp_all
    rwa [← this]
  · intro h
    exact List.mem_map.mpr ⟨(v, w), List.mem_filter.mpr ⟨h, by simp⟩, rfl⟩

theorem successors_nodup {g : DGraph} (hE : g.edges.Nodup) (v : String) :
    (g.successors v).Nodup := by
  unfold successors
  apply List.Nodup.map_on
  · intro x hx y hy hxy
    have hxf := (List.mem_filter.mp hx).2
    have hyf := (List.mem_filter.mp hy).2
    simp only [decide_eq_true_eq] at hxf hyf
    cases x; cases y
    simp_all
  · exact hE.filter _

/-- The structural invariant maintained by every graph `buildGraph`
constructs: distinct keys, distinct edges, and edge endpoints present. -/
structure GInv (g : DGraph) : Prop where
  keysNodup : g.nodeKeys.Nodup
  edgesNodup : g.edges.Nodup
  edgesInKeys : ∀ e ∈ g.edges, e.1 ∈ g.nodeKeys ∧ e.2 ∈ g.nodeKeys

theorem GInv.empty : GInv DGraph.empty :=
  ⟨List.nodup_nil, List.nodup_nil, fun e he => absurd he (List.not_mem_nil e)⟩

theorem GInv.setNode {g : DGraph} (h : GInv g) (v : String) (tn : TaskNode) :
    GInv (g.setNode v tn) := by
  refine ⟨?_, ?_, ?_⟩
  · rw [nodeKeys_setNode]
    by_cases hv : g.hasNode v = true
    · rw [if_pos hv]; exact h.keysNodup
    · rw [if_neg hv]
      have : v ∉ g.nodeKeys := fun hm => hv (hasNode_iff.mpr hm)
      simp [List.nodup_append, h.keysNodup, this]
  · rw [edges_setNode]; exact h.edgesNodup
  · intro e he
    rw [edges_setNode] at he
    rcases h.edgesInKeys e he with ⟨h1, h2⟩
    rw [nodeKeys_setNode]
    by_cases hv : g.hasNode v = true
    · rw [if_pos hv]; exact ⟨h1, h2⟩
    · rw [if_neg hv]
      exact ⟨List.mem_append_left _ h1, List.mem_append_left _ h2⟩

theorem GInv.ensureNode {g : DGraph} (h : GInv g) (v : String) :
    GInv (g.ensureNode v) := by
  refine ⟨?_, ?_, ?_⟩
  · rw [nodeKeys_ensureNode]
    by_cases hv : g.hasNode v = true
    · rw [if_pos hv]; exact h.keysNodup
    · rw [if_neg hv]
      have : v ∉ g.nodeKeys := fun hm => hv (hasNode_iff.mpr hm)
      simp [List.nodup_append, h.keysNodup, this]
  · rw [edges_ensureNode]; exact h.edgesNodup
  · intro e he
    rw [edges_ensureNode] at he
    rcases h.edgesInKeys e he with ⟨h1, h2⟩
    exact ⟨mem_nodeKeys_ensureNode.mpr (Or.inl h1),
           mem_nodeKeys_ensureNode.mpr (Or.inl h2)⟩

theorem GInv.setEdge {g : DGraph} (h : GInv g) (u v : String) :
    GInv (g.setEdge u v) := by
  have h2 : GInv ((g.ensureNode u).ensureNode v) := (h.ensureNode u).ensureNode v
  refine ⟨?_, ?_, ?_⟩
  · rw [nodeKeys_setEdge]; exact h2.keysNodup
  · rw [edges_setEdge]
    by_cases hc : g.edges.contains (u, v) = true
    · rw [if_pos hc]; exact h.edgesNodup
    · rw [if_neg hc]
      have : (u, v) ∉ g.edges := fun hm => hc (List.elem_eq_true_of_mem hm)
      simp [List.nodup_append, h.edgesNodup, this]
  · intro e he
    rcases mem_edges_setEdge.mp he with hold | rfl
    · rcases h.edgesInKeys e hold with ⟨ha, hb⟩
      exact ⟨mem_nodeKeys_setEdge.mpr (Or.inl ha),
             mem_nodeKeys_setEdge.mpr (Or.inl hb)⟩
    · exact ⟨mem_nodeKeys_setEdge.mpr (Or.inr (Or.inl rfl)),
             mem_nodeKeys_setEdge.mpr (Or.inr (Or.inr rfl))⟩

end DGraph

/-! ## Correctness of the Kahn elimination -/

/-- The edge relation of a graph, as a proposition. -/
def edgeRel (g : DGraph) (u v : String) : Prop := (u, v) ∈ g.edges

/-- A list is dependency-ordered when every successor of an element
appears strictly earlier. -/
def Orded (g : DGraph) (l : List String) : Prop :=
  ∀ l1 k l2, l = l1 ++ k :: l2 → ∀ w ∈ g.successors k, w ∈ l1

theorem orded_nil (g : DGraph) : Orded g [] := by
  intro l1 k l2 h
  exact absurd h (by simp)

/-- Splitting the new accumulator `acc ++ ready`: extending an ordered
accumulator by a batch whose successors all lie in the old accumulator
keeps it ordered. -/
theorem orded_append {g : DGraph} {acc ready : List String}
    (hacc : Orded g acc)
    (hready : ∀ k ∈ ready, ∀ w ∈ g.successors k, w ∈ acc) :
    Orded g (acc ++ ready) := by
  intro l1 k l2 hsplit w hw
  rcases List.append_eq_append_iff.mp hsplit.symm with ⟨a', ha1, ha2⟩ | ⟨c', hc1, hc2⟩
  · -- acc = l1 ++ a', k :: l2 = a' ++ ready
    cases a' with
    | nil =>
      have hk : k ∈ ready := by
        have hr : ready = k :: l2 := by simpa using ha2.symm
        rw [hr]
        exact List.mem_cons_self _ _
      have hacc_eq : l1 = acc := by simpa using ha1.symm
      rw [hacc_eq]
      exact hready k hk w hw
    | cons c cs =>
      have ha2' : k :: l2 = c :: (cs ++ ready) := by simpa using ha2
      have hkc : k = c := by injection ha2'
      have hsplit2 : acc = l1 ++ k :: cs := by rw [ha1, hkc]
      exact hacc l1 k cs hsplit2 w hw
  · -- l1 = acc ++ c', ready = c' ++ k :: l2
    have hk : k ∈ ready := by
      rw [hc2]
      exact List.mem_append_right _ (List.mem_cons_self _ _)
    rw [hc1]
    exact List.mem_append_left _ (hready k hk w hw)

theorem kahnReady_false_of_succ_mem {g : DGraph} {remaining : List String}
    {v w : String} (hw : w ∈ g.successors v) (hwr : w ∈ remaining) :
    kahnReady g remaining v = false := by
  unfold kahnReady
  rw [List.all_eq_false]
  refine ⟨w, hw, ?_⟩
  simp only [Bool.not_eq_true', Bool.not_eq_true]
  intro hcon
  have hmem : remaining.elem w = true := List.elem_eq_true_of_mem hwr
  rw [show remaining.contains w = remaining.elem w from rfl, hmem] at hcon
  exact absurd hcon (by simp)

/-- The master invariant of `kahnGo`: the output-with-leftover is a
permutation of the input-with-accumulator, the output is
dependency-ordered, and every leftover node retains a successor among
the leftovers. -/
theorem kahnGo_spec (g : DGraph) :
    ∀ n remaining acc, remaining.length ≤ n → Orded g acc →
    (∀ v ∈ remaining, ∀ w ∈ g.successors v, w ∈ acc ∨ w ∈ remaining) →
    ((kahnGo g remaining acc).1 ++ (kahnGo g remaining acc).2).Perm
        (acc ++ remaining)
    ∧ Orded g (kahnGo g remaining acc).1
    ∧ (∀ v ∈ (kahnGo g remaining acc).2,
        ∃ w ∈ g.successors v, w ∈ (kahnGo g remaining acc).2) := by
  intro n
  induction n with
  | zero =>
    intro remaining acc hlen hord hcover
    have hrem : remaining = [] := List.length_eq_zero.mp (Nat.le_zero.mp hlen)
    subst hrem
    rw [kahnGo]
    simp only [List.filter_nil, List.isEmpty_nil, dite_true]
    refine ⟨by simp, hord, ?_⟩
    intro v hv
    exact absurd hv (List.not_mem_nil v)
  | succ m ih =>
    intro remaining acc hlen hord hcover
    rw [kahnGo]
    by_cases h : (remaining.filter (kahnReady g remaining)).isEmpty = true
    · rw [dif_pos h]
      refine ⟨by simp, hord, ?_⟩
      intro v hv
      have hnr : kahnReady g remaining v = false := by
        by_contra hv'
        have hv'' : kahnReady g remaining v = true := by
          cases hr : kahnReady g remaining v
          · exact absurd hr hv'
          · rfl
        have : v ∈ remaining.filter (kahnReady g remaining) :=
          List.mem_filter.mpr ⟨hv, hv''⟩
        rw [List.isEmpty_iff] at h
        rw [h] at this
        exact absurd this (List.not_mem_nil v)
      unfold kahnReady at hnr
      rw [List.all_eq_false] at hnr
      rcases hnr with ⟨w, hw, hwc⟩
      refine ⟨w, hw, ?_⟩
      have hcw : remaining.contains w = true := by
        cases hc : remaining.contains w
        · exfalso
          apply hwc
          rw [hc]
          rfl
        · rfl
      exact List.mem_of_elem_eq_true hcw
    · rw [dif_neg h]
      set ready := remaining.filter (kahnReady g remaining) with hready_def
      set remaining' := remaining.filter (fun v => !ready.contains v)
        with hremdef
      have hready_succ : ∀ k ∈ ready, ∀ w ∈ g.successors k, w ∈ acc := by
        intro k hk w hw
        have hkr : k ∈ remaining := (List.mem_filter.mp hk).1
        have hkready : kahnReady g remaining k = true := (List.mem_filter.mp hk).2
        have hwnotr : w ∉ remaining := by
          intro hwr
          have := kahnReady_false_of_succ_mem hw hwr
          rw [this] at hkready
          exact absurd hkready (by simp)
        rcases hcover k hkr w hw with hwa | hwr
        · exact hwa
        · exact absurd hwr hwnotr
      have hord' : Orded g (acc ++ ready) := orded_append hord hready_succ
      have hmemsplit : ∀ w ∈ remaining, w ∈ ready ∨ w ∈ remaining' := by
        intro w hwr
        by_cases hwc : ready.contains w = true
        · exact Or.inl (List.mem_of_elem_eq_true hwc)
        · refine Or.inr (List.mem_filter.mpr ⟨hwr, ?_⟩)
          cases hc : ready.contains w
          · rfl
          · exact absurd hc hwc
      have hcover' : ∀ v ∈ remaining', ∀ w ∈ g.successors v,
          w ∈ acc ++ ready ∨ w ∈ remaining' := by
        intro v hv w hw
        have hvr : v ∈ remaining := (List.mem_filter.mp hv).1
        rcases hcover v hvr w hw with hwa | hwr
        · exact Or.inl (List.mem_append_left _ hwa)
        · rcases hmemsplit w hwr with h1 | h2
          · exact Or.inl (List.mem_append_right _ h1)
          · exact Or.inr h2
      have hlen' : remaining'.length ≤ m := by
        have hne : ready ≠ [] := by
          intro h0
          rw [List.isEmpty_iff] at h
          exact h h0
        rcases List.exists_mem_of_ne_nil ready hne with ⟨x, hx⟩
        have hxr : x ∈ remaining := (List.mem_filter.mp hx).1
        have hlt : remaining'.length < remaining.length := by
          rw [hremdef]
          refine length_filter_lt_length remaining _ hxr ?_
          simp only [Bool.not_eq_false']
          exact List.elem_eq_true_of_mem hx
        omega
      rcases ih remaining' (acc ++ ready) hlen' hord' hcover' with
        ⟨hperm, hord2, hstuck⟩
      refine ⟨?_, hord2, hstuck⟩
      have hpermr : (ready ++ remaining').Perm remaining := by
        have hcongr : remaining' =
            remaining.filter (fun v => !kahnReady g remaining v) := by
          rw [hremdef]
          apply List.filter_congr
          intro x hx
          congr 1
          cases hkr : kahnReady g remaining x
          · cases hc : ready.contains x
            · rfl
            · exfalso
              have := (List.mem_filter.mp (List.mem_of_elem_eq_true hc)).2
              rw [hkr] at this
              exact absurd this (by simp)
          · cases hc : ready.contains x
            · exfalso
              have hxready : x ∈ ready := List.mem_filter.mpr ⟨hx, hkr⟩
              have helem : ready.contains x = true :=
                List.elem_eq_true_of_mem hxready
              rw [helem] at hc
              exact absurd hc (by simp)
            · rfl
        rw [hcongr, hready_def]
        exact List.filter_append_perm _ remaining
      exact List.Perm.trans hperm
        (by
          rw [List.append_assoc]
          exact List.Perm.append_left acc hpermr)

/-- One Kahn pass over the node set: permutation, ordering and the
leftover property, given that edge endpoints are nodes. -/
theorem kahn_spec (g : DGraph)
    (hE : ∀ e ∈ g.edges, e.1 ∈ g.nodeKeys ∧ e.2 ∈ g.nodeKeys) :
    (((kahn g).1 ++ (kahn g).2).Perm g.nodeKeys)
    ∧ Orded g (kahn g).1
    ∧ (∀ v ∈ (kahn g).2, ∃ w ∈ g.successors v, w ∈ (kahn g).2) := by
  have hcover : ∀ v ∈ g.nodeKeys, ∀ w ∈ g.successors v,
      w ∈ ([] : List String) ∨ w ∈ g.nodeKeys := by
    intro v _ w hw
    exact Or.inr (hE _ (DGraph.mem_successors.mp hw)).2
  have := kahnGo_spec g g.nodeKeys.length g.nodeKeys [] le_rfl
    (orded_nil g) hcover
  simpa [kahn] using this

/-- Nodes of a set in which everyone keeps a successor are never emitted
by the Kahn elimination. -/
theorem kahnGo_trapped (g : DGraph) (c : List String)
    (hc : ∀ m ∈ c, ∃ m' ∈ c, (m, m') ∈ g.edges) :
    ∀ n remaining acc, remaining.length ≤ n → (∀ m ∈ c, m ∈ remaining) →
      ∀ m ∈ c, m ∈ (kahnGo g remaining acc).2 := by
  intro n
  induction n with
  | zero =>
    intro remaining acc hlen hsub m hm
    have hrem : remaining = [] := List.length_eq_zero.mp (Nat.le_zero.mp hlen)
    exact absurd (hrem ▸ hsub m hm) (List.not_mem_nil m)
  | succ k ih =>
    intro remaining acc hlen hsub m hm
    rw [kahnGo]
    by_cases h : (remaining.filter (kahnReady g remaining)).isEmpty = true
    · rw [dif_pos h]
      exact hsub m hm
    · rw [dif_neg h]
      set ready := remaining.filter (kahnReady g remaining) with hready_def
      have hnotready : ∀ m' ∈ c, kahnReady g remaining m' = false := by
        intro m' hm'
        rcases hc m' hm' with ⟨m'', hm'', hedge⟩
        exact kahnReady_false_of_succ_mem (DGraph.mem_successors.mpr hedge)
          (hsub m'' hm'')
      have hsub' : ∀ m' ∈ c,
          m' ∈ remaining.filter (fun v => !ready.contains v) := by
        intro m' hm'
        refine List.mem_filter.mpr ⟨hsub m' hm', ?_⟩
        have hcontains : ready.contains m' = false := by
          cases hcon : ready.contains m'
          · rfl
          · exfalso
            have hmem : m' ∈ ready := List.mem_of_elem_eq_true hcon
            have hk := (List.mem_filter.mp hmem).2
            rw [hnotready m' hm'] at hk
            exact absurd hk (by simp)
        rw [hcontains]
        rfl
      have hlen' : (remaining.filter (fun v => !ready.contains v)).length ≤ k := by
        have hne : ready ≠ [] := fun h0 => h (by rw [h0]; rfl)
        rcases List.exists_mem_of_ne_nil ready hne with ⟨x, hx⟩
        have hxr : x ∈ remaining := (List.mem_filter.mp hx).1
        have hlt := length_filter_lt_length remaining
          (fun v => !ready.contains v) hxr (by
            simp only [Bool.not_eq_false']
            exact List.elem_eq_true_of_mem hx)
        omega
      exact ih _ (acc ++ ready) hlen' hsub' m hm

/-- A nonempty set in which every node has a successor inside the set
yields a directed cycle (pigeonhole over iterated successors). -/
theorem exists_cycle_of_closed_succ {g : DGraph} (S : List String)
    (hne : S ≠ [])
    (hcl : ∀ v ∈ S, ∃ w, edgeRel g v w ∧ w ∈ S) :
    ∃ v w, edgeRel g v w ∧ Relation.ReflTransGen (edgeRel g) w v := by
  classical
  have hfex : ∀ v : String, ∃ w, v ∈ S → (edgeRel g v w ∧ w ∈ S) := by
    intro v
    by_cases hv : v ∈ S
    · rcases hcl v hv with ⟨w, hw⟩
      exact ⟨w, fun _ => hw⟩
    · exact ⟨v, fun hvS => absurd hvS hv⟩
  choose f hf using hfex
  rcases List.exists_mem_of_ne_nil S hne with ⟨v0, hv0⟩
  have hiter : ∀ k, f^[k] v0 ∈ S := by
    intro k
    induction k with
    | zero => simpa using hv0
    | succ k ihk =>
      rw [Function.iterate_succ_apply']
      exact (hf _ ihk).2
  have hstep : ∀ k, edgeRel g (f^[k] v0) (f^[k + 1] v0) := by
    intro k
    rw [Function.iterate_succ_apply']
    exact (hf _ (hiter k)).1
  have hrtg : ∀ a b, a ≤ b →
      Relation.ReflTransGen (edgeRel g) (f^[a] v0) (f^[b] v0) := by
    intro a b hab
    induction b with
    | zero =>
      have : a = 0 := Nat.le_zero.mp hab
      subst this
      exact Relation.ReflTransGen.refl
    | succ b ihb =>
      rcases Nat.lt_or_ge a (b + 1) with hlt | hge
      · have hab' : a ≤ b := Nat.lt_succ_iff.mp hlt
        exact Relation.ReflTransGen.tail (ihb hab') (hstep b)
      · have : a = b + 1 := Nat.le_antisymm hab hge
        subst this
        exact Relation.ReflTransGen.refl
  have hcard : S.toFinset.card < (Finset.univ : Finset (Fin (S.length + 1))).card := by
    have h1 : S.toFinset.card ≤ S.length := S.toFinset_card_le
    simp only [Finset.card_univ, Fintype.card_fin]
    omega
  have hmaps : ∀ a ∈ (Finset.univ : Finset (Fin (S.length + 1))),
      (fun k : Fin (S.length + 1) => f^[k.1] v0) a ∈ S.toFinset := by
    intro a _
    exact List.mem_toFinset.mpr (hiter a.1)
  rcases Finset.exists_ne_map_eq_of_card_lt_of_maps_to hcard hmaps with
    ⟨i, _, j, _, hij, heq⟩
  rcases Nat.lt_or_ge i.1 j.1 with hlt | hge
  · refine ⟨f^[i.1] v0, f^[i.1 + 1] v0, hstep i.1, ?_⟩
    have := hrtg (i.1 + 1) j.1 hlt
    rwa [← heq] at this
  · have hlt' : j.1 < i.1 := by
      rcases Nat.lt_or_ge j.1 i.1 with h' | h'
      · exact h'
      · exfalso
        exact hij (Fin.ext (Nat.le_antisymm h' hge))
    refine ⟨f^[j.1] v0, f^[j.1 + 1] v0, hstep j.1, ?_⟩
    have := hrtg (j.1 + 1) i.1 hlt'
    rwa [heq] at this

/-- Absence of directed cycles, as a proposition. -/
def NoCycle (g : DGraph) : Prop :=
  ¬ ∃ v w, edgeRel g v w ∧ Relation.ReflTransGen (edgeRel g) w v

/-- On a cycle-free graph the Kahn elimination leaves nothing behind. -/
theorem kahn_stuck_empty_of_noCycle {g : DGraph}
    (hE : ∀ e ∈ g.edges, e.1 ∈ g.nodeKeys ∧ e.2 ∈ g.nodeKeys)
    (hnc : NoCycle g) : (kahn g).2 = [] := by
  by_contra hne
  rcases kahn_spec g hE with ⟨_, _, hstuck⟩
  apply hnc
  apply exists_cycle_of_closed_succ (kahn g).2 hne
  intro v hv
  rcases hstuck v hv with ⟨w, hw, hwS⟩
  exact ⟨w, DGraph.mem_successors.mp hw, hwS⟩

/-! ## Correctness of the reachability closure -/

theorem subset_expandStep (g : DGraph) (s : List String) :
    ∀ x ∈ s, x ∈ expandStep g s := by
  intro x hx
  unfold expandStep
  exact List.mem_append_left _ hx

theorem subset_reachClosure (g : DGraph) :
    ∀ fuel s, ∀ x ∈ s, x ∈ reachClosure g fuel s := by
  intro fuel
  induction fuel with
  | zero => intro s x hx; exact hx
  | succ k ih =>
    intro s x hx
    rw [reachClosure]
    by_cases h : (expandStep g s).length = s.length
    · rw [if_pos h]; exact hx
    · rw [if_neg h]
      exact ih _ x (subset_expandStep g s x hx)

theorem eraseDups_loop_mem {α : Type} [BEq α] [LawfulBEq α] :
    ∀ (as bs : List α) (x : α),
      x ∈ List.eraseDups.loop as bs ↔ x ∈ as ∨ x ∈ bs := by
  intro as
  induction as with
  | nil =>
    intro bs x
    show x ∈ bs.reverse ↔ _
    simp
  | cons a as ih =>
    intro bs x
    show x ∈ (match bs.elem a with
      | true => List.eraseDups.loop as bs
      | false => List.eraseDups.loop as (a :: bs)) ↔ _
    cases he : bs.elem a with
    | true =>
      rw [ih bs x]
      have ha : a ∈ bs := List.mem_of_elem_eq_true he
      constructor
      · rintro (h | h)
        · exact Or.inl (List.mem_cons_of_mem _ h)
        · exact Or.inr h
      · rintro (h | h)
        · rcases List.mem_cons.mp h with rfl | h'
          · exact Or.inr ha
          · exact Or.inl h'
        · exact Or.inr h
    | false =>
      rw [ih (a :: bs) x]
      constructor
      · rintro (h | h)
        · exact Or.inl (List.mem_cons_of_mem _ h)
        · rcases List.mem_cons.mp h with rfl | h'
          · exact Or.inl (List.mem_cons_self _ _)
          · exact Or.inr h'
      · rintro (h | h)
        · rcases List.mem_cons.mp h with rfl | h'
          · exact Or.inr (List.mem_cons_self _ _)
          · exact Or.inl h'
        · exact Or.inr (List.mem_cons_of_mem _ h)

theorem eraseDups_loop_nodup {α : Type} [BEq α] [LawfulBEq α] :
    ∀ (as bs : List α), bs.Nodup → (List.eraseDups.loop as bs).Nodup := by
  intro as
  induction as with
  | nil =>
    intro bs hbs
    show (bs.reverse).Nodup
    simpa using hbs
  | cons a as ih =>
    intro bs hbs
    show (match bs.elem a with
      | true => List.eraseDups.loop as bs
      | false => List.eraseDups.loop as (a :: bs)).Nodup
    cases he : bs.elem a with
    | true => exact ih bs hbs
    | false =>
      apply ih
      refine List.nodup_cons.mpr ⟨?_, hbs⟩
      intro hmem
      rw [List.elem_eq_true_of_mem hmem] at he
      exact absurd he (by simp)

theorem mem_eraseDups {α : Type} [BEq α] [LawfulBEq α] {l : List α} {x : α} :
    x ∈ l.eraseDups ↔ x ∈ l := by
  unfold List.eraseDups
  rw [eraseDups_loop_mem]
  simp

theorem nodup_eraseDups {α : Type} [BEq α] [LawfulBEq α] (l : List α) :
    l.eraseDups.Nodup := by
  unfold List.eraseDups
  exact eraseDups_loop_nodup l [] List.nodup_nil

theorem mem_expandStep_cases {g : DGraph} {s : List String} {w : String}
    (hw : w ∈ expandStep g s) :
    w ∈ s ∨ ∃ v ∈ s, w ∈ g.successors v := by
  unfold expandStep at hw
  rcases List.mem_append.mp hw with h1 | h2
  · exact Or.inl h1
  · have h3 := mem_eraseDups.mp h2
    have h4 := (List.mem_filter.mp h3).1
    rcases List.mem_flatMap.mp h4 with ⟨v, hv, hw'⟩
    exact Or.inr ⟨v, hv, hw'⟩

theorem reachClosure_sound (g : DGraph) (u : String) :
    ∀ fuel s, (∀ x ∈ s, Relation.ReflTransGen (edgeRel g) u x) →
      ∀ x ∈ reachClosure g fuel s, Relation.ReflTransGen (edgeRel g) u x := by
  intro fuel
  induction fuel with
  | zero => intro s hs x hx; exact hs x hx
  | succ k ih =>
    intro s hs x hx
    rw [reachClosure] at hx
    by_cases h : (expandStep g s).length = s.length
    · rw [if_pos h] at hx; exact hs x hx
    · rw [if_neg h] at hx
      refine ih (expandStep g s) ?_ x hx
      intro y hy
      rcases mem_expandStep_cases hy with h1 | ⟨v, hv, hsucc⟩
      · exact hs y h1
      · exact Relation.ReflTransGen.tail (hs v hv)
          (DGraph.mem_successors.mp hsucc)

/-- Closure under successors of a node list. -/
def SuccClosed (g : DGraph) (R : List String) : Prop :=
  ∀ v ∈ R, ∀ w ∈ g.successors v, w ∈ R

theorem expandStep_fix_closed {g : DGraph} {s : List String}
    (h : (expandStep g s).length = s.length) : SuccClosed g s := by
  intro v hv w hw
  by_contra hws
  have hwadd : w ∈ ((s.flatMap (fun v => g.successors v)).filter
      (fun w => !s.contains w)).eraseDups := by
    rw [mem_eraseDups]
    refine List.mem_filter.mpr ⟨List.mem_flatMap.mpr ⟨v, hv, hw⟩, ?_⟩
    have : s.contains w = false := by
      cases hc : s.contains w
      · rfl
      · exact absurd (List.mem_of_elem_eq_true hc) hws
    rw [this]
    rfl
  have : (expandStep g s).length = s.length +
      ((s.flatMap (fun v => g.successors v)).filter
        (fun w => !s.contains w)).eraseDups.length := by
    unfold expandStep
    simp
  rw [this] at h
  have hne : ((s.flatMap (fun v => g.successors v)).filter
      (fun w => !s.contains w)).eraseDups.length ≠ 0 := by
    intro h0
    rw [List.length_eq_zero] at h0
    rw [h0] at hwadd
    exact absurd hwadd (List.not_mem_nil w)
  omega

theorem reachClosure_closed (g : DGraph) (hK : g.nodeKeys.Nodup)
    (hE : ∀ e ∈ g.edges, e.1 ∈ g.nodeKeys ∧ e.2 ∈ g.nodeKeys) :
    ∀ fuel s, s.Nodup → (∀ x ∈ s, x ∈ g.nodeKeys) →
      g.nodeKeys.length ≤ fuel + s.length →
      SuccClosed g (reachClosure g fuel s) := by
  intro fuel
  induction fuel with
  | zero =>
    intro s hnd hsub hlen
    show SuccClosed g s
    -- `s` is a nodup subset of the nodup key list of at least its length:
    -- the two coincide as sets, and the key set is successor-closed.
    have hcard : s.toFinset = g.nodeKeys.toFinset := by
      apply Finset.eq_of_subset_of_card_le
      · intro x hx
        exact List.mem_toFinset.mpr (hsub x (List.mem_toFinset.mp hx))
      · rw [List.toFinset_card_of_nodup hK, List.toFinset_card_of_nodup hnd]
        omega
    intro v hv w hw
    have hwk : w ∈ g.nodeKeys := (hE _ (DGraph.mem_successors.mp hw)).2
    have := List.mem_toFinset.mpr hwk
    rw [← hcard] at this
    exact List.mem_toFinset.mp this
  | succ k ih =>
    intro s hnd hsub hlen
    rw [reachClosure]
    by_cases h : (expandStep g s).length = s.length
    · rw [if_pos h]
      exact expandStep_fix_closed h
    · rw [if_neg h]
      have hnd' : (expandStep g s).Nodup := by
        unfold expandStep
        rw [List.nodup_append]
        refine ⟨hnd, nodup_eraseDups _, ?_⟩
        intro x hx hx'
        have hcon := (List.mem_filter.mp (mem_eraseDups.mp hx')).2
        have hcx : s.contains x = true := List.elem_eq_true_of_mem hx
        rw [hcx] at hcon
        exact absurd hcon (by simp)
      have hsub' : ∀ x ∈ expandStep g s, x ∈ g.nodeKeys := by
        intro x hx
        rcases mem_expandStep_cases hx with h1 | ⟨v, _, hsucc⟩
        · exact hsub x h1
        · exact (hE _ (DGraph.mem_successors.mp hsucc)).2
      have hgrow : s.length < (expandStep g s).length := by
        have : s.length ≤ (expandStep g s).length := by
          unfold expandStep
          simp
        omega
      have hlen' : g.nodeKeys.length ≤ k + (expandStep g s).length := by
        omega
      exact ih (expandStep g s) hnd' hsub' hlen'

theorem mem_reachSet_self (g : DGraph) (v : String) : v ∈ reachSet g v :=
  subset_reachClosure g _ [v] v (List.mem_cons_self _ _)

theorem reachSet_sound {g : DGraph} {u x : String} (hx : x ∈ reachSet g u) :
    Relation.ReflTransGen (edgeRel g) u x := by
  refine reachClosure_sound g u _ [u] ?_ x hx
  intro y hy
  rcases List.mem_cons.mp hy with rfl | h
  · exact Relation.ReflTransGen.refl
  · exact absurd h (List.not_mem_nil y)

theorem reachSet_complete {g : DGraph} (hK : g.nodeKeys.Nodup)
    (hE : ∀ e ∈ g.edges, e.1 ∈ g.nodeKeys ∧ e.2 ∈ g.nodeKeys)
    {u x : String} (hu : u ∈ g.nodeKeys)
    (hreach : Relation.ReflTransGen (edgeRel g) u x) :
    x ∈ reachSet g u := by
  have hclosed : SuccClosed g (reachSet g u) := by
    apply reachClosure_closed g hK hE _ [u]
    · exact List.nodup_singleton u
    · intro y hy
      rcases List.mem_cons.mp hy with rfl | h
      · exact hu
      · exact absurd h (List.not_mem_nil y)
    · have hkeys : g.nodeKeys.length = g.nodes.length := by
        simp [DGraph.nodeKeys]
      simp only [List.length_singleton]
      omega
  induction hreach with
  | refl => exact mem_reachSet_self g u
  | tail hab hbc ih =>
    exact hclosed _ ih _ (DGraph.mem_successors.mpr hbc)

/-! ## `findCyclesG` names every node lying on a cycle -/

theorem compStep_preserves {g : DGraph} {base : List String} :
    ∀ (l : List String) (acc : List (List String)) (comp : List String),
      comp ∈ acc → comp ∈ l.foldl (compStep g base) acc := by
  intro l
  induction l with
  | nil => intro acc comp h; exact h
  | cons v rest ih =>
    intro acc comp h
    apply ih
    unfold compStep
    by_cases hv : acc.any (fun comp => comp.contains v) = true
    · rw [if_pos hv]; exact h
    · rw [if_neg hv]; exact List.mem_append_left _ h

theorem compStep_covers {g : DGraph} {base : List String} :
    ∀ (l : List String) (acc : List (List String)) (m : String),
      m ∈ l → m ∈ base →
      ∃ comp ∈ l.foldl (compStep g base) acc, m ∈ comp := by
  intro l
  induction l with
  | nil => intro acc m hm; exact absurd hm (List.not_mem_nil m)
  | cons v rest ih =>
    intro acc m hm hbase
    rcases List.mem_cons.mp hm with rfl | hm'
    · -- `m` is processed now: either it is already covered, or its
      -- component is appended (and `m` belongs to it by self-reach).
      by_cases hv : acc.any (fun comp => comp.contains m) = true
      · rcases List.any_eq_true.mp hv with ⟨comp, hcomp, hmc⟩
        refine ⟨comp, ?_, List.mem_of_elem_eq_true hmc⟩
        rw [List.foldl_cons]
        apply compStep_preserves
        unfold compStep
        rw [if_pos hv]
        exact hcomp
      · refine ⟨base.filter (fun u =>
            (reachSet g m).contains u && (reachSet g u).contains m), ?_, ?_⟩
        · rw [List.foldl_cons]
          apply compStep_preserves
          unfold compStep
          rw [if_neg hv]
          exact List.mem_append_right _ (List.mem_cons_self _ _)
        · refine List.mem_filter.mpr ⟨hbase, ?_⟩
          have hself : (reachSet g m).contains m = true :=
            List.elem_eq_true_of_mem (mem_reachSet_self g m)
          rw [hself]
          rfl
    · exact ih _ m hm' hbase

/-- Every node lying on a directed cycle appears in some component
returned by `findCyclesG`. -/
theorem findCyclesG_covers (g : DGraph) (hK : g.nodeKeys.Nodup)
    (hE : ∀ e ∈ g.edges, e.1 ∈ g.nodeKeys ∧ e.2 ∈ g.nodeKeys)
    {m w : String} (hedge : edgeRel g m w)
    (hreach : Relation.ReflTransGen (edgeRel g) w m) :
    ∃ comp ∈ findCyclesG g, m ∈ comp := by
  have hmk : m ∈ g.nodeKeys := (hE _ hedge).1
  have hwk : w ∈ g.nodeKeys := (hE _ hedge).2
  have honc : onCycle g m = true := by
    unfold onCycle
    rw [List.any_eq_true]
    refine ⟨w, DGraph.mem_successors.mpr hedge, ?_⟩
    exact List.elem_eq_true_of_mem (reachSet_complete hK hE hwk hreach)
  have hmcyc : m ∈ g.nodeKeys.filter (onCycle g) :=
    List.mem_filter.mpr ⟨hmk, honc⟩
  exact compStep_covers _ [] m hmcyc hmcyc

/-! ## Invariants of the discovery loop -/

/-- The task node `processScript` stores for a given name, as a function
of the manifest alone (every `setNode` in the loop writes exactly this
value, so values are stable under re-processing). -/
def canonicalTaskNode (smap : List Script) (n : String) : Option TaskNode :=
  match lookupScript smap n with
  | none => none
  | some script =>
    if isFrunkCommand script.command then
      match parseFrunkCommand script.command with
      | some fc => some (frunkTaskNode n fc)
      | none => some (asIsTaskNode n script.command)
    else some (asIsTaskNode n script.command)

/-- The parsed orchestration command of a manifest entry, when it is
recognized and parses. -/
def parsedFrunkOf (smap : List Script) (n : String) : Option FrunkCmd :=
  match lookupScript smap n with
  | none => none
  | some script =>
    if isFrunkCommand script.command then parseFrunkCommand script.command
    else none

theorem discoverLoop_nil (smap : List Script) (visited : List String)
    (g : DGraph) : discoverLoop smap [] visited g = g := by
  rw [discoverLoop]

theorem discoverLoop_edge (smap : List Script) (u v : String)
    (rest : List Job) (visited : List String) (g : DGraph) :
    discoverLoop smap (Job.edge u v :: rest) visited g =
      discoverLoop smap rest visited (g.setEdge u v) := by
  rw [discoverLoop]

theorem discoverLoop_proc_visited (smap : List Script) {n : String}
    (rest : List Job) {visited : List String} (g : DGraph)
    (hv : visited.contains n = true) :
    discoverLoop smap (Job.proc n :: rest) visited g =
      discoverLoop smap rest visited g := by
  rw [discoverLoop]
  rw [dif_pos hv]

theorem discoverLoop_proc_none (smap : List Script) {n : String}
    (rest : List Job) {visited : List String} (g : DGraph)
    (hv : ¬ visited.contains n = true)
    (hl : lookupScript smap n = none) :
    discoverLoop smap (Job.proc n :: rest) visited g =
      discoverLoop smap rest (n :: visited) g := by
  rw [discoverLoop]
  rw [dif_neg hv]
  split
  · rfl
  · rename_i script' heq
    rw [hl] at heq
    cases heq

theorem discoverLoop_proc_some (smap : List Script) {n : String}
    (rest : List Job) {visited : List String} (g : DGraph) {script : Script}
    (hv : ¬ visited.contains n = true)
    (hl : lookupScript smap n = some script) :
    discoverLoop smap (Job.proc n :: rest) visited g =
      (if isFrunkCommand script.command then
        match parseFrunkCommand script.command with
        | some fc =>
          discoverLoop smap
            (((effectiveDeps smap fc).flatMap
              (fun d => [Job.edge n d, Job.proc d])) ++ rest)
            (n :: visited) (g.setNode n (frunkTaskNode n fc))
        | none =>
          discoverLoop smap rest (n :: visited)
            (g.setNode n (asIsTaskNode n script.command))
      else
        discoverLoop smap rest (n :: visited)
          (g.setNode n (asIsTaskNode n script.command))) := by
  rw [discoverLoop]
  rw [dif_neg hv]
  split
  · rename_i heq
    rw [hl] at heq
    cases heq
  · rename_i script' heq
    rw [hl] at heq
    injection heq with h
    subst h
    rfl

theorem discoverLoop_proc_frunk (smap : List Script) {n : String}
    (rest : List Job) {visited : List String} (g : DGraph) {script : Script}
    {fc : FrunkCmd}
    (hv : ¬ visited.contains n = true)
    (hl : lookupScript smap n = some script)
    (hfr : isFrunkCommand script.command = true)
    (hparse : parseFrunkCommand script.command = some fc) :
    discoverLoop smap (Job.proc n :: rest) visited g =
      discoverLoop smap
        (((effectiveDeps smap fc).flatMap
          (fun d => [Job.edge n d, Job.proc d])) ++ rest)
        (n :: visited) (g.setNode n (frunkTaskNode n fc)) := by
  rw [discoverLoop_proc_some smap rest g hv hl, if_pos hfr, hparse]

theorem discoverLoop_proc_unparsed (smap : List Script) {n : String}
    (rest : List Job) {visited : List String} (g : DGraph) {script : Script}
    (hv : ¬ visited.contains n = true)
    (hl : lookupScript smap n = some script)
    (hfr : isFrunkCommand script.command = true)
    (hparse : parseFrunkCommand script.command = none) :
    discoverLoop smap (Job.proc n :: rest) visited g =
      discoverLoop smap rest (n :: visited)
        (g.setNode n (asIsTaskNode n script.command)) := by
  rw [discoverLoop_proc_some smap rest g hv hl, if_pos hfr, hparse]

theorem discoverLoop_proc_plain (smap : List Script) {n : String}
    (rest : List Job) {visited : List String} (g : DGraph) {script : Script}
    (hv : ¬ visited.contains n = true)
    (hl : lookupScript smap n = some script)
    (hfr : isFrunkCommand script.command = false) :
    discoverLoop smap (Job.proc n :: rest) visited g =
      discoverLoop smap rest (n :: visited)
        (g.setNode n (asIsTaskNode n script.command)) := by
  rw [discoverLoop_proc_some smap rest g hv hl,
    if_neg (by rw [hfr]; exact Bool.false_ne_true)]

theorem discoverLoop_mono (smap : List Script) :
    ∀ jobs visited g,
      (∀ n, (g.node n).isSome = true →
        ((discoverLoop smap jobs visited g).node n).isSome = true)
      ∧ (∀ e ∈ g.edges, e ∈ (discoverLoop smap jobs visited g).edges)
      ∧ (∀ n, n ∈ g.nodeKeys →
        n ∈ (discoverLoop smap jobs visited g).nodeKeys) := by
  intro jobs visited g
  induction jobs, visited, g using discoverLoop.induct smap with
  | case1 visited g =>
    rw [discoverLoop]
    exact ⟨fun n h => h, fun e he => he, fun n h => h⟩
  | case2 u v rest visited g ih =>
    rw [discoverLoop]
    refine ⟨fun n h => ih.1 n ?_, fun e he => ih.2.1 e ?_, fun n h => ih.2.2 n ?_⟩
    · rw [DGraph.node_setEdge]; exact h
    · exact DGraph.mem_edges_setEdge.mpr (Or.inl he)
    · exact DGraph.mem_nodeKeys_setEdge.mpr (Or.inl h)
  | case3 n rest visited g hv ih =>
    rw [discoverLoop_proc_visited smap rest g hv]
    exact ih
  | case4 n rest visited g hv hl ih =>
    rw [discoverLoop_proc_none smap rest g hv hl]
    exact ih
  | case5 n rest visited g hv script hl hfr fc hparse ih =>
    rw [discoverLoop_proc_frunk smap rest g hv hl hfr hparse]
    refine ⟨fun m h => ih.1 m ?_, fun e he => ih.2.1 e ?_, fun m h => ih.2.2 m ?_⟩
    · by_cases hm : m = n
      · subst hm; rw [DGraph.node_setNode_self]; rfl
      · rw [DGraph.node_setNode_ne _ _ hm]; exact h
    · rw [DGraph.edges_setNode]; exact he
    · rw [DGraph.nodeKeys_setNode]
      by_cases hh : g.hasNode n = true
      · rw [if_pos hh]; exact h
      · rw [if_neg hh]; exact List.mem_append_left _ h
  | case6 n rest visited g hv script hl hfr hparse ih =>
    rw [discoverLoop_proc_unparsed smap rest g hv hl hfr hparse]
    refine ⟨fun m h => ih.1 m ?_, fun e he => ih.2.1 e ?_, fun m h => ih.2.2 m ?_⟩
    · by_cases hm : m = n
      · subst hm; rw [DGraph.node_setNode_self]; rfl
      · rw [DGraph.node_setNode_ne _ _ hm]; exact h
    · rw [DGraph.edges_setNode]; exact he
    · rw [DGraph.nodeKeys_setNode]
      by_cases hh : g.hasNode n = true
      · rw [if_pos hh]; exact h
      · rw [if_neg hh]; exact List.mem_append_left _ h
  | case7 n rest visited g hv script hl hfr ih =>
    rw [discoverLoop_proc_plain smap rest g hv hl (Bool.eq_false_iff.mpr hfr)]
    refine ⟨fun m h => ih.1 m ?_, fun e he => ih.2.1 e ?_, fun m h => ih.2.2 m ?_⟩
    · by_cases hm : m = n
      · subst hm; rw [DGraph.node_setNode_self]; rfl
      · rw [DGraph.node_setNode_ne _ _ hm]; exact h
    · rw [DGraph.edges_setNode]; exact he
    · rw [DGraph.nodeKeys_setNode]
      by_cases hh : g.hasNode n = true
      · rw [if_pos hh]; exact h
      · rw [if_neg hh]; exact List.mem_append_left _ h

/-! ## Stored values of the discovery graph

Every `setNode` performed by the discovery loop stores exactly the
canonical task node of the processed name, so the values of the graph are
a function of the manifest. -/

theorem canonicalTaskNode_name {smap : List Script} {k : String}
    {tn : TaskNode} (h : canonicalTaskNode smap k = some tn) :
    tn.task.name = k := by
  unfold canonicalTaskNode at h
  cases hl : lookupScript smap k with
  | none => rw [hl] at h; cases h
  | some script =>
    rw [hl] at h
    dsimp only at h
    by_cases hfr : isFrunkCommand script.command = true
    · rw [if_pos hfr] at h
      cases hp : parseFrunkCommand script.command with
      | none => rw [hp] at h; injection h with h; rw [← h]; rfl
      | some fc => rw [hp] at h; injection h with h; rw [← h]; rfl
    · rw [if_neg hfr] at h
      injection h with h
      rw [← h]
      rfl

theorem discoverLoop_values (smap : List Script) :
    ∀ jobs visited g,
      (∀ k tn, g.node k = some tn → canonicalTaskNode smap k = some tn) →
      ∀ k tn, (discoverLoop smap jobs visited g).node k = some tn →
        canonicalTaskNode smap k = some tn := by
  intro jobs visited g
  induction jobs, visited, g using discoverLoop.induct smap with
  | case1 visited g =>
    intro h
    rw [discoverLoop_nil]
    exact h
  | case2 u v rest visited g ih =>
    intro h
    rw [discoverLoop_edge]
    apply ih
    intro k tn hk
    rw [DGraph.node_setEdge] at hk
    exact h k tn hk
  | case3 n rest visited g hv ih =>
    intro h
    rw [discoverLoop_proc_visited smap rest g hv]
    exact ih h
  | case4 n rest visited g hv hl ih =>
    intro h
    rw [discoverLoop_proc_none smap rest g hv hl]
    exact ih h
  | case5 n rest visited g hv script hl hfr fc hparse ih =>
    intro h
    rw [discoverLoop_proc_frunk smap rest g hv hl hfr hparse]
    apply ih
    intro k tn hk
    by_cases hkn : k = n
    · subst hkn
      rw [DGraph.node_setNode_self] at hk
      injection hk with hk
      rw [← hk]
      simp [canonicalTaskNode, hl, hfr, hparse]
    · rw [DGraph.node_setNode_ne _ _ hkn] at hk
      exact h k tn hk
  | case6 n rest visited g hv script hl hfr hparse ih =>
    intro h
    rw [discoverLoop_proc_unparsed smap rest g hv hl hfr hparse]
    apply ih
    intro k tn hk
    by_cases hkn : k = n
    · subst hkn
      rw [DGraph.node_setNode_self] at hk
      injection hk with hk
      rw [← hk]
      simp [canonicalTaskNode, hl, hfr, hparse]
    · rw [DGraph.node_setNode_ne _ _ hkn] at hk
      exact h k tn hk
  | case7 n rest visited g hv script hl hfr ih =>
    intro h
    rw [discoverLoop_proc_plain smap rest g hv hl (Bool.eq_false_iff.mpr hfr)]
    apply ih
    intro k tn hk
    by_cases hkn : k = n
    · subst hkn
      rw [DGraph.node_setNode_self] at hk
      injection hk with hk
      rw [← hk]
      have hfr' : isFrunkCommand script.command = false := Bool.eq_false_iff.mpr hfr
      simp [canonicalTaskNode, hl, hfr']
    · rw [DGraph.node_setNode_ne _ _ hkn] at hk
      exact h k tn hk

theorem discoverLoop_GInv (smap : List Script) :
    ∀ jobs visited g, DGraph.GInv g →
      DGraph.GInv (discoverLoop smap jobs visited g) := by
  intro jobs visited g
  induction jobs, visited, g using discoverLoop.induct smap with
  | case1 visited g =>
    intro h
    rw [discoverLoop_nil]
    exact h
  | case2 u v rest visited g ih =>
    intro h
    rw [discoverLoop_edge]
    exact ih (h.setEdge u v)
  | case3 n rest visited g hv ih =>
    intro h
    rw [discoverLoop_proc_visited smap rest g hv]
    exact ih h
  | case4 n rest visited g hv hl ih =>
    intro h
    rw [discoverLoop_proc_none smap rest g hv hl]
    exact ih h
  | case5 n rest visited g hv script hl hfr fc hparse ih =>
    intro h
    rw [discoverLoop_proc_frunk smap rest g hv hl hfr hparse]
    exact ih (h.setNode n _)
  | case6 n rest visited g hv script hl hfr hparse ih =>
    intro h
    rw [discoverLoop_proc_unparsed smap rest g hv hl hfr hparse]
    exact ih (h.setNode n _)
  | case7 n rest visited g hv script hl hfr ih =>
    intro h
    rw [discoverLoop_proc_plain smap rest g hv hl (Bool.eq_false_iff.mpr hfr)]
    exact ih (h.setNode n _)

/-! ## Folds over graphs: preservation helpers -/

theorem foldl_node_preserved {α : Type} (f : DGraph → α → DGraph)
    (hf : ∀ g a w, (f g a).node w = g.node w) :
    ∀ (l : List α) (g : DGraph) (w : String),
      (l.foldl f g).node w = g.node w := by
  intro l
  induction l with
  | nil => intro g w; rfl
  | cons a t ih => intro g w; rw [List.foldl_cons, ih, hf]

theorem foldl_edges_mono {α : Type} (f : DGraph → α → DGraph)
    (hf : ∀ g a, ∀ e ∈ g.edges, e ∈ (f g a).edges) :
    ∀ (l : List α) (g : DGraph), ∀ e ∈ g.edges, e ∈ (l.foldl f g).edges := by
  intro l
  induction l with
  | nil => intro g e he; exact he
  | cons a t ih => intro g e he; exact ih (f g a) e (hf g a e he)

theorem foldl_GInv {α : Type} (f : DGraph → α → DGraph)
    (hf : ∀ g a, DGraph.GInv g → DGraph.GInv (f g a)) :
    ∀ (l : List α) (g : DGraph), DGraph.GInv g → DGraph.GInv (l.foldl f g) := by
  intro l
  induction l with
  | nil => intro g h; exact h
  | cons a t ih => intro g h; exact ih (f g a) (hf g a h)

/-! ## `addSeqEdges`: values preserved, edges grow, invariant kept -/

theorem node_addSeqEdges (g : DGraph) (groups : List (List String))
    (w : String) : (addSeqEdges g groups).node w = g.node w := by
  unfold addSeqEdges
  apply foldl_node_preserved
  intro g pr w
  apply foldl_node_preserved
  intro g c w
  apply foldl_node_preserved
  intro g p w
  by_cases h : (g.hasNode c && g.hasNode p) = true
  · rw [if_pos h, DGraph.node_setEdge]
  · rw [if_neg h]

theorem edges_mono_addSeqEdges (g : DGraph) (groups : List (List String)) :
    ∀ e ∈ g.edges, e ∈ (addSeqEdges g groups).edges := by
  unfold addSeqEdges
  apply foldl_edges_mono
  intro g pr
  apply foldl_edges_mono
  intro g c
  apply foldl_edges_mono
  intro g p e he
  by_cases h : (g.hasNode c && g.hasNode p) = true
  · rw [if_pos h]
    exact DGraph.mem_edges_setEdge.mpr (Or.inl he)
  · rw [if_neg h]
    exact he

theorem GInv_addSeqEdges {g : DGraph} (hg : DGraph.GInv g)
    (groups : List (List String)) : DGraph.GInv (addSeqEdges g groups) := by
  unfold addSeqEdges
  refine foldl_GInv _ ?_ _ g hg
  intro g pr
  refine foldl_GInv _ ?_ _ g
  intro g c
  refine foldl_GInv _ ?_ _ g
  intro g p h
  by_cases hc : (g.hasNode c && g.hasNode p) = true
  · rw [if_pos hc]
    exact h.setEdge c p
  · rw [if_neg hc]
    exact h

/-! ## `addCommandNode`: values preserved away from the command key -/

theorem node_addCommandNode_ne (g : DGraph) (cmd : Option String)
    (names : List String) {w : String} (hw : w ≠ COMMAND_NODE_NAME) :
    (addCommandNode g cmd names).node w = g.node w := by
  unfold addCommandNode
  cases cmd with
  | none => rfl
  | some c =>
    dsimp only
    by_cases h : (decide ¬c = "" && decide (names.length > 0)) = true
    · rw [if_pos h]
      rw [foldl_node_preserved _ ?_ names _ w]
      · exact DGraph.node_setNode_ne _ _ hw
      · intro g a w
        by_cases ha : g.hasNode a = true
        · rw [if_pos ha, DGraph.node_setEdge]
        · rw [if_neg ha]
    · rw [if_neg h]

theorem node_isSome_addCommandNode (g : DGraph) (cmd : Option String)
    (names : List String) (d : String) (h : ((g.node d).isSome) = true) :
    (((addCommandNode g cmd names).node d).isSome) = true := by
  by_cases hd : d = COMMAND_NODE_NAME
  · subst hd
    unfold addCommandNode
    cases cmd with
    | none => exact h
    | some c =>
      dsimp only
      by_cases hc : (decide ¬c = "" && decide (names.length > 0)) = true
      · rw [if_pos hc]
        rw [foldl_node_preserved _ ?_ names _ _]
        · rw [DGraph.node_setNode_self]
          rfl
        · intro g a w
          by_cases ha : g.hasNode a = true
          · rw [if_pos ha, DGraph.node_setEdge]
          · rw [if_neg ha]
      · rw [if_neg hc]
        exact h
  · rw [node_addCommandNode_ne g cmd names hd]
    exact h

theorem node_isSome_of_addCommandNode {g : DGraph} {cmd : Option String}
    {names : List String} {n : String}
    (h : (((addCommandNode g cmd names).node n).isSome) = true) :
    ((g.node n).isSome) = true ∨ n = COMMAND_NODE_NAME := by
  by_cases hn : n = COMMAND_NODE_NAME
  · exact Or.inr hn
  · rw [node_addCommandNode_ne g cmd names hn] at h
    exact Or.inl h

theorem edges_mono_addCommandNode (g : DGraph) (cmd : Option String)
    (names : List String) : ∀ e ∈ g.edges, e ∈ (addCommandNode g cmd names).edges := by
  unfold addCommandNode
  cases cmd with
  | none => intro e he; exact he
  | some c =>
    dsimp only
    intro e he
    by_cases h : (decide ¬c = "" && decide (names.length > 0)) = true
    · rw [if_pos h]
      refine foldl_edges_mono _ ?_ names _ e ?_
      · intro g a e' he'
        by_cases ha : g.hasNode a = true
        · rw [if_pos ha]
          exact DGraph.mem_edges_setEdge.mpr (Or.inl he')
        · rw [if_neg ha]
          exact he'
      · rw [DGraph.edges_setNode]
        exact he
    · rw [if_neg h]
      exact he

theorem GInv_addCommandNode {g : DGraph} (hg : DGraph.GInv g)
    (cmd : Option String) (names : List String) :
    DGraph.GInv (addCommandNode g cmd names) := by
  unfold addCommandNode
  cases cmd with
  | none => exact hg
  | some c =>
    dsimp only
    by_cases h : (decide ¬c = "" && decide (names.length > 0)) = true
    · rw [if_pos h]
      refine foldl_GInv _ ?_ names _ (hg.setNode _ _)
      intro g a hgi
      by_cases ha : g.hasNode a = true
      · rw [if_pos ha]
        exact hgi.setEdge _ a
      · rw [if_neg ha]
        exact hgi
    · rw [if_neg h]
      exact hg

/-! ## The full internal graph: invariant and stored values -/

theorem GInv_mkDiscoveryGraph (patterns : List String) (smap : List Script) :
    DGraph.GInv (mkDiscoveryGraph patterns smap) := by
  unfold mkDiscoveryGraph
  refine foldl_GInv _ ?_ _ _ DGraph.GInv.empty
  intro g n h
  exact discoverLoop_GInv smap [Job.proc n] [] g h

theorem GInv_fullGraph (patterns : List String) (smap : List Script)
    (cmd : Option String) : DGraph.GInv (fullGraph patterns smap cmd) := by
  unfold fullGraph
  exact GInv_addCommandNode
    (GInv_addSeqEdges (GInv_mkDiscoveryGraph patterns smap) _) _ _

theorem discoverFold_values (smap : List Script) :
    ∀ (ts : List String) (g0 : DGraph),
      (∀ k tn, g0.node k = some tn → canonicalTaskNode smap k = some tn) →
      ∀ k tn,
        (ts.foldl (fun g n => discoverLoop smap [Job.proc n] [] g) g0).node k
          = some tn →
        canonicalTaskNode smap k = some tn := by
  intro ts
  induction ts with
  | nil => intro g0 h; exact h
  | cons t rest ih =>
    intro g0 h
    rw [List.foldl_cons]
    exact ih _ (discoverLoop_values smap [Job.proc t] [] g0 h)

theorem node_empty (k : String) : DGraph.empty.node k = none := rfl

theorem values_mkDiscoveryGraph (patterns : List String) (smap : List Script) :
    ∀ k tn, (mkDiscoveryGraph patterns smap).node k = some tn →
      canonicalTaskNode smap k = some tn := by
  unfold mkDiscoveryGraph
  refine discoverFold_values smap _ DGraph.empty ?_
  intro k tn h
  rw [node_empty] at h
  cases h

theorem values_fullGraph (patterns : List String) (smap : List Script)
    (cmd : Option String) {k : String} {tn : TaskNode}
    (hk : k ≠ COMMAND_NODE_NAME)
    (h : (fullGraph patterns smap cmd).node k = some tn) :
    canonicalTaskNode smap k = some tn := by
  unfold fullGraph at h
  rw [node_addCommandNode_ne _ _ _ hk, node_addSeqEdges] at h
  exact values_mkDiscoveryGraph patterns smap k tn h

/-! ## Completeness of discovery: reached names are settled, parsed
dependencies produce edges -/

/-- A name is settled when it has a stored value or is not a manifest
name (`processScript` returns without touching the graph for unknown
names). -/
def Settled (smap : List Script) (g : DGraph) (d : String) : Prop :=
  ((g.node d).isSome) = true ∨ lookupScript smap d = none

/-- Every valued name that parses as an orchestration invocation has an
edge to each of its resolved dependencies, and each such dependency is
settled. -/
def ClosedG (smap : List Script) (g : DGraph) : Prop :=
  ∀ n fc, ((g.node n).isSome) = true → parsedFrunkOf smap n = some fc →
    ∀ d ∈ effectiveDeps smap fc, (n, d) ∈ g.edges ∧ Settled smap g d

theorem Settled_mono {smap : List Script} {g g' : DGraph} {d : String}
    (hval : ∀ k, ((g.node k).isSome) = true → ((g'.node k).isSome) = true)
    (h : Settled smap g d) : Settled smap g' d := by
  rcases h with h | h
  · exact Or.inl (hval d h)
  · exact Or.inr h

theorem node_isSome_setNode (g : DGraph) (v : String) (tn : TaskNode)
    (k : String) (h : ((g.node k).isSome) = true) :
    (((g.setNode v tn).node k).isSome) = true := by
  by_cases hk : k = v
  · subst hk
    rw [DGraph.node_setNode_self]
    rfl
  · rw [DGraph.node_setNode_ne _ _ hk]
    exact h

theorem Settled_discoverLoop {smap : List Script} (jobs : List Job)
    (visited : List String) {g : DGraph} {d : String}
    (h : Settled smap g d) :
    Settled smap (discoverLoop smap jobs visited g) d :=
  Settled_mono (fun k hk => (discoverLoop_mono smap jobs visited g).1 k hk) h

theorem discoverLoop_closed (smap : List Script) :
    ∀ jobs visited g,
      (∀ m, visited.contains m = true → Settled smap g m) →
      (∀ n fc, ((g.node n).isSome) = true → parsedFrunkOf smap n = some fc →
        ∀ d ∈ effectiveDeps smap fc,
          ((n, d) ∈ g.edges ∨ Job.edge n d ∈ jobs) ∧
          (Settled smap g d ∨ Job.proc d ∈ jobs)) →
      ClosedG smap (discoverLoop smap jobs visited g) ∧
      ∀ d, Job.proc d ∈ jobs →
        Settled smap (discoverLoop smap jobs visited g) d := by
  intro jobs visited g
  induction jobs, visited, g using discoverLoop.induct smap with
  | case1 visited g =>
    intro _ hinv
    rw [discoverLoop_nil]
    constructor
    · intro n fc hval hparsed d hd
      rcases hinv n fc hval hparsed d hd with ⟨he | he, hs | hs⟩
      · exact ⟨he, hs⟩
      · exact absurd hs (List.not_mem_nil _)
      · exact absurd he (List.not_mem_nil _)
      · exact absurd he (List.not_mem_nil _)
    · intro d hd
      exact absurd hd (List.not_mem_nil _)
  | case2 u v rest visited g ih =>
    intro hv hinv
    rw [discoverLoop_edge]
    have hval : ∀ k, ((g.node k).isSome) = true →
        (((g.setEdge u v).node k).isSome) = true := by
      intro k hk
      rw [DGraph.node_setEdge]
      exact hk
    have step := ih
      (fun m hm => Settled_mono hval (hv m hm))
      (by
        intro n fc hvaln hparsed d hd
        have hvaln' : ((g.node n).isSome) = true := by
          rw [DGraph.node_setEdge] at hvaln
          exact hvaln
        rcases hinv n fc hvaln' hparsed d hd with ⟨he, hs⟩
        constructor
        · rcases he with he | he
          · exact Or.inl (DGraph.mem_edges_setEdge.mpr (Or.inl he))
          · rcases List.mem_cons.mp he with heq | he
            · injection heq with h1 h2
              subst h1; subst h2
              exact Or.inl (DGraph.self_mem_edges_setEdge g _ _)
            · exact Or.inr he
        · rcases hs with hs | hs
          · exact Or.inl (Settled_mono hval hs)
          · rcases List.mem_cons.mp hs with heq | hs
            · cases heq
            · exact Or.inr hs)
    refine ⟨step.1, ?_⟩
    intro d hd
    rcases List.mem_cons.mp hd with heq | hd
    · cases heq
    · exact step.2 d hd
  | case3 n rest visited g hv' ih =>
    intro hv hinv
    rw [discoverLoop_proc_visited smap rest g hv']
    have step := ih hv
      (by
        intro n' fc hvaln hparsed d hd
        rcases hinv n' fc hvaln hparsed d hd with ⟨he, hs⟩
        constructor
        · rcases he with he | he
          · exact Or.inl he
          · rcases List.mem_cons.mp he with heq | he
            · cases heq
            · exact Or.inr he
        · rcases hs with hs | hs
          · exact Or.inl hs
          · rcases List.mem_cons.mp hs with heq | hs
            · injection heq with h1
              subst h1
              exact Or.inl (hv d hv')
            · exact Or.inr hs)
    refine ⟨step.1, ?_⟩
    intro d hd
    rcases List.mem_cons.mp hd with heq | hd
    · injection heq with h1
      subst h1
      exact Settled_discoverLoop rest visited (hv d hv')
    · exact step.2 d hd
  | case4 n rest visited g hv' hl ih =>
    intro hv hinv
    rw [discoverLoop_proc_none smap rest g hv' hl]
    have hvnew : ∀ m, (n :: visited).contains m = true → Settled smap g m := by
      intro m hm
      rcases List.mem_cons.mp (List.mem_of_elem_eq_true hm) with heq | hm'
      · subst heq
        exact Or.inr hl
      · exact hv m (List.elem_eq_true_of_mem hm')
    have step := ih hvnew
      (by
        intro n' fc hvaln hparsed d hd
        rcases hinv n' fc hvaln hparsed d hd with ⟨he, hs⟩
        constructor
        · rcases he with he | he
          · exact Or.inl he
          · rcases List.mem_cons.mp he with heq | he
            · cases heq
            · exact Or.inr he
        · rcases hs with hs | hs
          · exact Or.inl hs
          · rcases List.mem_cons.mp hs with heq | hs
            · injection heq with h1
              subst h1
              exact Or.inl (Or.inr hl)
            · exact Or.inr hs)
    refine ⟨step.1, ?_⟩
    intro d hd
    rcases List.mem_cons.mp hd with heq | hd
    · injection heq with h1
      subst h1
      exact Settled_discoverLoop rest _ (Or.inr hl)
    · exact step.2 d hd
  | case5 n rest visited g hv' script hl hfr fc hparse ih =>
    intro hv hinv
    rw [discoverLoop_proc_frunk smap rest g hv' hl hfr hparse]
    have hparsedn : parsedFrunkOf smap n = some fc := by
      simp [parsedFrunkOf, hl, hfr, hparse]
    have hval : ∀ k, ((g.node k).isSome) = true →
        (((g.setNode n (frunkTaskNode n fc)).node k).isSome) = true :=
      node_isSome_setNode g n _
    have hnval : (((g.setNode n (frunkTaskNode n fc)).node n).isSome) = true := by
      rw [DGraph.node_setNode_self]
      rfl
    have hvnew : ∀ m, (n :: visited).contains m = true →
        Settled smap (g.setNode n (frunkTaskNode n fc)) m := by
      intro m hm
      rcases List.mem_cons.mp (List.mem_of_elem_eq_true hm) with heq | hm'
      · subst heq
        exact Or.inl hnval
      · exact Settled_mono hval (hv m (List.elem_eq_true_of_mem hm'))
    have step := ih hvnew
      (by
        intro n' fc' hvaln hparsed d hd
        by_cases hn' : n' = n
        · subst hn'
          have hfc : fc' = fc := by
            rw [hparsedn] at hparsed
            injection hparsed with h1
            rw [h1]
          subst hfc
          constructor
          · refine Or.inr (List.mem_append_left _ ?_)
            refine List.mem_flatMap.mpr ⟨d, hd, ?_⟩
            exact List.mem_cons_self _ _
          · refine Or.inr (List.mem_append_left _ ?_)
            refine List.mem_flatMap.mpr ⟨d, hd, ?_⟩
            exact List.mem_cons_of_mem _ (List.mem_cons_self _ _)
        · have hvaln' : ((g.node n').isSome) = true := by
            rw [DGraph.node_setNode_ne _ _ hn'] at hvaln
            exact hvaln
          rcases hinv n' fc' hvaln' hparsed d hd with ⟨he, hs⟩
          constructor
          · rcases he with he | he
            · rw [← DGraph.edges_setNode g n (frunkTaskNode n fc)] at he
              exact Or.inl he
            · rcases List.mem_cons.mp he with heq | he
              · cases heq
              · exact Or.inr (List.mem_append_right _ he)
          · rcases hs with hs | hs
            · exact Or.inl (Settled_mono hval hs)
            · rcases List.mem_cons.mp hs with heq | hs
              · injection heq with h1
                subst h1
                exact Or.inl (Or.inl hnval)
              · exact Or.inr (List.mem_append_right _ hs))
    refine ⟨step.1, ?_⟩
    intro d hd
    rcases List.mem_cons.mp hd with heq | hd
    · injection heq with h1
      subst h1
      exact Settled_discoverLoop _ _ (Or.inl hnval)
    · exact step.2 d (List.mem_append_right _ hd)
  | case6 n rest visited g hv' script hl hfr hparse ih =>
    intro hv hinv
    rw [discoverLoop_proc_unparsed smap rest g hv' hl hfr hparse]
    have hparsedn : parsedFrunkOf smap n = none := by
      simp [parsedFrunkOf, hl, hfr, hparse]
    have hval : ∀ k, ((g.node k).isSome) = true →
        (((g.setNode n (asIsTaskNode n script.command)).node k).isSome) = true :=
      node_isSome_setNode g n _
    have hnval : (((g.setNode n (asIsTaskNode n script.command)).node n).isSome)
        = true := by
      rw [DGraph.node_setNode_self]
      rfl
    have hvnew : ∀ m, (n :: visited).contains m = true →
        Settled smap (g.setNode n (asIsTaskNode n script.command)) m := by
      intro m hm
      rcases List.mem_cons.mp (List.mem_of_elem_eq_true hm) with heq | hm'
      · subst heq
        exact Or.inl hnval
      · exact Settled_mono hval (hv m (List.elem_eq_true_of_mem hm'))
    have step := ih hvnew
      (by
        intro n' fc' hvaln hparsed d hd
        by_cases hn' : n' = n
        · subst hn'
          rw [hparsedn] at hparsed
          cases hparsed
        · have hvaln' : ((g.node n').isSome) = true := by
            rw [DGraph.node_setNode_ne _ _ hn'] at hvaln
            exact hvaln
          rcases hinv n' fc' hvaln' hparsed d hd with ⟨he, hs⟩
          constructor
          · rcases he with he | he
            · rw [← DGraph.edges_setNode g n (asIsTaskNode n script.command)] at he
              exact Or.inl he
            · rcases List.mem_cons.mp he with heq | he
              · cases heq
              · exact Or.inr he
          · rcases hs with hs | hs
            · exact Or.inl (Settled_mono hval hs)
            · rcases List.mem_cons.mp hs with heq | hs
              · injection heq with h1
                subst h1
                exact Or.inl (Or.inl hnval)
              · exact Or.inr hs)
    refine ⟨step.1, ?_⟩
    intro d hd
    rcases List.mem_cons.mp hd with heq | hd
    · injection heq with h1
      subst h1
      exact Settled_discoverLoop _ _ (Or.inl hnval)
    · exact step.2 d hd
  | case7 n rest visited g hv' script hl hfr ih =>
    intro hv hinv
    rw [discoverLoop_proc_plain smap rest g hv' hl (Bool.eq_false_iff.mpr hfr)]
    have hparsedn : parsedFrunkOf smap n = none := by
      have hfr' : isFrunkCommand script.command = false := Bool.eq_false_iff.mpr hfr
      simp [parsedFrunkOf, hl, hfr']
    have hval : ∀ k, ((g.node k).isSome) = true →
        (((g.setNode n (asIsTaskNode n script.command)).node k).isSome) = true :=
      node_isSome_setNode g n _
    have hnval : (((g.setNode n (asIsTaskNode n script.command)).node n).isSome)
        = true := by
      rw [DGraph.node_setNode_self]
      rfl
    have hvnew : ∀ m, (n :: visited).contains m = true →
        Settled smap (g.setNode n (asIsTaskNode n script.command)) m := by
      intro m hm
      rcases List.mem_cons.mp (List.mem_of_elem_eq_true hm) with heq | hm'
      · subst heq
        exact Or.inl hnval
      · exact Settled_mono hval (hv m (List.elem_eq_true_of_mem hm'))
    have step := ih hvnew
      (by
        intro n' fc' hvaln hparsed d hd
        by_cases hn' : n' = n
        · subst hn'
          rw [hparsedn] at hparsed
          cases hparsed
        · have hvaln' : ((g.node n').isSome) = true := by
            rw [DGraph.node_setNode_ne _ _ hn'] at hvaln
            exact hvaln
          rcases hinv n' fc' hvaln' hparsed d hd with ⟨he, hs⟩
          constructor
          · rcases he with he | he
            · rw [← DGraph.edges_setNode g n (asIsTaskNode n script.command)] at he
              exact Or.inl he
            · rcases List.mem_cons.mp he with heq | he
              · cases heq
              · exact Or.inr he
          · rcases hs with hs | hs
            · exact Or.inl (Settled_mono hval hs)
            · rcases List.mem_cons.mp hs with heq | hs
              · injection heq with h1
                subst h1
                exact Or.inl (Or.inl hnval)
              · exact Or.inr hs)
    refine ⟨step.1, ?_⟩
    intro d hd
    rcases List.mem_cons.mp hd with heq | hd
    · injection heq with h1
      subst h1
      exact Settled_discoverLoop _ _ (Or.inl hnval)
    · exact step.2 d hd

theorem discoverFold_isSome_mono (smap : List Script) (ts : List String)
    (g0 : DGraph) (k : String) (h : ((g0.node k).isSome) = true) :
    (((ts.foldl (fun g n => discoverLoop smap [Job.proc n] [] g) g0).node
      k).isSome) = true := by
  induction ts generalizing g0 with
  | nil => exact h
  | cons t rest ih =>
    rw [List.foldl_cons]
    exact ih _ ((discoverLoop_mono smap [Job.proc t] [] g0).1 k h)

theorem discoverFold_closed (smap : List Script) (ts : List String)
    (g0 : DGraph) (h0 : ClosedG smap g0) :
    ClosedG smap (ts.foldl (fun g n => discoverLoop smap [Job.proc n] [] g) g0)
    ∧ ∀ t ∈ ts,
      Settled smap
        (ts.foldl (fun g n => discoverLoop smap [Job.proc n] [] g) g0) t := by
  induction ts generalizing g0 with
  | nil =>
    exact ⟨h0, fun t ht => absurd ht (List.not_mem_nil t)⟩
  | cons t rest ih =>
    rw [List.foldl_cons]
    have hstep := discoverLoop_closed smap [Job.proc t] [] g0
      (by intro m hm; cases hm)
      (by
        intro n fc hval hparsed d hd
        rcases h0 n fc hval hparsed d hd with ⟨he, hs⟩
        exact ⟨Or.inl he, Or.inl hs⟩)
    have hrest := ih _ hstep.1
    refine ⟨hrest.1, ?_⟩
    intro t' ht'
    rcases List.mem_cons.mp ht' with heq | ht'
    · subst heq
      have hset : Settled smap (discoverLoop smap [Job.proc t'] [] g0) t' :=
        hstep.2 t' (List.mem_cons_self _ _)
      rcases hset with hset | hset
      · exact Or.inl (discoverFold_isSome_mono smap rest _ t' hset)
      · exact Or.inr hset
    · exact hrest.2 t' ht'

theorem mkDiscoveryGraph_closed (patterns : List String)
    (smap : List Script) :
    ClosedG smap (mkDiscoveryGraph patterns smap)
    ∧ ∀ t ∈ patterns.map stripSeqMarker,
      Settled smap (mkDiscoveryGraph patterns smap) t := by
  unfold mkDiscoveryGraph
  refine discoverFold_closed smap _ DGraph.empty ?_
  intro n fc hval
  rw [node_empty] at hval
  cases hval

theorem ClosedG_addSeqEdges {smap : List Script} {g : DGraph}
    (groups : List (List String)) (h : ClosedG smap g) :
    ClosedG smap (addSeqEdges g groups) := by
  intro n fc hval hparsed d hd
  rw [node_addSeqEdges] at hval
  rcases h n fc hval hparsed d hd with ⟨he, hs⟩
  refine ⟨edges_mono_addSeqEdges g groups _ he, ?_⟩
  refine Settled_mono ?_ hs
  intro k hk
  rw [node_addSeqEdges]
  exact hk

theorem ClosedG_addCommandNode {smap : List Script} {g : DGraph}
    (cmd : Option String) (names : List String)
    (hno : lookupScript smap COMMAND_NODE_NAME = none) (h : ClosedG smap g) :
    ClosedG smap (addCommandNode g cmd names) := by
  intro n fc hval hparsed d hd
  rcases node_isSome_of_addCommandNode hval with hval' | heq
  · rcases h n fc hval' hparsed d hd with ⟨he, hs⟩
    refine ⟨edges_mono_addCommandNode g cmd names _ he, ?_⟩
    exact Settled_mono (fun k hk => node_isSome_addCommandNode g cmd names k hk) hs
  · subst heq
    rw [show parsedFrunkOf smap COMMAND_NODE_NAME = none by
      simp [parsedFrunkOf, hno]] at hparsed
    cases hparsed

theorem fullGraph_closed (patterns : List String) (smap : List Script)
    (cmd : Option String)
    (hno : lookupScript smap COMMAND_NODE_NAME = none) :
    ClosedG smap (fullGraph patterns smap cmd)
    ∧ ∀ p ∈ patterns,
      Settled smap (fullGraph patterns smap cmd) (stripSeqMarker p) := by
  have hmk := mkDiscoveryGraph_closed patterns smap
  unfold fullGraph
  constructor
  · exact ClosedG_addCommandNode _ _ hno (ClosedG_addSeqEdges _ hmk.1)
  · intro p hp
    have ht := hmk.2 (stripSeqMarker p) (List.mem_map_of_mem _ hp)
    refine Settled_mono (fun k hk => node_isSome_addCommandNode _ _ _ k hk) ?_
    refine Settled_mono ?_ ht
    intro k hk
    rw [node_addSeqEdges]
    exact hk

/-! ## Manifest-level dependency cycles force the circular error -/

/-- The manifest-level dependency relation: `u`'s entry parses as an
orchestration invocation and `v` is one of its resolved dependencies. -/
def linkRel (smap : List Script) (u v : String) : Prop :=
  ∃ fc, parsedFrunkOf smap u = some fc ∧ v ∈ effectiveDeps smap fc

theorem lookup_isSome_of_parsedFrunkOf {smap : List Script} {u : String}
    {fc : FrunkCmd} (h : parsedFrunkOf smap u = some fc) :
    (lookupScript smap u).isSome = true := by
  unfold parsedFrunkOf at h
  cases hl : lookupScript smap u with
  | none => rw [hl] at h; cases h
  | some s => rfl

theorem mem_nodeKeys_of_isSome {g : DGraph} {k : String}
    (h : ((g.node k).isSome) = true) : k ∈ g.nodeKeys := by
  unfold DGraph.node at h
  cases hf : g.nodes.find? (fun e => e.1 = k) with
  | none => rw [hf] at h; cases h
  | some e =>
    have hmem := List.mem_of_find?_eq_some hf
    have hk := List.find?_some hf
    simp only [decide_eq_true_eq] at hk
    rw [← hk]
    exact List.mem_map_of_mem _ hmem

/-- Walking a cyclic list of related elements: paths from the head to any
member and from any member back to the head. -/
theorem cycle_chain {α : Type} (r : α → α → Prop) (c : List α)
    (hne : c ≠ [])
    (hc : ∀ i (hi : i < c.length) (hj : (i + 1) % c.length < c.length),
      r (c.get ⟨i, hi⟩) (c.get ⟨(i + 1) % c.length, hj⟩)) :
    (∀ i (hi : i < c.length) (h0 : 0 < c.length),
      Relation.ReflTransGen r (c.get ⟨0, h0⟩) (c.get ⟨i, hi⟩))
    ∧ (∀ i (hi : i < c.length) (h0 : 0 < c.length),
      Relation.ReflTransGen r (c.get ⟨i, hi⟩) (c.get ⟨0, h0⟩)) := by
  have hlen : 0 < c.length := List.length_pos.mpr hne
  constructor
  · intro i
    induction i with
    | zero => intro hi h0; exact Relation.ReflTransGen.refl
    | succ m ih =>
      intro hi h0
      have hm : m < c.length := Nat.lt_of_succ_lt hi
      have hmod : (m + 1) % c.length = m + 1 := Nat.mod_eq_of_lt hi
      have hstep := hc m hm (by rw [hmod]; exact hi)
      have hstep' : r (c.get ⟨m, hm⟩) (c.get ⟨m + 1, hi⟩) := by
        have : (⟨(m + 1) % c.length, by rw [hmod]; exact hi⟩ : Fin c.length)
            = ⟨m + 1, hi⟩ := by
          apply Fin.ext
          exact hmod
        rw [this] at hstep
        exact hstep
      exact Relation.ReflTransGen.tail (ih hm h0) hstep'
  · have hdown : ∀ k i (hi : i < c.length), c.length - i ≤ k →
        ∀ h0 : 0 < c.length,
        Relation.ReflTransGen r (c.get ⟨i, hi⟩) (c.get ⟨0, h0⟩) := by
      intro k
      induction k with
      | zero =>
        intro i hi hk
        omega
      | succ m ih =>
        intro i hi hk h0
        by_cases hnext : i + 1 < c.length
        · have hmod : (i + 1) % c.length = i + 1 := Nat.mod_eq_of_lt hnext
          have hstep := hc i hi (by rw [hmod]; exact hnext)
          have hstep' : r (c.get ⟨i, hi⟩) (c.get ⟨i + 1, hnext⟩) := by
            have : (⟨(i + 1) % c.length, by rw [hmod]; exact hnext⟩ :
                Fin c.length) = ⟨i + 1, hnext⟩ := by
              apply Fin.ext
              exact hmod
            rw [this] at hstep
            exact hstep
          exact Relation.ReflTransGen.head hstep' (ih (i + 1) hnext (by omega) h0)
        · have hieq : i + 1 = c.length := by omega
          have hmod : (i + 1) % c.length = 0 := by
            rw [hieq]
            exact Nat.mod_self _
          have hstep := hc i hi (by rw [hmod]; exact h0)
          have hstep' : r (c.get ⟨i, hi⟩) (c.get ⟨0, h0⟩) := by
            have : (⟨(i + 1) % c.length, by rw [hmod]; exact h0⟩ :
                Fin c.length) = ⟨0, h0⟩ := by
              apply Fin.ext
              exact hmod
            rw [this] at hstep
            exact hstep
          exact Relation.ReflTransGen.single hstep'
    intro i hi h0
    exact hdown (c.length - i) i hi le_rfl h0

/-- On a closed graph, a `linkRel` chain from a valued name reaches only
valued names (as long as the final name is a manifest name). -/
theorem valued_of_chain {smap : List Script} {g : DGraph}
    (hcl : ClosedG smap g) {a b : String}
    (hab : Relation.ReflTransGen (linkRel smap) a b)
    (ha : ((g.node a).isSome) = true)
    (hb : (lookupScript smap b).isSome = true) :
    ((g.node b).isSome) = true := by
  induction hab with
  | refl => exact ha
  | tail hac hcb ih =>
    rcases hcb with ⟨fc, hparsed, hdep⟩
    have hcval := ih (lookup_isSome_of_parsedFrunkOf hparsed)
    have hb' := (hcl _ fc hcval hparsed _ hdep).2
    rcases hb' with hb' | hb'
    · exact hb'
    · rw [hb'] at hb
      cases hb

/-- The start of a nonempty chain is a manifest name, provided its end
is. -/
theorem chain_start_known {smap : List Script} {a b : String}
    (hab : Relation.ReflTransGen (linkRel smap) a b)
    (hb : (lookupScript smap b).isSome = true) :
    (lookupScript smap a).isSome = true := by
  rcases (Relation.ReflTransGen.cases_head hab) with rfl | ⟨c, hac, _⟩
  · exact hb
  · rcases hac with ⟨fc, hparsed, _⟩
    exact lookup_isSome_of_parsedFrunkOf hparsed

/-- A `linkRel` cycle reachable from a requested target leaves the Kahn
elimination stuck: the full graph is reported cyclic and every cycle
member lands in a component of `findCycles`. -/
theorem fullGraph_cycle_stuck (patterns : List String) (smap : List Script)
    (cmd : Option String) (c : List String) (p : String)
    (hno : lookupScript smap COMMAND_NODE_NAME = none)
    (hp : p ∈ patterns) (hcne : c ≠ [])
    (hcyc : ∀ i (hi : i < c.length) (hj : (i + 1) % c.length < c.length),
      linkRel smap (c.get ⟨i, hi⟩) (c.get ⟨(i + 1) % c.length, hj⟩))
    (h0 : 0 < c.length)
    (hreach : Relation.ReflTransGen (linkRel smap) (stripSeqMarker p)
      (c.get ⟨0, h0⟩)) :
    isAcyclicG (fullGraph patterns smap cmd) = false
    ∧ ∀ x ∈ c, ∃ comp ∈ findCyclesG (fullGraph patterns smap cmd), x ∈ comp := by
  set g := fullGraph patterns smap cmd with hg
  have hgi := GInv_fullGraph patterns smap cmd
  have hfc := fullGraph_closed patterns smap cmd hno
  have hcl : ClosedG smap g := hfc.1
  -- every cycle member is a manifest name
  have hknown : ∀ i (hi : i < c.length),
      (lookupScript smap (c.get ⟨i, hi⟩)).isSome = true := by
    intro i hi
    have hj : (i + 1) % c.length < c.length := Nat.mod_lt _ h0
    rcases hcyc i hi hj with ⟨fc, hparsed, _⟩
    exact lookup_isSome_of_parsedFrunkOf hparsed
  -- the head of the cycle is valued
  have htset := hfc.2 p hp
  have htval : ((g.node (stripSeqMarker p)).isSome) = true := by
    rcases htset with h | h
    · exact h
    · exfalso
      have := chain_start_known hreach (hknown 0 h0)
      rw [h] at this
      cases this
  have hc0 : ((g.node (c.get ⟨0, h0⟩)).isSome) = true :=
    valued_of_chain hcl hreach htval (hknown 0 h0)
  -- paths around the cycle at the manifest level
  have hchain := cycle_chain (linkRel smap) c hcne hcyc
  -- every cycle member is valued
  have hvaled : ∀ i (hi : i < c.length),
      ((g.node (c.get ⟨i, hi⟩)).isSome) = true := by
    intro i hi
    exact valued_of_chain hcl (hchain.1 i hi h0) hc0 (hknown i hi)
  -- every cycle step is a graph edge
  have hedges : ∀ i (hi : i < c.length) (hj : (i + 1) % c.length < c.length),
      (c.get ⟨i, hi⟩, c.get ⟨(i + 1) % c.length, hj⟩) ∈ g.edges := by
    intro i hi hj
    rcases hcyc i hi hj with ⟨fc, hparsed, hdep⟩
    exact (hcl _ fc (hvaled i hi) hparsed _ hdep).1
  -- the cycle members form a successor-closed set
  have hclosed : ∀ m ∈ c, ∃ m' ∈ c, (m, m') ∈ g.edges := by
    intro m hm
    rcases List.get_of_mem hm with ⟨⟨i, hi⟩, rfl⟩
    have hj : (i + 1) % c.length < c.length := Nat.mod_lt _ h0
    exact ⟨c.get ⟨(i + 1) % c.length, hj⟩, List.get_mem c _ _,
      hedges i hi hj⟩
  have hsub : ∀ m ∈ c, m ∈ g.nodeKeys := by
    intro m hm
    rcases List.get_of_mem hm with ⟨⟨i, hi⟩, rfl⟩
    exact mem_nodeKeys_of_isSome (hvaled i hi)
  have htrapped := kahnGo_trapped g c hclosed g.nodeKeys.length g.nodeKeys []
    le_rfl hsub
  have hc0mem : c.get ⟨0, h0⟩ ∈ c := List.get_mem c _ _
  have hstuckne : (kahn g).2 ≠ [] := by
    intro hnil
    have := htrapped _ hc0mem
    rw [show (kahnGo g g.nodeKeys []) = kahn g from rfl, hnil] at this
    exact absurd this (List.not_mem_nil _)
  constructor
  · unfold isAcyclicG
    cases hke : (kahn g).2.isEmpty with
    | false => rfl
    | true => exact absurd (List.isEmpty_iff.mp hke) hstuckne
  · intro x hx
    rcases List.get_of_mem hx with ⟨⟨i, hi⟩, rfl⟩
    have hj : (i + 1) % c.length < c.length := Nat.mod_lt _ h0
    have hedge : edgeRel g (c.get ⟨i, hi⟩) (c.get ⟨(i + 1) % c.length, hj⟩) :=
      hedges i hi hj
    -- a graph-level path from the successor back to the member
    have hgchain := cycle_chain (edgeRel g) c hcne
      (fun i hi hj => hedges i hi hj)
    have hback : Relation.ReflTransGen (edgeRel g)
        (c.get ⟨(i + 1) % c.length, hj⟩) (c.get ⟨i, hi⟩) :=
      Relation.ReflTransGen.trans (hgchain.2 _ hj h0) (hgchain.1 i hi h0)
    exact findCyclesG_covers g hgi.keysNodup hgi.edgesInKeys hedge hback

/-! ## A closed form for the node-construction loop -/

/-- The id assignments handed out for a batch of value keys, starting at
a counter. -/
def idsOf : List (String × TaskNode) → Nat → List (String × String)
  | [], _ => []
  | (k, _) :: rest, c => (k, nodeId c) :: idsOf rest (c + 1)

/-- The execution nodes the construction loop emits for the given valued
keys: ids count up, dependencies are looked up among the ids assigned so
far. -/
def mkNodes (g : DGraph) :
    List (String × TaskNode) → Nat → List (String × String) →
      List ExecutionNode
  | [], _, _ => []
  | (k, tn) :: rest, counter, idMap =>
    { id := nodeId counter, tasks := [tn.task],
      dependencies := (g.successors k).filterMap
        (fun dep => (idMap.find? (fun e => e.1 = dep)).map (fun e => e.2)),
      sequential := false } ::
      mkNodes g rest (counter + 1) (idMap ++ [(k, nodeId counter)])

/-- The valued entries of a key list, in order. -/
def valuedPairs (g : DGraph) (order : List String) :
    List (String × TaskNode) :=
  order.filterMap (fun k => (g.node k).map (fun tn => (k, tn)))

theorem valuedPairs_nil (g : DGraph) : valuedPairs g [] = [] := rfl

theorem valuedPairs_cons_none (g : DGraph) {k : String}
    (hk : g.node k = none) (rest : List String) :
    valuedPairs g (k :: rest) = valuedPairs g rest := by
  unfold valuedPairs
  rw [List.filterMap_cons, hk]
  rfl

theorem valuedPairs_cons_some (g : DGraph) {k : String} {tn : TaskNode}
    (hk : g.node k = some tn) (rest : List String) :
    valuedPairs g (k :: rest) = (k, tn) :: valuedPairs g rest := by
  unfold valuedPairs
  rw [List.filterMap_cons, hk]
  rfl

theorem valuedPairs_append (g : DGraph) (l1 l2 : List String) :
    valuedPairs g (l1 ++ l2) = valuedPairs g l1 ++ valuedPairs g l2 := by
  unfold valuedPairs
  rw [List.filterMap_append]

theorem mem_valuedPairs {g : DGraph} {order : List String}
    {pr : String × TaskNode} :
    pr ∈ valuedPairs g order ↔ pr.1 ∈ order ∧ g.node pr.1 = some pr.2 := by
  unfold valuedPairs
  rw [List.mem_filterMap]
  constructor
  · rintro ⟨k, hk, hmap⟩
    rcases Option.map_eq_some'.mp hmap with ⟨tn, htn, heq⟩
    cases pr with
    | mk a b =>
      injection heq with h1 h2
      subst h1; subst h2
      exact ⟨hk, htn⟩
  · rintro ⟨hmem, hval⟩
    exact ⟨pr.1, hmem, by rw [hval]; rfl⟩

theorem valuedPairs_keys (g : DGraph) (order : List String) :
    (valuedPairs g order).map Prod.fst
      = order.filter (fun k => (g.node k).isSome) := by
  induction order with
  | nil => rfl
  | cons k rest ih =>
    cases hk : g.node k with
    | none =>
      rw [valuedPairs_cons_none g hk, List.filter_cons]
      have : ((g.node k).isSome) = false := by rw [hk]; rfl
      rw [this]
      simpa using ih
    | some tn =>
      rw [valuedPairs_cons_some g hk, List.filter_cons]
      have : ((g.node k).isSome) = true := by rw [hk]; rfl
      rw [this]
      simp only [if_true, List.map_cons]
      rw [ih]

theorem valuedPairs_keys_nodup {g : DGraph} {order : List String}
    (h : order.Nodup) : ((valuedPairs g order).map Prod.fst).Nodup := by
  rw [valuedPairs_keys]
  exact h.filter _

/-- Unfolding equations of the construction loop and its closed form. -/
theorem buildNodesGo_nil (g : DGraph) (nodes : List ExecutionNode)
    (idMap : List (String × String)) (counter : Nat) :
    buildNodesGo g [] nodes idMap counter = nodes := rfl

theorem buildNodesGo_cons (g : DGraph) (k : String) (rest : List String)
    (nodes : List ExecutionNode) (idMap : List (String × String))
    (counter : Nat) :
    buildNodesGo g (k :: rest) nodes idMap counter =
      (match g.node k with
      | none => buildNodesGo g rest nodes idMap counter
      | some tn =>
        if idMap.any (fun e => e.1 = k) then
          buildNodesGo g rest nodes idMap counter
        else
          buildNodesGo g rest
            (nodes ++ [{ id := nodeId counter,
                         tasks := [tn.task],
                         dependencies := (g.successors k).filterMap
                           (fun dep =>
                             (idMap.find? (fun e => e.1 = dep)).map
                               (fun e => e.2)),
                         sequential := false }])
            (idMap ++ [(k, nodeId counter)]) (counter + 1)) := rfl

theorem mkNodes_nil (g : DGraph) (counter : Nat)
    (idMap : List (String × String)) : mkNodes g [] counter idMap = [] := rfl

theorem mkNodes_cons (g : DGraph) (k : String) (tn : TaskNode)
    (rest : List (String × TaskNode)) (counter : Nat)
    (idMap : List (String × String)) :
    mkNodes g ((k, tn) :: rest) counter idMap =
      { id := nodeId counter, tasks := [tn.task],
        dependencies := (g.successors k).filterMap
          (fun dep => (idMap.find? (fun e => e.1 = dep)).map (fun e => e.2)),
        sequential := false } ::
        mkNodes g rest (counter + 1) (idMap ++ [(k, nodeId counter)]) := rfl

/-- The closed form of `buildNodesGo`: on a duplicate-free order whose
keys are fresh for the id map, the loop appends exactly `mkNodes` of the
valued entries. -/
theorem buildNodesGo_eq (g : DGraph) :
    ∀ (order : List String) (nodes : List ExecutionNode)
      (idMap : List (String × String)) (counter : Nat),
      order.Nodup →
      (∀ k ∈ order, idMap.any (fun e => e.1 = k) = false) →
      buildNodesGo g order nodes idMap counter
        = nodes ++ mkNodes g (valuedPairs g order) counter idMap := by
  intro order
  induction order with
  | nil =>
    intro nodes idMap counter _ _
    rw [valuedPairs_nil, buildNodesGo_nil, mkNodes_nil, List.append_nil]
  | cons k rest ih =>
    intro nodes idMap counter hnd hfresh
    rw [buildNodesGo_cons]
    cases hk : g.node k with
    | none =>
      rw [valuedPairs_cons_none g hk]
      exact ih nodes idMap counter hnd.of_cons
        (fun k' hk' => hfresh k' (List.mem_cons_of_mem _ hk'))
    | some tn =>
      rw [valuedPairs_cons_some g hk]
      dsimp only
      rw [if_neg (by rw [hfresh k (List.mem_cons_self _ _)]; exact
        Bool.false_ne_true)]
      rw [ih _ _ _ hnd.of_cons ?_]
      · rw [mkNodes_cons]
        rw [List.append_assoc]
        rfl
      · intro k' hk'
        rw [List.any_append]
        have h1 : idMap.any (fun e => e.1 = k') = false :=
          hfresh k' (List.mem_cons_of_mem _ hk')
        have h2 : [(k, nodeId counter)].any (fun e => e.1 = k') = false := by
          have hne : k ≠ k' := by
            intro heq
            subst heq
            exact (List.nodup_cons.mp hnd).1 hk'
          simp [hne]
        rw [h1, h2]
        rfl

theorem mkNodes_length (g : DGraph) :
    ∀ (prs : List (String × TaskNode)) (counter : Nat)
      (idMap : List (String × String)),
      (mkNodes g prs counter idMap).length = prs.length := by
  intro prs
  induction prs with
  | nil => intro counter idMap; rfl
  | cons pr rest ih =>
    intro counter idMap
    cases pr with
    | mk k tn =>
      rw [mkNodes_cons]
      rw [List.length_cons, List.length_cons, ih]

/-- The `i`-th emitted node: its id counts up from the counter, its task
is the stored value, its dependencies are looked up among the initial id
map extended by the ids of the first `i` entries. -/
theorem mkNodes_get (g : DGraph) :
    ∀ (prs : List (String × TaskNode)) (counter : Nat)
      (idMap : List (String × String)) (i : Nat) (hi : i < prs.length)
      (hi' : i < (mkNodes g prs counter idMap).length),
      (mkNodes g prs counter idMap).get ⟨i, hi'⟩ =
        { id := nodeId (counter + i),
          tasks := [(prs.get ⟨i, hi⟩).2.task],
          dependencies := (g.successors (prs.get ⟨i, hi⟩).1).filterMap
            (fun dep => (((idMap ++ idsOf (prs.take i) counter).find?
              (fun e => e.1 = dep)).map (fun e => e.2))),
          sequential := false } := by
  intro prs
  induction prs with
  | nil =>
    intro counter idMap i hi
    exact absurd hi (by simp)
  | cons pr rest ih =>
    intro counter idMap i hi hi'
    cases pr with
    | mk k tn =>
      cases i with
      | zero =>
        simp only [mkNodes_cons, List.take_zero, idsOf, List.append_nil,
          Nat.add_zero]
        rfl
      | succ m =>
        have hm : m < rest.length := Nat.lt_of_succ_lt_succ hi
        have hm2 : m < (mkNodes g rest (counter + 1)
            (idMap ++ [(k, nodeId counter)])).length := by
          rw [mkNodes_length]
          exact hm
        have hstep : (mkNodes g ((k, tn) :: rest) counter idMap).get
            ⟨m + 1, hi'⟩ = (mkNodes g rest (counter + 1)
              (idMap ++ [(k, nodeId counter)])).get ⟨m, hm2⟩ := by
          have := mkNodes_cons g k tn rest counter idMap
          exact List.get_of_eq this _ ▸ rfl
        rw [hstep, ih (counter + 1) (idMap ++ [(k, nodeId counter)]) m hm hm2]
        have hidx : counter + 1 + m = counter + (m + 1) := by omega
        have htake : (idMap ++ [(k, nodeId counter)])
            ++ idsOf (rest.take m) (counter + 1)
            = idMap ++ idsOf (((k, tn) :: rest).take (m + 1)) counter := by
          rw [List.take_succ_cons, idsOf, List.append_assoc]
          rfl
        rw [hidx, htake]
        rfl

theorem mem_idsOf :
    ∀ (l : List (String × TaskNode)) (c : Nat) (e : String × String),
      e ∈ idsOf l c →
      ∃ j, ∃ hj : j < l.length, e = ((l.get ⟨j, hj⟩).1, nodeId (c + j)) := by
  intro l
  induction l with
  | nil =>
    intro c e he
    exact absurd he (List.not_mem_nil e)
  | cons pr rest ih =>
    intro c e he
    cases pr with
    | mk k tn =>
      rw [show idsOf ((k, tn) :: rest) c
        = (k, nodeId c) :: idsOf rest (c + 1) from rfl] at he
      rcases List.mem_cons.mp he with heq | he
      · exact ⟨0, by simp, by simpa using heq⟩
      · rcases ih (c + 1) e he with ⟨j, hj, hev⟩
        refine ⟨j + 1, by simpa using Nat.succ_lt_succ hj, ?_⟩
        rw [hev]
        have : c + 1 + j = c + (j + 1) := by omega
        rw [this]
        rfl

theorem find?_idsOf_eq_none :
    ∀ (l : List (String × TaskNode)) (c : Nat) {d : String},
      d ∉ l.map Prod.fst →
      (idsOf l c).find? (fun e => e.1 = d) = none := by
  intro l
  induction l with
  | nil => intro c d _; rfl
  | cons pr rest ih =>
    intro c d hd
    cases pr with
    | mk k tn =>
      rw [show idsOf ((k, tn) :: rest) c
        = (k, nodeId c) :: idsOf rest (c + 1) from rfl]
      have hkd : k ≠ d := by
        intro heq
        exact hd (by rw [← heq]; exact List.mem_cons_self _ _)
      rw [List.find?_cons_of_neg _ (by simpa using hkd)]
      exact ih (c + 1) (fun hm => hd (List.mem_cons_of_mem _ hm))

theorem find?_idsOf_eq_some :
    ∀ (l : List (String × TaskNode)) (c : Nat) {d : String},
      ((l.map Prod.fst).Nodup) →
      ∀ j (hj : j < l.length), (l.get ⟨j, hj⟩).1 = d →
      (idsOf l c).find? (fun e => e.1 = d) = some (d, nodeId (c + j)) := by
  intro l
  induction l with
  | nil =>
    intro c d _ j hj
    exact absurd hj (by simp)
  | cons pr rest ih =>
    intro c d hnd j hj hd
    cases pr with
    | mk k tn =>
      rw [show idsOf ((k, tn) :: rest) c
        = (k, nodeId c) :: idsOf rest (c + 1) from rfl]
      cases j with
      | zero =>
        have hkd : k = d := hd
        rw [List.find?_cons_of_pos _ (by simpa using hkd)]
        rw [hkd, Nat.add_zero]
      | succ m =>
        have hm : m < rest.length := Nat.lt_of_succ_lt_succ hj
        have hmem : d ∈ rest.map Prod.fst := by
          rw [← hd]
          exact List.mem_map_of_mem _ (List.get_mem rest _ _)
        have hkd : k ≠ d := by
          intro heq
          subst heq
          exact (List.nodup_cons.mp (by simpa using hnd)).1 hmem
        rw [List.find?_cons_of_neg _ (by simpa using hkd)]
        have := ih (c + 1) (by simpa using (List.nodup_cons.mp
          (by simpa using hnd)).2) m hm hd
        rw [this]
        have : c + 1 + m = c + (m + 1) := by omega
        rw [this]

/-! ## Analysing the outcomes of `buildGraph` -/

theorem reverse_topsortG (g : DGraph) :
    (topsortG g).reverse = (kahn g).1 := by
  unfold topsortG
  rw [List.reverse_reverse]

theorem kahn_leftover_nil {g : DGraph} (h : isAcyclicG g = true) :
    (kahn g).2 = [] := by
  unfold isAcyclicG at h
  exact List.isEmpty_iff.mp h

/-- On an acyclic graph with the structural invariant, the reversed
topological order is a duplicate-free, dependency-ordered permutation of
the keys. -/
theorem order_spec {g : DGraph} (hgi : DGraph.GInv g)
    (hacy : isAcyclicG g = true) :
    ((topsortG g).reverse).Perm g.nodeKeys
    ∧ ((topsortG g).reverse).Nodup
    ∧ Orded g ((topsortG g).reverse) := by
  have hsp := kahn_spec g hgi.edgesInKeys
  have h2 := kahn_leftover_nil hacy
  rw [reverse_topsortG]
  have hperm : (kahn g).1.Perm g.nodeKeys := by
    have h1 := hsp.1
    rw [h2, List.append_nil] at h1
    exact h1
  exact ⟨hperm, (hperm.nodup_iff).mpr hgi.keysNodup, hsp.2.1⟩

/-- The body of `buildGraph`, with the `let`s expanded. -/
theorem buildGraph_def (patterns : List String) (scripts : List Script)
    (cfg : Config) (cmd : Option String) :
    buildGraph patterns scripts cfg cmd =
      (if !(isAcyclicG (fullGraph patterns scripts cmd)) then
        Except.error (BuildErr.circular (findCyclesG
          (fullGraph patterns scripts cmd)))
      else if patterns.length = 0 && cmdTruthy cmd then
        .ok ((buildNodesGo (fullGraph patterns scripts cmd)
            (topsortG (fullGraph patterns scripts cmd)).reverse [] [] 0) ++
          [{ id := nodeId (buildNodesGo (fullGraph patterns scripts cmd)
               (topsortG (fullGraph patterns scripts cmd)).reverse [] [] 0).length,
             tasks := [{ name := "command",
                         command := cmd.getD "",
                         dependencies := [] }],
             dependencies := [], sequential := false }])
      else if patterns.length = 0 && (buildNodesGo
          (fullGraph patterns scripts cmd)
          (topsortG (fullGraph patterns scripts cmd)).reverse [] [] 0).length
          = 0 then
        .ok ((buildNodesGo (fullGraph patterns scripts cmd)
            (topsortG (fullGraph patterns scripts cmd)).reverse [] [] 0) ++
          [{ id := nodeId (buildNodesGo (fullGraph patterns scripts cmd)
               (topsortG (fullGraph patterns scripts cmd)).reverse [] [] 0).length,
             tasks := [],
             dependencies := [], sequential := false }])
      else .ok (buildNodesGo (fullGraph patterns scripts cmd)
        (topsortG (fullGraph patterns scripts cmd)).reverse [] [] 0)) := rfl

/-- `buildGraph` with a nonempty pattern list and an acyclic graph: the
output of the construction loop, verbatim. -/
theorem buildGraph_eq_of (patterns : List String) (scripts : List Script)
    (cfg : Config) (cmd : Option String) (g : DGraph) (ord : List String)
    (hg : fullGraph patterns scripts cmd = g)
    (hacy : isAcyclicG g = true)
    (hord : (topsortG g).reverse = ord)
    (hpat : patterns ≠ []) :
    buildGraph patterns scripts cfg cmd
      = .ok (buildNodesGo g ord [] [] 0) := by
  rw [buildGraph_def, hg, hacy]
  rw [if_neg (by decide)]
  have hlen : (patterns.length = 0 : Bool) = false := by
    have : patterns.length ≠ 0 := fun h => hpat (List.length_eq_zero.mp h)
    simpa using this
  rw [if_neg (by rw [hlen]; simp)]
  rw [if_neg (by rw [hlen]; simp)]
  rw [hord]

/-- `buildGraph` on a cyclic graph: the circular error, verbatim. -/
theorem buildGraph_error_of (patterns : List String) (scripts : List Script)
    (cfg : Config) (cmd : Option String) (g : DGraph)
    (hg : fullGraph patterns scripts cmd = g)
    (hacy : isAcyclicG g = false) :
    buildGraph patterns scripts cfg cmd
      = .error (.circular (findCyclesG g)) := by
  rw [buildGraph_def, hg, hacy]
  rw [if_pos (by decide)]

/-- The only error `buildGraph` raises is the circular one. -/
theorem buildGraph_error_shape (patterns : List String)
    (scripts : List Script) (cfg : Config) (cmd : Option String)
    (e : BuildErr) (h : buildGraph patterns scripts cfg cmd = .error e) :
    ∃ cycles, e = .circular cycles := by
  rw [buildGraph_def] at h
  cases hacy : isAcyclicG (fullGraph patterns scripts cmd) with
  | false =>
    rw [hacy, if_pos (by decide)] at h
    injection h with h
    exact ⟨_, h.symm⟩
  | true =>
    exfalso
    rw [hacy, if_neg (by decide)] at h
    by_cases h1 : (patterns.length = 0 && cmdTruthy cmd) = true
    · rw [if_pos h1] at h
      cases h
    · rw [if_neg h1] at h
      by_cases h2 : (patterns.length = 0 && ((buildNodesGo
          (fullGraph patterns scripts cmd)
          (topsortG (fullGraph patterns scripts cmd)).reverse [] [] 0).length
          = 0 : Bool)) = true
      · rw [if_pos h2] at h
        cases h
      · rw [if_neg h2] at h
        cases h

/-- A successful `buildGraph` with a nonempty pattern list is exactly
`mkNodes` over the valued keys of the dependency order. -/
theorem buildGraph_ok_eq {patterns : List String} {scripts : List Script}
    {cfg : Config} {cmd : Option String} {ns : List ExecutionNode}
    (hpat : patterns ≠ [])
    (h : buildGraph patterns scripts cfg cmd = .ok ns) :
    isAcyclicG (fullGraph patterns scripts cmd) = true
    ∧ ns = mkNodes (fullGraph patterns scripts cmd)
        (valuedPairs (fullGraph patterns scripts cmd)
          ((topsortG (fullGraph patterns scripts cmd)).reverse)) 0 [] := by
  cases hacy : isAcyclicG (fullGraph patterns scripts cmd) with
  | false =>
    rw [buildGraph_error_of patterns scripts cfg cmd _ rfl hacy] at h
    cases h
  | true =>
    refine ⟨rfl, ?_⟩
    rw [buildGraph_eq_of patterns scripts cfg cmd _ _ rfl hacy rfl hpat] at h
    injection h with h
    rw [← h]
    have hos := order_spec (GInv_fullGraph patterns scripts cmd) hacy
    rw [buildNodesGo_eq _ _ _ _ _ hos.2.1 (fun k _ => List.any_nil)]
    rw [List.nil_append]

/-! ## Counting dependency references -/

theorem count_filterMap {α β : Type} [DecidableEq β] (f : α → Option β)
    (l : List α) (x : β) :
    (l.filterMap f).count x = l.countP (fun a => decide (f a = some x)) := by
  induction l with
  | nil => rfl
  | cons a t ih =>
    rw [List.filterMap_cons, List.countP_cons]
    cases hf : f a with
    | none => simpa using ih
    | some b =>
      dsimp only
      rw [List.count_cons, ih]
      by_cases hbx : b = x
      · subst hbx
        simp
      · simp [hbx]

theorem count_eq_one_of_nodup_mem {α : Type} [DecidableEq α]
    {l : List α} {x : α} (hnd : l.Nodup) (hm : x ∈ l) : l.count x = 1 := by
  have hle := List.nodup_iff_count_le_one.mp hnd x
  have hpos := List.count_pos_iff_mem.mpr hm
  omega

theorem succ_count {g : DGraph} (hE : g.edges.Nodup) (u d : String) :
    (g.successors u).count d = if (u, d) ∈ g.edges then 1 else 0 := by
  by_cases hmem : (u, d) ∈ g.edges
  · rw [if_pos hmem]
    exact count_eq_one_of_nodup_mem (DGraph.successors_nodup hE u)
      (DGraph.mem_successors.mpr hmem)
  · rw [if_neg hmem]
    exact List.count_eq_zero_of_not_mem
      (fun hd => hmem (DGraph.mem_successors.mp hd))

theorem get_append_mid {α : Type} :
    ∀ (A B : List α) (x : α) (h : A.length < (A ++ x :: B).length),
      (A ++ x :: B).get ⟨A.length, h⟩ = x := by
  intro A
  induction A with
  | nil => intro B x h; rfl
  | cons a A ih => intro B x h; exact ih B x (by simpa using h)

theorem get_append_left2 {α : Type} :
    ∀ (A B : List α) (i : Nat) (hA : i < A.length)
      (h : i < (A ++ B).length), (A ++ B).get ⟨i, h⟩ = A.get ⟨i, hA⟩ := by
  intro A
  induction A with
  | nil => intro B i hA; exact absurd hA (by simp)
  | cons a A ih =>
    intro B i hA h
    cases i with
    | zero => rfl
    | succ m =>
      exact ih B m (Nat.lt_of_succ_lt_succ hA) (by simpa using h)

theorem prs_key_inj {prs : List (String × TaskNode)}
    (hnd : (prs.map Prod.fst).Nodup) {i j : Nat}
    (hi : i < prs.length) (hj : j < prs.length)
    (h : (prs.get ⟨i, hi⟩).1 = (prs.get ⟨j, hj⟩).1) : i = j := by
  have hi' : i < (prs.map Prod.fst).length := by simpa using hi
  have hj' : j < (prs.map Prod.fst).length := by simpa using hj
  have h1 : (prs.map Prod.fst).get ⟨i, hi'⟩ = (prs.get ⟨i, hi⟩).1 := by
    rw [List.get_map]
  have h2 : (prs.map Prod.fst).get ⟨j, hj'⟩ = (prs.get ⟨j, hj⟩).1 := by
    rw [List.get_map]
  have := List.nodup_iff_injective_get.mp hnd
    (show (prs.map Prod.fst).get ⟨i, hi'⟩ = (prs.map Prod.fst).get ⟨j, hj'⟩ by
      rw [h1, h2, h])
  injection this

/-- A valued successor of the `j`-th valued key occupies an earlier
position: topological order puts dependencies first. -/
theorem dep_index_lt {g : DGraph} {order : List String}
    (hord : Orded g order) (hnd : order.Nodup)
    {j : Nat} (hj : j < (valuedPairs g order).length) {d : String}
    (hd : d ∈ g.successors ((valuedPairs g order).get ⟨j, hj⟩).1)
    (hdval : ((g.node d).isSome) = true) :
    ∃ iD, ∃ hiD : iD < (valuedPairs g order).length,
      iD < j ∧ ((valuedPairs g order).get ⟨iD, hiD⟩).1 = d := by
  rcases hpr : (valuedPairs g order).get ⟨j, hj⟩ with ⟨k, tn⟩
  have hmem : (k, tn) ∈ valuedPairs g order := by
    rw [← hpr]
    exact List.get_mem _ _ _
  obtain ⟨hkord, hkval⟩ := mem_valuedPairs.mp hmem
  obtain ⟨l1, l2, hsplit⟩ := List.append_of_mem hkord
  have hdl1 : d ∈ l1 := hord l1 _ l2 hsplit _ (by rw [hpr] at hd; exact hd)
  obtain ⟨dtn, hdtn⟩ := Option.isSome_iff_exists.mp hdval
  have hdmem : (d, dtn) ∈ valuedPairs g l1 :=
    mem_valuedPairs.mpr ⟨hdl1, hdtn⟩
  obtain ⟨⟨iD, hiD⟩, hget⟩ := List.get_of_mem hdmem
  have hsplit2 : valuedPairs g order
      = valuedPairs g l1 ++ (k, tn) :: valuedPairs g l2 := by
    rw [hsplit, valuedPairs_append, valuedPairs_cons_some g hkval]
  have hmidlen : (valuedPairs g l1).length < (valuedPairs g order).length := by
    rw [hsplit2]
    simp only [List.length_append, List.length_cons]
    omega
  have hmidkey : ((valuedPairs g order).get
      ⟨(valuedPairs g l1).length, hmidlen⟩).1 = k := by
    have heq : (valuedPairs g order).get ⟨(valuedPairs g l1).length, hmidlen⟩
        = (k, tn) := by
      rw [List.get_of_eq hsplit2]
      exact get_append_mid _ _ _ _
    rw [heq]
  have hjmid : j = (valuedPairs g l1).length := by
    apply prs_key_inj (valuedPairs_keys_nodup hnd) hj hmidlen
    rw [hpr, hmidkey]
  have hiD2 : iD < (valuedPairs g order).length := by omega
  refine ⟨iD, hiD2, by omega, ?_⟩
  have heq2 : (valuedPairs g order).get ⟨iD, hiD2⟩ = (valuedPairs g l1).get
      ⟨iD, hiD⟩ := by
    rw [List.get_of_eq hsplit2]
    exact get_append_left2 _ _ _ hiD _
  rw [heq2, hget]

theorem get_take_eq {α : Type} :
    ∀ (l : List α) (n i : Nat) (hi : i < (l.take n).length)
      (hi2 : i < l.length), (l.take n).get ⟨i, hi⟩ = l.get ⟨i, hi2⟩ := by
  intro l
  induction l with
  | nil =>
    intro n i hi
    exact absurd hi (by simp)
  | cons a t ih =>
    intro n i hi hi2
    cases n with
    | zero => exact absurd hi (by simp)
    | succ m =>
      cases i with
      | zero => rfl
      | succ p => exact ih m p (by simpa using hi) (by simpa using hi2)

/-- How often the `j`-th node's dependency array references the id
assigned to the `iD`-th valued key: once when the edge is present, never
otherwise. -/
theorem node_dep_count {g : DGraph} {order : List String}
    (hgi : DGraph.GInv g) (hord : Orded g order) (hnd : order.Nodup)
    {j : Nat} (hj : j < (valuedPairs g order).length)
    {iD : Nat} (hiD : iD < (valuedPairs g order).length) {d : String}
    (hdkey : ((valuedPairs g order).get ⟨iD, hiD⟩).1 = d)
    (hdval : ((g.node d).isSome) = true) :
    ((g.successors ((valuedPairs g order).get ⟨j, hj⟩).1).filterMap
      (fun dep => ((idsOf ((valuedPairs g order).take j) 0).find?
        (fun e => e.1 = dep)).map (fun e => e.2))).count (nodeId iD)
    = if (((valuedPairs g order).get ⟨j, hj⟩).1, d) ∈ g.edges
      then 1 else 0 := by
  have htklen : ((valuedPairs g order).take j).length = j := by
    rw [List.length_take]
    omega
  have hforward : ∀ dep,
      (((idsOf ((valuedPairs g order).take j) 0).find?
        (fun e => e.1 = dep)).map
        (fun e => e.2)) = some (nodeId iD) → dep = d ∧ iD < j := by
    intro dep hdep
    rcases Option.map_eq_some'.mp hdep with ⟨e, hfind, he2⟩
    have hmem := List.mem_of_find?_eq_some hfind
    have hpred := List.find?_some hfind
    simp only [decide_eq_true_eq] at hpred
    rcases mem_idsOf _ _ _ hmem with ⟨m, hm, hev⟩
    have he2' : e.2 = nodeId (0 + m) := by rw [hev]
    have heqid : nodeId (0 + m) = nodeId iD := by rw [← he2', he2]
    have hmiD : m = iD := by
      have := nodeId_inj heqid
      omega
    subst hmiD
    have hmj : m < j := by omega
    refine ⟨?_, hmj⟩
    have he1 : e.1 = (((valuedPairs g order).take j).get ⟨m, hm⟩).1 := by
      rw [hev]
    rw [← hpred, he1]
    rw [get_take_eq (valuedPairs g order) j m hm (by omega)]
    exact hdkey
  by_cases hedge : (((valuedPairs g order).get ⟨j, hj⟩).1, d) ∈ g.edges
  · rw [if_pos hedge]
    have hdsucc : d ∈ g.successors ((valuedPairs g order).get ⟨j, hj⟩).1 :=
      DGraph.mem_successors.mpr hedge
    rcases dep_index_lt hord hnd hj hdsucc hdval with ⟨iD2, hiD2, hlt, hkey2⟩
    have hiDeq : iD2 = iD := prs_key_inj (valuedPairs_keys_nodup hnd) hiD2 hiD
      (by rw [hkey2, hdkey])
    subst hiDeq
    rw [count_filterMap]
    have hcongr : ∀ a ∈ g.successors ((valuedPairs g order).get ⟨j, hj⟩).1,
        (decide ((((idsOf ((valuedPairs g order).take j) 0).find?
          (fun e => e.1 = a)).map
          (fun e => e.2)) = some (nodeId iD2))) = (a == d) := by
      intro a _
      by_cases had : a = d
      · subst had
        have htknd : (((valuedPairs g order).take j).map Prod.fst).Nodup :=
          (valuedPairs_keys_nodup hnd).sublist
            ((List.take_sublist _ _).map _)
        have htkm : iD2 < ((valuedPairs g order).take j).length := by omega
        have hgetk : ((((valuedPairs g order).take j)).get ⟨iD2, htkm⟩).1
            = a := by
          rw [get_take_eq (valuedPairs g order) j iD2 htkm (by omega)]
          rw [hkey2]
        rw [find?_idsOf_eq_some _ 0 htknd iD2 htkm hgetk]
        simp
      · have hfa : ∀ v, (((idsOf ((valuedPairs g order).take j) 0).find?
            (fun e => e.1 = a)).map (fun e => e.2)) = some v →
            v ≠ nodeId iD2 := by
          intro v hv heq
          subst heq
          exact had (hforward a hv).1
        cases hfv : (((idsOf ((valuedPairs g order).take j) 0).find?
            (fun e => e.1 = a)).map (fun e => e.2)) with
        | none => simp [had]
        | some v =>
          have := hfa v hfv
          simp [this, had]
    rw [List.countP_congr (fun a ha => by rw [hcongr a ha])]
    have hcnt : List.countP (fun a => a == d)
        (g.successors ((valuedPairs g order).get ⟨j, hj⟩).1)
        = (g.successors ((valuedPairs g order).get ⟨j, hj⟩).1).count d := rfl
    rw [hcnt, succ_count hgi.edgesNodup, if_pos hedge]
  · rw [if_neg hedge]
    rw [count_filterMap]
    rw [List.countP_eq_zero.mpr]
    intro a ha hpa
    simp only [decide_eq_true_eq] at hpa
    have had := (hforward a hpa).1
    subst had
    exact hedge (DGraph.mem_successors.mp ha)

/-- Within the construction output, the nodes whose task is named `d`
are exactly the occurrences of the key `d`. -/
theorem mkNodes_filter_name (g : DGraph) (d : String) :
    ∀ (prs : List (String × TaskNode)) (counter : Nat)
      (idMap : List (String × String)),
      (∀ pr ∈ prs, pr.2.task.name = pr.1) →
      ((mkNodes g prs counter idMap).filter
        (fun nd => nd.tasks.any (fun t => t.name = d))).length
      = (prs.map Prod.fst).count d := by
  intro prs
  induction prs with
  | nil => intro counter idMap _; rfl
  | cons pr rest ih =>
    intro counter idMap hname
    cases pr with
    | mk k tn =>
      have hkn : tn.task.name = k := hname (k, tn) (List.mem_cons_self _ _)
      have hhead : ([tn.task].any (fun t => t.name = d)) = (k == d) := by
        simp only [List.any_cons, List.any_nil, Bool.or_false]
        rw [hkn]
        by_cases hkd : k = d
        · subst hkd; simp
        · simp [hkd]
      have hrest := ih (counter + 1) (idMap ++ [(k, nodeId counter)])
        (fun pr hpr => hname pr (List.mem_cons_of_mem _ hpr))
      rw [mkNodes_cons, List.filter_cons, hhead, List.map_cons,
        List.count_cons]
      by_cases hkd : k = d
      · subst hkd
        simp only [beq_self_eq_true, if_true, List.length_cons]
        rw [hrest]
      · have h1 : (k == d) = false := by simp [hkd]
        have h2 : (d == k) = false := by
          simp only [beq_eq_false_iff_ne, ne_eq]
          exact fun h => hkd h.symm
        simp only [h1, h2, Bool.false_eq_true, if_false]
        rw [hrest]
        simp

/-! ## The claims -/

/-- C9: during `Executor.execute`, whenever an iteration of the
scheduling loop finds no runnable node (no node is running at an
iteration boundary) while uncompleted nodes remain, the run fails with
an error naming the ids of all uncompleted nodes — whatever the
`continueOnError` setting (`copt` is universally quantified and unused
by the failure). -/
theorem C9_executor_stuck (nodes : List ExecutionNode) (copt : Bool)
    (outcome : Task → Bool) (completed log : List String)
    (hlt : completed.length < nodes.length)
    (hempty : (nodes.filter (canRun completed)).isEmpty = true)
    (hrem : (nodes.filter (fun n => !completed.contains n.id)).isEmpty
      = false) :
    executeLoop nodes copt outcome completed log
      = (.error (.stuck ((nodes.filter
          (fun n => !completed.contains n.id)).map (fun n => n.id))),
         log) := by
  rw [executeLoop]
  rw [dif_pos hlt]
  rw [dif_pos hempty]
  rw [if_neg (by rw [hrem]; exact Bool.false_ne_true)]

theorem C9_executor_stuck_witness :
    (([] : List String).length
      < [({ id := "node_1", tasks := [],
            dependencies := ["node_0"],
            sequential := false } : ExecutionNode)].length)
    ∧ (([({ id := "node_1", tasks := [], dependencies := ["node_0"],
            sequential := false } : ExecutionNode)].filter
        (canRun [])).isEmpty = true)
    ∧ (([({ id := "node_1", tasks := [], dependencies := ["node_0"],
            sequential := false } : ExecutionNode)].filter
        (fun n => !([] : List String).contains n.id)).isEmpty = false)
    ∧ executeLoop
        [({ id := "node_1", tasks := [], dependencies := ["node_0"],
            sequential := false } : ExecutionNode)] false
        (fun _ => true) [] []
        = (.error (.stuck ["node_1"]), []) :=
  ⟨by decide, by decide, by decide,
   C9_executor_stuck _ false (fun _ => true) [] []
     (by decide) (by decide) (by decide)⟩

/-- C8: `Parser.parse` throws whenever the command assembled from the
tokens after the first `--` separator begins with `"f "` or
`"frunk "` — a nested orchestrator invocation in the trailing-command
position is rejected. -/
theorem C8_parser_rejects_nested (args : List String)
    (pre post : List String)
    (hsplit : splitFirstSep args = some (pre, post))
    (hnest : jsStartsWith (String.intercalate " " post) "f " = true
      ∨ jsStartsWith (String.intercalate " " post) "frunk " = true) :
    parse args = .error
      "Nested frunk commands are not supported. Cannot use 'f' or 'frunk' after '--'" := by
  unfold parse extractCommand
  rw [hsplit]
  dsimp only
  rcases hnest with h | h
  · rw [h, Bool.true_or]
    rfl
  · rw [h, Bool.or_true]
    rfl

theorem C8_parser_rejects_nested_witness :
    splitFirstSep ["[a]", "--", "f", "x"] = some (["[a]"], ["f", "x"])
    ∧ jsStartsWith (String.intercalate " " ["f", "x"]) "f " = true
    ∧ parse ["[a]", "--", "f", "x"] = .error
        "Nested frunk commands are not supported. Cannot use 'f' or 'frunk' after '--'" :=
  ⟨by decide, by decide,
   C8_parser_rejects_nested ["[a]", "--", "f", "x"] ["[a]"] ["f", "x"]
     (by decide) (Or.inl (by decide))⟩

/-! ## Resolution errors for unmatched literals -/

theorem resolveGo_zero (scriptNames : List String) (patterns acc : List String) :
    resolveGo scriptNames 0 patterns acc = .ok acc := rfl

theorem resolveGo_succ_nil (scriptNames : List String) (fuel : Nat)
    (acc : List String) :
    resolveGo scriptNames (fuel + 1) [] acc = .ok acc := rfl

theorem resolveGo_succ_cons (scriptNames : List String) (fuel : Nat)
    (p : String) (rest acc : List String) :
    resolveGo scriptNames (fuel + 1) (p :: rest) acc =
      (if jsStartsWith p "!" then
        resolveGo scriptNames fuel rest (processExclusion (strDrop p 1) acc)
      else if jsStartsWith p "SEQ:" then
        if jsStartsWith (strDrop p 4) "[" && jsEndsWith (strDrop p 4) "]" then
          match resolveGo scriptNames fuel (parseNestedGroup (strDrop p 4)) [] with
          | .error e => .error e
          | .ok nested =>
            resolveGo scriptNames fuel rest
              (acc ++ nested.eraseDups.map (fun r => "SEQ:" ++ r))
        else
          resolveGo scriptNames fuel rest
            (acc ++ (micromatch scriptNames (strDrop p 4)).map
              (fun m => "SEQ:" ++ m))
      else
        match findMatches p scriptNames with
        | .error e => .error e
        | .ok ms => resolveGo scriptNames fuel rest (acc ++ ms)) := rfl

theorem patternsMeasure_cons (q : String) (rest : List String) :
    patternsMeasure (q :: rest) = q.data.length + 1 + patternsMeasure rest := by
  simp only [patternsMeasure, List.map_cons, List.sum_cons, List.length_cons]
  omega

theorem findMatches_error_shape {p : String} {names : List String}
    {e : String} (h : findMatches p names = .error e) :
    ∃ q, e = "Script not found: " ++ q := by
  unfold findMatches at h
  by_cases h1 : isGlobPattern p = true
  · rw [if_pos h1] at h
    cases h
  · rw [if_neg h1] at h
    by_cases h2 : names.contains p = true
    · rw [if_pos h2] at h
      cases h
    · rw [if_neg h2] at h
      dsimp only at h
      by_cases h3 : (micromatch names p).length > 0
      · rw [if_pos h3] at h
        cases h
      · rw [if_neg h3] at h
        injection h with h
        exact ⟨p, h.symm⟩

theorem isGlobPattern_false_parts {p : String}
    (h : isGlobPattern p = false) :
    containsChar p '*' = false ∧ containsChar p '?' = false
    ∧ containsChar p '[' = false ∧ containsChar p ':' = false := by
  unfold isGlobPattern at h
  simp only [Bool.or_eq_false_iff] at h
  exact ⟨h.1.1.1, h.1.1.2, h.1.2, h.2⟩

theorem seq_prefix_has_colon {p : String}
    (h : jsStartsWith p "SEQ:" = true) : containsChar p ':' = true := by
  unfold jsStartsWith at h
  have hpre := List.isPrefixOf_iff_prefix.mp h
  unfold containsChar
  have : ':' ∈ p.data := hpre.subset (by decide)
  exact List.elem_eq_true_of_mem this

theorem findMatches_literal_error {p : String} {names : List String}
    (h1 : isGlobPattern p = false) (h2 : names.contains p = false) :
    findMatches p names = .error ("Script not found: " ++ p) := by
  have hparts := isGlobPattern_false_parts h1
  have hmm : micromatch names p = [] := by
    unfold micromatch
    rw [List.filter_eq_nil]
    intro nm hnm hglob
    have hstar : '*' ∉ p.data := fun hm =>
      absurd (List.elem_eq_true_of_mem hm)
        (by rw [show p.data.elem '*' = containsChar p '*' from rfl,
              hparts.1]; exact Bool.false_ne_true)
    have hq : '?' ∉ p.data := fun hm =>
      absurd (List.elem_eq_true_of_mem hm)
        (by rw [show p.data.elem '?' = containsChar p '?' from rfl,
              hparts.2.1]; exact Bool.false_ne_true)
    have hdata := (globMatch_no_wildcard hstar hq).mp hglob
    have hpnm : p = nm := by
      cases p with
      | mk pd =>
        cases nm with
        | mk nd => exact congrArg String.mk (by simpa using hdata)
    subst hpnm
    have helem := List.elem_eq_true_of_mem hnm
    rw [show names.elem p = names.contains p from rfl, h2] at helem
    exact Bool.noConfusion helem
  unfold findMatches
  rw [if_neg (by rw [h1]; exact Bool.false_ne_true)]
  rw [if_neg (by rw [h2]; exact Bool.false_ne_true)]
  dsimp only
  rw [hmm]
  rw [if_neg (by simp)]

theorem resolveGo_error_shape (scriptNames : List String) :
    ∀ (fuel : Nat) (patterns acc : List String) (e : String),
      resolveGo scriptNames fuel patterns acc = .error e →
      ∃ q, e = "Script not found: " ++ q := by
  intro fuel
  induction fuel with
  | zero =>
    intro patterns acc e h
    rw [resolveGo_zero] at h
    cases h
  | succ m ih =>
    intro patterns acc e h
    cases patterns with
    | nil =>
      rw [resolveGo_succ_nil] at h
      cases h
    | cons p rest =>
      rw [resolveGo_succ_cons] at h
      by_cases h1 : jsStartsWith p "!" = true
      · rw [if_pos h1] at h
        exact ih _ _ _ h
      · rw [if_neg h1] at h
        by_cases h2 : jsStartsWith p "SEQ:" = true
        · rw [if_pos h2] at h
          by_cases h3 : (jsStartsWith (strDrop p 4) "["
              && jsEndsWith (strDrop p 4) "]") = true
          · rw [if_pos h3] at h
            cases hn : resolveGo scriptNames m
                (parseNestedGroup (strDrop p 4)) [] with
            | error e2 =>
              rw [hn] at h
              injection h with h
              subst h
              exact ih _ _ _ hn
            | ok nested =>
              rw [hn] at h
              exact ih _ _ _ h
          · rw [if_neg h3] at h
            exact ih _ _ _ h
        · rw [if_neg h2] at h
          cases hf : findMatches p scriptNames with
          | error e2 =>
            rw [hf] at h
            injection h with h
            subst h
            exact findMatches_error_shape hf
          | ok ms =>
            rw [hf] at h
            exact ih _ _ _ h

theorem resolveGo_literal_error (scriptNames : List String) :
    ∀ (fuel : Nat) (patterns acc : List String) (p : String),
      p ∈ patterns →
      patternsMeasure patterns < fuel →
      jsStartsWith p "!" = false →
      isGlobPattern p = false →
      scriptNames.contains p = false →
      ∃ e, resolveGo scriptNames fuel patterns acc = .error e := by
  intro fuel
  induction fuel with
  | zero =>
    intro patterns acc p _ hmeas
    omega
  | succ m ih =>
    intro patterns acc p hp hmeas hexc hglob hmem
    cases patterns with
    | nil => exact absurd hp (List.not_mem_nil p)
    | cons q rest =>
      rw [patternsMeasure_cons] at hmeas
      have hrest : patternsMeasure rest < m := by omega
      rw [resolveGo_succ_cons]
      by_cases h1 : jsStartsWith q "!" = true
      · have hpq : p ≠ q := fun heq => by
          rw [heq, h1] at hexc
          exact Bool.noConfusion hexc
        have hpr : p ∈ rest := by
          rcases List.mem_cons.mp hp with heq | hm
          · exact absurd heq hpq
          · exact hm
        rw [if_pos h1]
        exact ih rest _ p hpr hrest hexc hglob hmem
      · rw [if_neg h1]
        by_cases h2 : jsStartsWith q "SEQ:" = true
        · have hpq : p ≠ q := fun heq => by
            have := seq_prefix_has_colon (heq ▸ h2)
            rw [(isGlobPattern_false_parts hglob).2.2.2] at this
            exact Bool.false_ne_true this
          have hpr : p ∈ rest := by
            rcases List.mem_cons.mp hp with heq | hm
            · exact absurd heq hpq
            · exact hm
          rw [if_pos h2]
          by_cases h3 : (jsStartsWith (strDrop q 4) "["
              && jsEndsWith (strDrop q 4) "]") = true
          · rw [if_pos h3]
            cases hn : resolveGo scriptNames m
                (parseNestedGroup (strDrop q 4)) [] with
            | error e2 => exact ⟨e2, rfl⟩
            | ok nested => exact ih rest _ p hpr hrest hexc hglob hmem
          · rw [if_neg h3]
            exact ih rest _ p hpr hrest hexc hglob hmem
        · rw [if_neg h2]
          cases hf : findMatches q scriptNames with
          | error e2 => exact ⟨e2, rfl⟩
          | ok ms =>
            have hpq : p ≠ q := by
              intro heq
              subst heq
              rw [findMatches_literal_error hglob hmem] at hf
              cases hf
            have hpr : p ∈ rest := by
              rcases List.mem_cons.mp hp with heq | hm
              · exact absurd heq hpq
              · exact hm
            exact ih rest _ p hpr hrest hexc hglob hmem

/-- C7 (amended): `PatternMatcher.resolvePatterns` throws a
`Script not found` error whenever the pattern list contains a literal
target name that matches no manifest entry — where "literal" means, as
the code decides it, a pattern with no `!` exclusion prefix and none of
the glob characters `*`, `?`, `[`, `:` (the absence of `:` subsumes the
absence of a `SEQ:` prefix).  The frozen claim's weaker reading of
"literal" — merely "no `!` prefix and no `SEQ:` prefix" — is refuted by
`C7_literal_not_found_counterexample`: a pattern containing `:` is
treated as a glob and yields no error when it matches nothing. -/
theorem C7_literal_not_found (patterns : List String)
    (scripts : List Script) (p : String)
    (hp : p ∈ patterns)
    (hexc : jsStartsWith p "!" = false)
    (hglob : isGlobPattern p = false)
    (hmem : (scripts.map (fun s => s.name)).contains p = false) :
    ∃ q, resolvePatterns patterns scripts
      = .error ("Script not found: " ++ q) := by
  unfold resolvePatterns
  dsimp only
  rcases resolveGo_literal_error (scripts.map (fun s => s.name))
    (patternsMeasure patterns + 1) patterns [] p hp (by omega) hexc hglob
    hmem with ⟨e, he⟩
  rcases resolveGo_error_shape _ _ _ _ _ he with ⟨q, hq⟩
  refine ⟨q, ?_⟩
  rw [he, hq]
  rfl

/-- C7 counterexample: `"a:b"` is a literal target in the claim's sense —
no `!` exclusion prefix, no `SEQ:` prefix — and matches no manifest
entry (there are none), yet `resolvePatterns` succeeds with an empty
result instead of throwing `Script not found`, because `isGlobPattern`
treats any pattern containing `:` as a glob. -/
theorem C7_literal_not_found_counterexample :
    jsStartsWith "a:b" "!" = false
    ∧ jsStartsWith "a:b" "SEQ:" = false
    ∧ (([] : List Script).map (fun s => s.name)).contains "a:b" = false
    ∧ resolvePatterns ["a:b"] [] = .ok [] := by decide

theorem C7_literal_not_found_witness :
    ("zzz" ∈ ["zzz"]
    ∧ jsStartsWith "zzz" "!" = false
    ∧ isGlobPattern "zzz" = false
    ∧ (([] : List Script).map (fun s => s.name)).contains "zzz" = false)
    ∧ ∃ q, resolvePatterns ["zzz"] []
        = .error ("Script not found: " ++ q) :=
  ⟨⟨by decide, by decide, by decide, by decide⟩,
   C7_literal_not_found ["zzz"] [] "zzz" (by decide) (by decide)
     (by decide) (by decide)⟩

theorem fullGraph_nil (scripts : List Script) (cmd : Option String) :
    fullGraph [] scripts cmd = DGraph.empty := by
  unfold fullGraph
  show addCommandNode (addSeqEdges (mkDiscoveryGraph [] scripts)
    (parseSequentialGroups [])) cmd [] = DGraph.empty
  have h1 : mkDiscoveryGraph [] scripts = DGraph.empty := rfl
  have h2 : parseSequentialGroups [] = [] := rfl
  rw [h1, h2]
  have h3 : addSeqEdges DGraph.empty [] = DGraph.empty := rfl
  rw [h3]
  unfold addCommandNode
  cases cmd with
  | none => rfl
  | some c =>
    dsimp only
    rw [if_neg (by
      intro h
      rw [show decide (([] : List String).length > 0) = false from rfl,
        Bool.and_false] at h
      cases h)]

theorem kahn_empty : kahn DGraph.empty = ([], []) := by
  unfold kahn
  rw [kahnGo]
  rfl

theorem isAcyclicG_empty : isAcyclicG DGraph.empty = true := by
  unfold isAcyclicG
  rw [kahn_empty]
  rfl

theorem topsortG_empty_reverse : (topsortG DGraph.empty).reverse = [] := by
  rw [reverse_topsortG, kahn_empty]

theorem buildGraph_nil_none (scripts : List Script) (cfg : Config) :
    buildGraph [] scripts cfg none
      = .ok [{ id := nodeId 0, tasks := [], dependencies := [],
               sequential := false }] := by
  rw [buildGraph_def]
  rw [fullGraph_nil, isAcyclicG_empty]
  rw [if_neg (by decide)]
  rw [topsortG_empty_reverse]
  rw [if_neg (by decide)]
  rw [if_pos (by decide)]
  rfl

theorem buildGraph_nil_cmd (scripts : List Script) (cfg : Config)
    (c : String) (hc : c ≠ "") :
    buildGraph [] scripts cfg (some c)
      = .ok [{ id := nodeId 0,
               tasks := [{ name := "command", command := c,
                           dependencies := [] }],
               dependencies := [], sequential := false }] := by
  rw [buildGraph_def]
  rw [fullGraph_nil, isAcyclicG_empty]
  rw [if_neg (by decide)]
  rw [topsortG_empty_reverse]
  rw [if_pos (by
    show (decide (([] : List String).length = 0) && cmdTruthy (some c))
      = true
    rw [show cmdTruthy (some c) = decide (c ≠ "") from rfl]
    simp [hc])]
  rfl

/-- C3: in the `ExecutionNode` array a successful `buildGraph` returns,
every id in a node's `dependencies` array belongs to a node occurring
strictly earlier in the array — dependencies are created before their
dependents, so there are no forward references. -/
theorem C3_no_forward_references (patterns : List String)
    (scripts : List Script) (cfg : Config) (cmd : Option String)
    (ns : List ExecutionNode)
    (h : buildGraph patterns scripts cfg cmd = .ok ns) :
    ∀ i (hi : i < ns.length), ∀ d ∈ (ns.get ⟨i, hi⟩).dependencies,
      ∃ j, ∃ hj : j < ns.length, j < i ∧ (ns.get ⟨j, hj⟩).id = d := by
  by_cases hpat : patterns = []
  · subst hpat
    -- both empty-pattern special cases return one node without
    -- dependencies
    cases cmd with
    | none =>
      rw [buildGraph_nil_none scripts cfg] at h
      injection h with h
      subst h
      intro i hi d hd
      have hi1 : i < 1 := by simpa using hi
      have hi0 : i = 0 := by omega
      subst hi0
      exact absurd hd (List.not_mem_nil d)
    | some c =>
      by_cases hc : c = ""
      · subst hc
        rw [buildGraph_def, fullGraph_nil, isAcyclicG_empty] at h
        rw [if_neg (by decide)] at h
        rw [topsortG_empty_reverse] at h
        rw [if_neg (by decide)] at h
        rw [if_pos (by decide)] at h
        injection h with h
        subst h
        intro i hi d hd
        have hi1 : i < 1 := by simpa [buildNodesGo_nil] using hi
        have hi0 : i = 0 := by omega
        subst hi0
        exact absurd hd (List.not_mem_nil d)
      · rw [buildGraph_nil_cmd scripts cfg c hc] at h
        injection h with h
        subst h
        intro i hi d hd
        have hi1 : i < 1 := by simpa using hi
        have hi0 : i = 0 := by omega
        subst hi0
        exact absurd hd (List.not_mem_nil d)
  · obtain ⟨hacy, hns⟩ := buildGraph_ok_eq hpat h
    subst hns
    intro i hi d hd
    have hilen : i < (valuedPairs (fullGraph patterns scripts cmd)
        ((topsortG (fullGraph patterns scripts cmd)).reverse)).length := by
      rw [mkNodes_length] at hi
      exact hi
    rw [mkNodes_get _ _ 0 [] i hilen hi, List.nil_append] at hd
    simp only [List.mem_filterMap] at hd
    rcases hd with ⟨dep, _, hdep⟩
    rcases Option.map_eq_some'.mp hdep with ⟨e, hfind, he2⟩
    have hmem := List.mem_of_find?_eq_some hfind
    rcases mem_idsOf _ _ _ hmem with ⟨m, hm, hev⟩
    have hde : d = nodeId m := by
      rw [← he2, hev]
      show nodeId (0 + m) = nodeId m
      rw [Nat.zero_add]
    have hmi : m < i := by
      have := hm
      rw [List.length_take] at this
      omega
    have hmlen : m < (valuedPairs (fullGraph patterns scripts cmd)
        ((topsortG (fullGraph patterns scripts cmd)).reverse)).length := by
      omega
    have hm2 : m < (mkNodes (fullGraph patterns scripts cmd)
        (valuedPairs (fullGraph patterns scripts cmd)
          ((topsortG (fullGraph patterns scripts cmd)).reverse)) 0
        []).length := by
      rw [mkNodes_length]
      exact hmlen
    refine ⟨m, hm2, hmi, ?_⟩
    rw [mkNodes_get _ _ 0 [] m hmlen hm2]
    rw [hde]
    show nodeId (0 + m) = nodeId m
    rw [Nat.zero_add]

/-- The single node the empty-pattern group produces. -/
def emptyGroupNode : ExecutionNode :=
  { id := nodeId 0, tasks := [], dependencies := [], sequential := false }

theorem C3_no_forward_references_witness :
    buildGraph [] [] {} none = .ok [emptyGroupNode]
    ∧ ∀ i (hi : i < [emptyGroupNode].length),
      ∀ d ∈ ([emptyGroupNode].get ⟨i, hi⟩).dependencies,
      ∃ j, ∃ hj : j < [emptyGroupNode].length, j < i
        ∧ ([emptyGroupNode].get ⟨j, hj⟩).id = d :=
  ⟨buildGraph_nil_none [] {},
   C3_no_forward_references [] [] {} none _ (buildGraph_nil_none [] {})⟩

/-- C2: a manifest whose commands form a dependency cycle reachable from
a requested target — `linkRel` steps, including a self-reference
(`c = [x]`) — makes `buildGraph` terminate with the circular-dependency
error naming the cycle members (every member appears in a reported
component), and the whole run returns the builder error with an empty
spawn log: no `ExecutionNode` reaches the Executor and no subprocess is
spawned.  (`lookupScript scripts COMMAND_NODE_NAME = none` rules out a
manifest entry named like the synthesized command node.) -/
theorem C2_cycle_error_before_spawn (patterns : List String)
    (scripts : List Script) (cfg : Config) (cmd : Option String)
    (options : RunOptions) (outcome : Task → Bool)
    (c : List String) (p : String)
    (hno : lookupScript scripts COMMAND_NODE_NAME = none)
    (hp : p ∈ patterns) (hcne : c ≠ [])
    (hcyc : ∀ i (hi : i < c.length) (hj : (i + 1) % c.length < c.length),
      linkRel scripts (c.get ⟨i, hi⟩) (c.get ⟨(i + 1) % c.length, hj⟩))
    (h0 : 0 < c.length)
    (hreach : Relation.ReflTransGen (linkRel scripts) (stripSeqMarker p)
      (c.get ⟨0, h0⟩)) :
    buildGraph patterns scripts cfg cmd
      = .error (.circular (findCyclesG (fullGraph patterns scripts cmd)))
    ∧ (∀ x ∈ c, ∃ comp ∈ findCyclesG (fullGraph patterns scripts cmd),
        x ∈ comp)
    ∧ run patterns scripts cfg cmd options outcome
      = (.error (.build (.circular
          (findCyclesG (fullGraph patterns scripts cmd)))), []) := by
  have hstuck := fullGraph_cycle_stuck patterns scripts cmd c p hno hp hcne
    hcyc h0 hreach
  have hb := buildGraph_error_of patterns scripts cfg cmd _ rfl hstuck.1
  refine ⟨hb, hstuck.2, ?_⟩
  unfold run
  rw [hb]

theorem C2_cycle_error_before_spawn_witness :
    (lookupScript [⟨"x", "f [x]"⟩] COMMAND_NODE_NAME = none
    ∧ "x" ∈ ["x"]
    ∧ (["x"] : List String) ≠ [])
    ∧ (buildGraph ["x"] [⟨"x", "f [x]"⟩] {} none
        = .error (.circular (findCyclesG (fullGraph ["x"] [⟨"x", "f [x]"⟩]
            none)))
      ∧ (∀ x ∈ ["x"], ∃ comp ∈ findCyclesG (fullGraph ["x"]
          [⟨"x", "f [x]"⟩] none), x ∈ comp)
      ∧ run ["x"] [⟨"x", "f [x]"⟩] {} none {} (fun _ => true)
        = (.error (.build (.circular (findCyclesG (fullGraph ["x"]
            [⟨"x", "f [x]"⟩] none)))), [])) :=
  ⟨⟨by decide, by decide, by decide⟩,
   C2_cycle_error_before_spawn ["x"] [⟨"x", "f [x]"⟩] {} none {}
     (fun _ => true) ["x"] "x" (by decide) (by decide) (by decide)
     (fun i hi hj => by
       have hi1 : i < 1 := by simpa using hi
       have hi0 : i = 0 := by omega
       subst hi0
       show linkRel [⟨"x", "f [x]"⟩] "x" "x"
       exact ⟨⟨["x"], none⟩, by decide, by decide⟩)
     (by decide)
     Relation.ReflTransGen.refl⟩

theorem node_addCommandNode_created {g : DGraph} {c : String}
    {names : List String}
    (hc : (decide ¬c = "" && decide (names.length > 0)) = true) :
    (addCommandNode g (some c) names).node COMMAND_NODE_NAME
      = some { task := { name := "command", command := c,
                         dependencies := [] } } := by
  unfold addCommandNode
  dsimp only
  rw [if_pos hc]
  rw [foldl_node_preserved _ ?_ names _ _]
  · exact DGraph.node_setNode_self _ _ _
  · intro g a w
    by_cases ha : g.hasNode a = true
    · rw [if_pos ha, DGraph.node_setEdge]
    · rw [if_neg ha]

/-- Every stored value of the full graph is either the canonical task
node of its key or the synthesized command task (named `"command"`). -/
theorem values_fullGraph_all (patterns : List String) (smap : List Script)
    (cmd : Option String) {k : String} {tn : TaskNode}
    (h : (fullGraph patterns smap cmd).node k = some tn) :
    canonicalTaskNode smap k = some tn ∨ tn.task.name = "command" := by
  by_cases hk : k = COMMAND_NODE_NAME
  · subst hk
    unfold fullGraph at h
    cases cmd with
    | none =>
      left
      have hnone : addCommandNode (addSeqEdges (mkDiscoveryGraph patterns
          smap) (parseSequentialGroups patterns)) none
          (patterns.map stripSeqMarker)
          = addSeqEdges (mkDiscoveryGraph patterns smap)
            (parseSequentialGroups patterns) := rfl
      rw [hnone, node_addSeqEdges] at h
      exact values_mkDiscoveryGraph patterns smap _ _ h
    | some c =>
      by_cases hcond : (decide ¬c = ""
          && decide ((patterns.map stripSeqMarker).length > 0)) = true
      · rw [node_addCommandNode_created hcond] at h
        injection h with h
        right
        rw [← h]
      · left
        have hid : (addCommandNode (addSeqEdges (mkDiscoveryGraph patterns
            smap) (parseSequentialGroups patterns)) (some c)
            (patterns.map stripSeqMarker)).node COMMAND_NODE_NAME
            = (addSeqEdges (mkDiscoveryGraph patterns smap)
              (parseSequentialGroups patterns)).node COMMAND_NODE_NAME := by
          unfold addCommandNode
          dsimp only
          rw [if_neg hcond]
        rw [hid, node_addSeqEdges] at h
        exact values_mkDiscoveryGraph patterns smap _ _ h
  · left
    exact values_fullGraph patterns smap cmd hk h

/-- C10: a manifest entry recognized as an orchestration invocation that
parses with a dependency pattern list but no (or an empty, hence falsy)
trailing command stores the literal placeholder `echo "No command"` as
its task's shell command — in the graph value and in every task named
after the entry in a successful `buildGraph` output (`n ≠ "command"`
keeps the entry distinct from a synthesized trailing-command task). -/
theorem C10_placeholder_command (scripts : List Script) (n : String)
    (fc : FrunkCmd)
    (hparsed : parsedFrunkOf scripts n = some fc)
    (hfin : fc.finalCommand = none ∨ fc.finalCommand = some "")
    (hn : n ≠ "command") :
    canonicalTaskNode scripts n
      = some { task := { name := n, command := "echo \"No command\"",
                         dependencies := [] } }
    ∧ ∀ (patterns : List String) (cfg : Config) (cmd : Option String)
        (ns : List ExecutionNode),
        buildGraph patterns scripts cfg cmd = .ok ns →
        ∀ i (hi : i < ns.length), ∀ t ∈ (ns.get ⟨i, hi⟩).tasks,
          t.name = n → t.command = "echo \"No command\"" := by
  have hcanon : canonicalTaskNode scripts n
      = some { task := { name := n, command := "echo \"No command\"",
                         dependencies := [] } } := by
    unfold parsedFrunkOf at hparsed
    cases hl : lookupScript scripts n with
    | none =>
      rw [hl] at hparsed
      cases hparsed
    | some script =>
      rw [hl] at hparsed
      dsimp only at hparsed
      by_cases hfr : isFrunkCommand script.command = true
      · rw [if_pos hfr] at hparsed
        unfold canonicalTaskNode
        rw [hl]
        dsimp only
        rw [if_pos hfr, hparsed]
        dsimp only
        unfold frunkTaskNode jsStrOr
        rcases hfin with hf | hf
        · rw [hf]
        · rw [hf]
          rfl
      · rw [if_neg hfr] at hparsed
        cases hparsed
  refine ⟨hcanon, ?_⟩
  intro patterns cfg cmd ns h i hi t ht htn
  by_cases hpat : patterns = []
  · subst hpat
    exfalso
    cases cmd with
    | none =>
      rw [buildGraph_nil_none scripts cfg] at h
      injection h with h
      subst h
      have hi1 : i < 1 := by simpa using hi
      have hi0 : i = 0 := by omega
      subst hi0
      exact absurd ht (List.not_mem_nil t)
    | some c =>
      by_cases hc : c = ""
      · subst hc
        rw [buildGraph_def, fullGraph_nil, isAcyclicG_empty] at h
        rw [if_neg (by decide)] at h
        rw [topsortG_empty_reverse] at h
        rw [if_neg (by decide)] at h
        rw [if_pos (by decide)] at h
        injection h with h
        subst h
        have hi1 : i < 1 := by simpa [buildNodesGo_nil] using hi
        have hi0 : i = 0 := by omega
        subst hi0
        exact absurd ht (List.not_mem_nil t)
      · rw [buildGraph_nil_cmd scripts cfg c hc] at h
        injection h with h
        subst h
        have hi1 : i < 1 := by simpa using hi
        have hi0 : i = 0 := by omega
        subst hi0
        rcases List.mem_cons.mp ht with rfl | hnil
        · exact hn (Eq.symm (by simpa using htn))
        · exact absurd hnil (List.not_mem_nil t)
  · obtain ⟨hacy, hns⟩ := buildGraph_ok_eq hpat h
    subst hns
    have hilen : i < (valuedPairs (fullGraph patterns scripts cmd)
        ((topsortG (fullGraph patterns scripts cmd)).reverse)).length := by
      rw [mkNodes_length] at hi
      exact hi
    rw [mkNodes_get _ _ 0 [] i hilen hi] at ht
    simp only at ht
    rcases List.mem_cons.mp ht with rfl | hnil
    · have hmem : (valuedPairs (fullGraph patterns scripts cmd)
          ((topsortG (fullGraph patterns scripts cmd)).reverse)).get
          ⟨i, hilen⟩ ∈ valuedPairs (fullGraph patterns scripts cmd)
          ((topsortG (fullGraph patterns scripts cmd)).reverse) :=
        List.get_mem _ _ _
      obtain ⟨_, hval⟩ := mem_valuedPairs.mp hmem
      rcases values_fullGraph_all patterns scripts cmd hval with hcan | hcmd
      · have hname := canonicalTaskNode_name hcan
        rw [htn] at hname
        rw [← hname] at hcan
        rw [hcanon] at hcan
        injection hcan with hcan
        rw [← hcan]
      · exact absurd (htn.symm.trans hcmd) hn
    · exact absurd hnil (List.not_mem_nil t)

theorem C10_placeholder_command_witness :
    (parsedFrunkOf [⟨"x", "f [y]"⟩] "x" = some ⟨["y"], none⟩
    ∧ (⟨["y"], none⟩ : FrunkCmd).finalCommand = none
    ∧ "x" ≠ "command")
    ∧ canonicalTaskNode [⟨"x", "f [y]"⟩] "x"
      = some { task := { name := "x", command := "echo \"No command\"",
                         dependencies := [] } }
    ∧ ∀ (patterns : List String) (cfg : Config) (cmd : Option String)
        (ns : List ExecutionNode),
        buildGraph patterns [⟨"x", "f [y]"⟩] cfg cmd = .ok ns →
        ∀ i (hi : i < ns.length), ∀ t ∈ (ns.get ⟨i, hi⟩).tasks,
          t.name = "x" → t.command = "echo \"No command\"" :=
  ⟨⟨by decide, by decide, by decide⟩,
   (C10_placeholder_command [⟨"x", "f [y]"⟩] "x" ⟨["y"], none⟩
     (by decide) (Or.inl rfl) (by decide)).1,
   (C10_placeholder_command [⟨"x", "f [y]"⟩] "x" ⟨["y"], none⟩
     (by decide) (Or.inl rfl) (by decide)).2⟩

theorem values_fullGraph_none (patterns : List String)
    (smap : List Script) {k : String} {tn : TaskNode}
    (h : (fullGraph patterns smap none).node k = some tn) :
    canonicalTaskNode smap k = some tn := by
  unfold fullGraph at h
  have hnone : addCommandNode (addSeqEdges (mkDiscoveryGraph patterns smap)
      (parseSequentialGroups patterns)) none (patterns.map stripSeqMarker)
      = addSeqEdges (mkDiscoveryGraph patterns smap)
        (parseSequentialGroups patterns) := rfl
  rw [hnone, node_addSeqEdges] at h
  exact values_mkDiscoveryGraph patterns smap _ _ h

theorem sum_ite_count {α : Type} (l : List α) (p : α → Prop)
    [DecidablePred p] :
    (l.map (fun a => if p a then 1 else 0)).sum
      = l.countP (fun a => decide (p a)) := by
  induction l with
  | nil => rfl
  | cons a t ih =>
    rw [List.map_cons, List.sum_cons, List.countP_cons, ih]
    by_cases hpa : p a
    · simp [hpa]
      omega
    · simp [hpa]

/-- C1: with a fixed manifest and no trailing command, a dependency name
`d` that received a stored node during graph construction yields exactly
one `ExecutionNode` whose task is named `d`; the total number of
references to that node's id across all `dependencies` arrays equals the
number of valued dependents holding a graph edge into `d`; and every such
dependent's node lists the id — N distinct dependents give one node and
N references (the deduplication invariant). -/
theorem C1_dedup_invariant (patterns : List String) (scripts : List Script)
    (cfg : Config) (ns : List ExecutionNode) (d : String) (tn : TaskNode)
    (hpat : patterns ≠ [])
    (h : buildGraph patterns scripts cfg none = .ok ns)
    (hd : (fullGraph patterns scripts none).node d = some tn) :
    ((ns.filter (fun nd => nd.tasks.any (fun t => t.name = d))).length = 1)
    ∧ (∀ i (hi : i < ns.length),
        ((ns.get ⟨i, hi⟩).tasks.any (fun t => t.name = d)) = true →
        ((ns.map (fun nd => nd.dependencies.count
            ((ns.get ⟨i, hi⟩).id))).sum
          = ((fullGraph patterns scripts none).nodeKeys.filter
              (fun u => ((fullGraph patterns scripts none).node u).isSome
                && decide ((u, d) ∈ (fullGraph patterns
                  scripts none).edges))).length)
        ∧ (∀ u tnu, (fullGraph patterns scripts none).node u = some tnu →
            (u, d) ∈ (fullGraph patterns scripts none).edges →
            ∃ j, ∃ hj : j < ns.length,
              ((ns.get ⟨j, hj⟩).tasks.any (fun t => t.name = u)) = true
              ∧ (ns.get ⟨i, hi⟩).id ∈ (ns.get ⟨j, hj⟩).dependencies)) := by
  obtain ⟨hacy, hns⟩ := buildGraph_ok_eq hpat h
  have hgi := GInv_fullGraph patterns scripts none
  have hos := order_spec hgi hacy
  have hvalname : ∀ pr ∈ valuedPairs (fullGraph patterns scripts none)
      ((topsortG (fullGraph patterns scripts none)).reverse),
      pr.2.task.name = pr.1 := by
    intro pr hpr
    obtain ⟨_, hval⟩ := mem_valuedPairs.mp hpr
    exact canonicalTaskNode_name (values_fullGraph_none patterns scripts hval)
  have hdval : (((fullGraph patterns scripts none).node d).isSome) = true := by
    rw [hd]
    rfl
  have hdkeys : d ∈ (fullGraph patterns scripts none).nodeKeys :=
    mem_nodeKeys_of_isSome hdval
  have hdord : d ∈ (topsortG (fullGraph patterns scripts none)).reverse :=
    (hos.1.mem_iff).mpr hdkeys
  have hdprs : (d, tn) ∈ valuedPairs (fullGraph patterns scripts none)
      ((topsortG (fullGraph patterns scripts none)).reverse) :=
    mem_valuedPairs.mpr ⟨hdord, hd⟩
  have hdkeysmem : d ∈ (valuedPairs (fullGraph patterns scripts none)
      ((topsortG (fullGraph patterns scripts none)).reverse)).map
      Prod.fst := List.mem_map_of_mem _ hdprs
  constructor
  · rw [hns]
    rw [mkNodes_filter_name _ _ _ _ _ hvalname]
    exact count_eq_one_of_nodup_mem (valuedPairs_keys_nodup hos.2.1)
      hdkeysmem
  · intro i hi hname
    have hilen : i < (valuedPairs (fullGraph patterns scripts none)
        ((topsortG (fullGraph patterns scripts none)).reverse)).length := by
      rw [hns, mkNodes_length] at hi
      exact hi
    have hgeti := mkNodes_get (fullGraph patterns scripts none) _ 0 [] i
      hilen (by rw [← hns]; exact hi)
    have hkeyi : ((valuedPairs (fullGraph patterns scripts none)
        ((topsortG (fullGraph patterns scripts none)).reverse)).get
        ⟨i, hilen⟩).1 = d := by
      have hni : (ns.get ⟨i, hi⟩).tasks
          = [((valuedPairs (fullGraph patterns scripts none)
            ((topsortG (fullGraph patterns scripts none)).reverse)).get
            ⟨i, hilen⟩).2.task] := by
        have hcast : ns.get ⟨i, hi⟩
            = (mkNodes (fullGraph patterns scripts none)
              (valuedPairs (fullGraph patterns scripts none)
                ((topsortG (fullGraph patterns scripts none)).reverse)) 0
              []).get ⟨i, by rw [← hns]; exact hi⟩ :=
          List.get_of_eq hns ⟨i, hi⟩
        rw [hcast, hgeti]
      rw [hni] at hname
      simp only [List.any_cons, List.any_nil, Bool.or_false,
        decide_eq_true_eq] at hname
      rw [← hname]
      exact (hvalname _ (List.get_mem _ _ _)).symm
    have hidi : (ns.get ⟨i, hi⟩).id = nodeId i := by
      have hcast : ns.get ⟨i, hi⟩
          = (mkNodes (fullGraph patterns scripts none)
            (valuedPairs (fullGraph patterns scripts none)
              ((topsortG (fullGraph patterns scripts none)).reverse)) 0
            []).get ⟨i, by rw [← hns]; exact hi⟩ :=
        List.get_of_eq hns ⟨i, hi⟩
      rw [hcast, hgeti]
      show nodeId (0 + i) = nodeId i
      rw [Nat.zero_add]
    constructor
    · -- the reference count across all dependencies arrays
      have hmapeq : ns.map (fun nd => nd.dependencies.count
          ((ns.get ⟨i, hi⟩).id))
          = (valuedPairs (fullGraph patterns scripts none)
            ((topsortG (fullGraph patterns scripts none)).reverse)).map
            (fun pr => if (pr.1, d) ∈ (fullGraph patterns scripts
              none).edges then 1 else 0) := by
        apply List.ext_get
        · rw [List.length_map, List.length_map, hns, mkNodes_length]
        · intro j hj1 hj2
          rw [List.get_map, List.get_map]
          have hjlen : j < (valuedPairs (fullGraph patterns scripts none)
              ((topsortG (fullGraph patterns scripts none)).reverse)).length
            := by simpa using hj2
          have hjns : j < ns.length := by simpa using hj1
          have hgetj := mkNodes_get (fullGraph patterns scripts none) _ 0 []
            j hjlen (by rw [← hns]; exact hjns)
          have heq : (ns.get ⟨j, hjns⟩)
              = (mkNodes (fullGraph patterns scripts none)
                (valuedPairs (fullGraph patterns scripts none)
                  ((topsortG (fullGraph patterns scripts none)).reverse)) 0
                []).get ⟨j, by rw [← hns]; exact hjns⟩ :=
            List.get_of_eq hns ⟨j, hjns⟩
          show (ns.get ⟨j, hjns⟩).dependencies.count ((ns.get ⟨i, hi⟩).id)
            = if (((valuedPairs (fullGraph patterns scripts none)
                ((topsortG (fullGraph patterns scripts none)).reverse)).get
                ⟨j, hjlen⟩).1, d) ∈ (fullGraph patterns scripts none).edges
              then 1 else 0
          rw [heq, hgetj, hidi]
          simp only [List.nil_append]
          exact node_dep_count hgi hos.2.2 hos.2.1 hjlen hilen hkeyi hdval
      rw [hmapeq, sum_ite_count]
      have h1 : List.countP
          (fun pr => decide ((pr.1, d) ∈ (fullGraph patterns scripts
            none).edges))
          (valuedPairs (fullGraph patterns scripts none)
            ((topsortG (fullGraph patterns scripts none)).reverse))
          = List.countP (fun u => decide ((u, d) ∈ (fullGraph patterns
            scripts none).edges))
            ((valuedPairs (fullGraph patterns scripts none)
              ((topsortG (fullGraph patterns scripts none)).reverse)).map
              Prod.fst) := by
        rw [List.countP_map]
        rfl
      rw [h1, valuedPairs_keys]
      rw [List.countP_filter]
      rw [← List.countP_eq_length_filter]
      rw [hos.1.countP_eq]
      apply List.countP_congr
      intro u _
      constructor
      · intro hu
        simp only [Bool.and_eq_true] at hu ⊢
        exact ⟨hu.2, hu.1⟩
      · intro hu
        simp only [Bool.and_eq_true] at hu ⊢
        exact ⟨hu.2, hu.1⟩
    · -- every valued dependent references the node
      intro u tnu huval hedge
      have huvals : (((fullGraph patterns scripts none).node u).isSome)
          = true := by rw [huval]; rfl
      have hukeys : u ∈ (fullGraph patterns scripts none).nodeKeys :=
        mem_nodeKeys_of_isSome huvals
      have huord : u ∈ (topsortG (fullGraph patterns scripts none)).reverse
        := (hos.1.mem_iff).mpr hukeys
      have huprs : (u, tnu) ∈ valuedPairs (fullGraph patterns scripts none)
          ((topsortG (fullGraph patterns scripts none)).reverse) :=
        mem_valuedPairs.mpr ⟨huord, huval⟩
      obtain ⟨⟨j, hjlen⟩, hgetu⟩ := List.get_of_mem huprs
      have hjns : j < ns.length := by
        rw [hns, mkNodes_length]
        exact hjlen
      have hgetj := mkNodes_get (fullGraph patterns scripts none) _ 0 [] j
        hjlen (by rw [← hns]; exact hjns)
      have heqj : (ns.get ⟨j, hjns⟩)
          = (mkNodes (fullGraph patterns scripts none)
            (valuedPairs (fullGraph patterns scripts none)
              ((topsortG (fullGraph patterns scripts none)).reverse)) 0
            []).get ⟨j, by rw [← hns]; exact hjns⟩ :=
        List.get_of_eq hns ⟨j, hjns⟩
      refine ⟨j, hjns, ?_, ?_⟩
      · rw [heqj, hgetj]
        simp only [List.any_cons, List.any_nil, Bool.or_false,
          decide_eq_true_eq]
        rw [hgetu]
        exact hvalname _ huprs
      · rw [heqj, hgetj, hidi]
        simp only [List.nil_append]
        have hcount := node_dep_count hgi hos.2.2 hos.2.1 hjlen hilen hkeyi
          hdval
        rw [hgetu] at hcount
        simp only at hcount
        rw [if_pos hedge] at hcount
        have hpos : 0 < (((fullGraph patterns scripts none).successors
            (((valuedPairs (fullGraph patterns scripts none)
              ((topsortG (fullGraph patterns scripts none)).reverse)).get
              ⟨j, hjlen⟩).1)).filterMap
            (fun dep => ((idsOf ((valuedPairs (fullGraph patterns scripts
              none) ((topsortG (fullGraph patterns scripts
              none)).reverse)).take j) 0).find?
              (fun e => e.1 = dep)).map (fun e => e.2))).count
            (nodeId i) := by
          rw [show (((valuedPairs (fullGraph patterns scripts none)
            ((topsortG (fullGraph patterns scripts none)).reverse)).get
            ⟨j, hjlen⟩).1) = u from by rw [hgetu]]
          rw [hcount]
          omega
        exact List.count_pos_iff_mem.mp hpos

/-- A two-entry manifest: `x` orchestrates `[y]`, `y` is a plain command. -/
def scriptsW : List Script := [⟨"x", "f [y]"⟩, ⟨"y", "tsc"⟩]

/-- The discovery graph the manifest `scriptsW` yields for target `x`. -/
def graphW : DGraph :=
  ⟨[("x", some ⟨⟨"x", "echo \"No command\"", []⟩, none⟩),
    ("y", some ⟨⟨"y", "tsc", []⟩, none⟩)], [("x", "y")]⟩

/-- The execution nodes `buildGraph` emits for `scriptsW`. -/
def nodesW : List ExecutionNode :=
  [{ id := nodeId 0, tasks := [⟨"y", "tsc", []⟩], dependencies := [],
     sequential := false },
   { id := nodeId 1, tasks := [⟨"x", "echo \"No command\"", []⟩],
     dependencies := [nodeId 0], sequential := false }]

theorem fullGraph_W : fullGraph ["x"] scriptsW none = graphW := by
  show discoverLoop scriptsW [Job.proc "x"] [] DGraph.empty = graphW
  rw [@discoverLoop_proc_frunk scriptsW "x" [] [] DGraph.empty
    ⟨"x", "f [y]"⟩ ⟨["y"], none⟩ (by decide) (by decide) (by decide)
    (by decide)]
  show discoverLoop scriptsW [Job.edge "x" "y", Job.proc "y"] ["x"]
    ⟨[("x", some ⟨⟨"x", "echo \"No command\"", []⟩, none⟩)], []⟩ = graphW
  rw [discoverLoop_edge]
  show discoverLoop scriptsW [Job.proc "y"] ["x"]
    ⟨[("x", some ⟨⟨"x", "echo \"No command\"", []⟩, none⟩), ("y", none)],
     [("x", "y")]⟩ = graphW
  rw [@discoverLoop_proc_plain scriptsW "y" [] ["x"]
    ⟨[("x", some ⟨⟨"x", "echo \"No command\"", []⟩, none⟩), ("y", none)],
     [("x", "y")]⟩ ⟨"y", "tsc"⟩ (by decide) (by decide) (by decide)]
  rw [discoverLoop_nil]
  decide

theorem kahn_W : kahn graphW = (["y", "x"], []) := by
  unfold kahn
  show kahnGo graphW ["x", "y"] [] = (["y", "x"], [])
  rw [kahnGo]
  show kahnGo graphW ["x"] ["y"] = (["y", "x"], [])
  rw [kahnGo]
  show kahnGo graphW [] ["y", "x"] = (["y", "x"], [])
  rw [kahnGo]
  rfl

theorem isAcyclicG_W : isAcyclicG graphW = true := by
  unfold isAcyclicG
  rw [kahn_W]
  rfl

theorem topsort_W : (topsortG graphW).reverse = ["y", "x"] := by
  rw [reverse_topsortG, kahn_W]

theorem buildGraph_W : buildGraph ["x"] scriptsW {} none = .ok nodesW := by
  rw [buildGraph_eq_of ["x"] scriptsW {} none graphW ["y", "x"] fullGraph_W
    isAcyclicG_W topsort_W (by decide)]
  rfl

theorem node_W : (fullGraph ["x"] scriptsW none).node "y"
    = some ⟨⟨"y", "tsc", []⟩, none⟩ := by
  rw [fullGraph_W]
  decide

theorem C1_dedup_invariant_witness :
    ((["x"] : List String) ≠ []
    ∧ buildGraph ["x"] scriptsW {} none = .ok nodesW
    ∧ (fullGraph ["x"] scriptsW none).node "y"
        = some ⟨⟨"y", "tsc", []⟩, none⟩)
    ∧ (((nodesW.filter (fun nd => nd.tasks.any
          (fun t => t.name = "y"))).length = 1)
      ∧ (∀ i (hi : i < nodesW.length),
          ((nodesW.get ⟨i, hi⟩).tasks.any (fun t => t.name = "y")) = true →
          ((nodesW.map (fun nd => nd.dependencies.count
              ((nodesW.get ⟨i, hi⟩).id))).sum
            = ((fullGraph ["x"] scriptsW none).nodeKeys.filter
                (fun u => ((fullGraph ["x"] scriptsW none).node u).isSome
                  && decide ((u, "y") ∈ (fullGraph ["x"]
                    scriptsW none).edges))).length)
          ∧ (∀ u tnu, (fullGraph ["x"] scriptsW none).node u = some tnu →
              (u, "y") ∈ (fullGraph ["x"] scriptsW none).edges →
              ∃ j, ∃ hj : j < nodesW.length,
                ((nodesW.get ⟨j, hj⟩).tasks.any
                  (fun t => t.name = u)) = true
                ∧ (nodesW.get ⟨i, hi⟩).id
                    ∈ (nodesW.get ⟨j, hj⟩).dependencies))) :=
  ⟨⟨by decide, buildGraph_W, node_W⟩,
   C1_dedup_invariant ["x"] scriptsW {} nodesW "y" ⟨⟨"y", "tsc", []⟩, none⟩
     (by decide) buildGraph_W node_W⟩

/-- The pattern list the parser produces for `[a,b]->[c,d]`. -/
def seqPats : List String := ["SEQ0:a", "SEQ0:b", "SEQ1:c", "SEQ1:d"]

set_option maxHeartbeats 1000000 in
/-- C4: for the tagged targets `SEQ0:a, SEQ0:b, SEQ1:c, SEQ1:d` over a
manifest whose four entries are plain shell commands, `buildGraph` emits
nodes for `a` and `b` with zero dependencies and nodes for `c` and `d`
each with exactly the two dependencies `node_0, node_1` — the ids of the
`a` and `b` nodes; the internal graph holds exactly the four cross-group
edges (here discovery contributes none, the entries being plain). -/
theorem C4_sequential_groups (ca cb cc cd : String) (cfg : Config)
    (hfa : isFrunkCommand ca = false) (hfb : isFrunkCommand cb = false)
    (hfc : isFrunkCommand cc = false) (hfd : isFrunkCommand cd = false) :
    buildGraph seqPats [⟨"a", ca⟩, ⟨"b", cb⟩, ⟨"c", cc⟩, ⟨"d", cd⟩] cfg none
      = .ok
        [{ id := nodeId 0, tasks := [⟨"a", ca, []⟩], dependencies := [],
           sequential := false },
         { id := nodeId 1, tasks := [⟨"b", cb, []⟩], dependencies := [],
           sequential := false },
         { id := nodeId 2, tasks := [⟨"c", cc, []⟩],
           dependencies := [nodeId 0, nodeId 1], sequential := false },
         { id := nodeId 3, tasks := [⟨"d", cd, []⟩],
           dependencies := [nodeId 0, nodeId 1], sequential := false }]
    ∧ (fullGraph seqPats [⟨"a", ca⟩, ⟨"b", cb⟩, ⟨"c", cc⟩, ⟨"d", cd⟩]
        none).edges
      = [("c", "a"), ("c", "b"), ("d", "a"), ("d", "b")] := by
  have hd4 : mkDiscoveryGraph seqPats [⟨"a", ca⟩, ⟨"b", cb⟩, ⟨"c", cc⟩,
      ⟨"d", cd⟩]
      = ⟨[("a", some ⟨⟨"a", ca, []⟩, none⟩),
          ("b", some ⟨⟨"b", cb, []⟩, none⟩),
          ("c", some ⟨⟨"c", cc, []⟩, none⟩),
          ("d", some ⟨⟨"d", cd, []⟩, none⟩)], []⟩ := by
    show discoverLoop [⟨"a", ca⟩, ⟨"b", cb⟩, ⟨"c", cc⟩, ⟨"d", cd⟩]
        [Job.proc "d"] []
        (discoverLoop [⟨"a", ca⟩, ⟨"b", cb⟩, ⟨"c", cc⟩, ⟨"d", cd⟩]
          [Job.proc "c"] []
          (discoverLoop [⟨"a", ca⟩, ⟨"b", cb⟩, ⟨"c", cc⟩, ⟨"d", cd⟩]
            [Job.proc "b"] []
            (discoverLoop [⟨"a", ca⟩, ⟨"b", cb⟩, ⟨"c", cc⟩, ⟨"d", cd⟩]
              [Job.proc "a"] [] DGraph.empty)))
      = ⟨[("a", some ⟨⟨"a", ca, []⟩, none⟩),
          ("b", some ⟨⟨"b", cb, []⟩, none⟩),
          ("c", some ⟨⟨"c", cc, []⟩, none⟩),
          ("d", some ⟨⟨"d", cd, []⟩, none⟩)], []⟩
    rw [@discoverLoop_proc_plain [⟨"a", ca⟩, ⟨"b", cb⟩, ⟨"c", cc⟩,
      ⟨"d", cd⟩] "a" [] [] DGraph.empty ⟨"a", ca⟩ (by decide) rfl hfa,
      discoverLoop_nil]
    show discoverLoop [⟨"a", ca⟩, ⟨"b", cb⟩, ⟨"c", cc⟩, ⟨"d", cd⟩]
        [Job.proc "d"] []
        (discoverLoop [⟨"a", ca⟩, ⟨"b", cb⟩, ⟨"c", cc⟩, ⟨"d", cd⟩]
          [Job.proc "c"] []
          (discoverLoop [⟨"a", ca⟩, ⟨"b", cb⟩, ⟨"c", cc⟩, ⟨"d", cd⟩]
            [Job.proc "b"] []
            ⟨[("a", some ⟨⟨"a", ca, []⟩, none⟩)], []⟩))
      = ⟨[("a", some ⟨⟨"a", ca, []⟩, none⟩),
          ("b", some ⟨⟨"b", cb, []⟩, none⟩),
          ("c", some ⟨⟨"c", cc, []⟩, none⟩),
          ("d", some ⟨⟨"d", cd, []⟩, none⟩)], []⟩
    rw [@discoverLoop_proc_plain [⟨"a", ca⟩, ⟨"b", cb⟩, ⟨"c", cc⟩,
      ⟨"d", cd⟩] "b" [] [] ⟨[("a", some ⟨⟨"a", ca, []⟩, none⟩)], []⟩
      ⟨"b", cb⟩ (by decide) rfl hfb, discoverLoop_nil]
    show discoverLoop [⟨"a", ca⟩, ⟨"b", cb⟩, ⟨"c", cc⟩, ⟨"d", cd⟩]
        [Job.proc "d"] []
        (discoverLoop [⟨"a", ca⟩, ⟨"b", cb⟩, ⟨"c", cc⟩, ⟨"d", cd⟩]
          [Job.proc "c"] []
          ⟨[("a", some ⟨⟨"a", ca, []⟩, none⟩),
            ("b", some ⟨⟨"b", cb, []⟩, none⟩)], []⟩)
      = ⟨[("a", some ⟨⟨"a", ca, []⟩, none⟩),
          ("b", some ⟨⟨"b", cb, []⟩, none⟩),
          ("c", some ⟨⟨"c", cc, []⟩, none⟩),
          ("d", some ⟨⟨"d", cd, []⟩, none⟩)], []⟩
    rw [@discoverLoop_proc_plain [⟨"a", ca⟩, ⟨"b", cb⟩, ⟨"c", cc⟩,
      ⟨"d", cd⟩] "c" [] [] ⟨[("a", some ⟨⟨"a", ca, []⟩, none⟩),
        ("b", some ⟨⟨"b", cb, []⟩, none⟩)], []⟩
      ⟨"c", cc⟩ (by decide) rfl hfc, discoverLoop_nil]
    show discoverLoop [⟨"a", ca⟩, ⟨"b", cb⟩, ⟨"c", cc⟩, ⟨"d", cd⟩]
        [Job.proc "d"] []
        ⟨[("a", some ⟨⟨"a", ca, []⟩, none⟩),
          ("b", some ⟨⟨"b", cb, []⟩, none⟩),
          ("c", some ⟨⟨"c", cc, []⟩, none⟩)], []⟩
      = ⟨[("a", some ⟨⟨"a", ca, []⟩, none⟩),
          ("b", some ⟨⟨"b", cb, []⟩, none⟩),
          ("c", some ⟨⟨"c", cc, []⟩, none⟩),
          ("d", some ⟨⟨"d", cd, []⟩, none⟩)], []⟩
    rw [@discoverLoop_proc_plain [⟨"a", ca⟩, ⟨"b", cb⟩, ⟨"c", cc⟩,
      ⟨"d", cd⟩] "d" [] [] ⟨[("a", some ⟨⟨"a", ca, []⟩, none⟩),
        ("b", some ⟨⟨"b", cb, []⟩, none⟩),
        ("c", some ⟨⟨"c", cc, []⟩, none⟩)], []⟩
      ⟨"d", cd⟩ (by decide) rfl hfd, discoverLoop_nil]
    rfl
  have hfull : fullGraph seqPats [⟨"a", ca⟩, ⟨"b", cb⟩, ⟨"c", cc⟩,
      ⟨"d", cd⟩] none
      = ⟨[("a", some ⟨⟨"a", ca, []⟩, none⟩),
          ("b", some ⟨⟨"b", cb, []⟩, none⟩),
          ("c", some ⟨⟨"c", cc, []⟩, none⟩),
          ("d", some ⟨⟨"d", cd, []⟩, none⟩)],
         [("c", "a"), ("c", "b"), ("d", "a"), ("d", "b")]⟩ := by
    unfold fullGraph
    rw [hd4]
    rw [show parseSequentialGroups seqPats = [["a", "b"], ["c", "d"]] from
      by decide]
    have c1 : (if DGraph.hasNode (⟨[("a", some ⟨⟨"a", ca, []⟩, none⟩),
        ("b", some ⟨⟨"b", cb, []⟩, none⟩),
        ("c", some ⟨⟨"c", cc, []⟩, none⟩),
        ("d", some ⟨⟨"d", cd, []⟩, none⟩)],
       ([] : List (String × String))⟩ : DGraph) "c"
        && DGraph.hasNode (⟨[("a", some ⟨⟨"a", ca, []⟩, none⟩),
        ("b", some ⟨⟨"b", cb, []⟩, none⟩),
        ("c", some ⟨⟨"c", cc, []⟩, none⟩),
        ("d", some ⟨⟨"d", cd, []⟩, none⟩)],
       ([] : List (String × String))⟩ : DGraph) "a" then
        DGraph.setEdge (⟨[("a", some ⟨⟨"a", ca, []⟩, none⟩),
        ("b", some ⟨⟨"b", cb, []⟩, none⟩),
        ("c", some ⟨⟨"c", cc, []⟩, none⟩),
        ("d", some ⟨⟨"d", cd, []⟩, none⟩)],
       ([] : List (String × String))⟩ : DGraph) "c" "a"
      else (⟨[("a", some ⟨⟨"a", ca, []⟩, none⟩),
        ("b", some ⟨⟨"b", cb, []⟩, none⟩),
        ("c", some ⟨⟨"c", cc, []⟩, none⟩),
        ("d", some ⟨⟨"d", cd, []⟩, none⟩)],
       ([] : List (String × String))⟩ : DGraph)) = (⟨[("a", some ⟨⟨"a", ca, []⟩, none⟩),
        ("b", some ⟨⟨"b", cb, []⟩, none⟩),
        ("c", some ⟨⟨"c", cc, []⟩, none⟩),
        ("d", some ⟨⟨"d", cd, []⟩, none⟩)],
       [("c", "a")]⟩ : DGraph) := by
      rw [if_pos (show (DGraph.hasNode (⟨[("a", some ⟨⟨"a", ca, []⟩, none⟩),
        ("b", some ⟨⟨"b", cb, []⟩, none⟩),
        ("c", some ⟨⟨"c", cc, []⟩, none⟩),
        ("d", some ⟨⟨"d", cd, []⟩, none⟩)],
       ([] : List (String × String))⟩ : DGraph) "c"
        && DGraph.hasNode (⟨[("a", some ⟨⟨"a", ca, []⟩, none⟩),
        ("b", some ⟨⟨"b", cb, []⟩, none⟩),
        ("c", some ⟨⟨"c", cc, []⟩, none⟩),
        ("d", some ⟨⟨"d", cd, []⟩, none⟩)],
       ([] : List (String × String))⟩ : DGraph) "a") = true from rfl)]
      rfl
    have c2 : (if DGraph.hasNode (⟨[("a", some ⟨⟨"a", ca, []⟩, none⟩),
        ("b", some ⟨⟨"b", cb, []⟩, none⟩),
        ("c", some ⟨⟨"c", cc, []⟩, none⟩),
        ("d", some ⟨⟨"d", cd, []⟩, none⟩)],
       [("c", "a")]⟩ : DGraph) "c"
        && DGraph.hasNode (⟨[("a", some ⟨⟨"a", ca, []⟩, none⟩),
        ("b", some ⟨⟨"b", cb, []⟩, none⟩),
        ("c", some ⟨⟨"c", cc, []⟩, none⟩),
        ("d", some ⟨⟨"d", cd, []⟩, none⟩)],
       [("c", "a")]⟩ : DGraph) "b" then
        DGraph.setEdge (⟨[("a", some ⟨⟨"a", ca, []⟩, none⟩),
        ("b", some ⟨⟨"b", cb, []⟩, none⟩),
        ("c", some ⟨⟨"c", cc, []⟩, none⟩),
        ("d", some ⟨⟨"d", cd, []⟩, none⟩)],
       [("c", "a")]⟩ : DGraph) "c" "b"
      else (⟨[("a", some ⟨⟨"a", ca, []⟩, none⟩),
        ("b", some ⟨⟨"b", cb, []⟩, none⟩),
        ("c", some ⟨⟨"c", cc, []⟩, none⟩),
        ("d", some ⟨⟨"d", cd, []⟩, none⟩)],
       [("c", "a")]⟩ : DGraph)) = (⟨[("a", some ⟨⟨"a", ca, []⟩, none⟩),
        ("b", some ⟨⟨"b", cb, []⟩, none⟩),
        ("c", some ⟨⟨"c", cc, []⟩, none⟩),
        ("d", some ⟨⟨"d", cd, []⟩, none⟩)],
       [("c", "a"), ("c", "b")]⟩ : DGraph) := by
      rw [if_pos (show (DGraph.hasNode (⟨[("a", some ⟨⟨"a", ca, []⟩, none⟩),
        ("b", some ⟨⟨"b", cb, []⟩, none⟩),
        ("c", some ⟨⟨"c", cc, []⟩, none⟩),
        ("d", some ⟨⟨"d", cd, []⟩, none⟩)],
       [("c", "a")]⟩ : DGraph) "c"
        && DGraph.hasNode (⟨[("a", some ⟨⟨"a", ca, []⟩, none⟩),
        ("b", some ⟨⟨"b", cb, []⟩, none⟩),
        ("c", some ⟨⟨"c", cc, []⟩, none⟩),
        ("d", some ⟨⟨"d", cd, []⟩, none⟩)],
       [("c", "a")]⟩ : DGraph) "b") = true from rfl)]
      rfl
    have c3 : (if DGraph.hasNode (⟨[("a", some ⟨⟨"a", ca, []⟩, none⟩),
        ("b", some ⟨⟨"b", cb, []⟩, none⟩),
        ("c", some ⟨⟨"c", cc, []⟩, none⟩),
        ("d", some ⟨⟨"d", cd, []⟩, none⟩)],
       [("c", "a"), ("c", "b")]⟩ : DGraph) "d"
        && DGraph.hasNode (⟨[("a", some ⟨⟨"a", ca, []⟩, none⟩),
        ("b", some ⟨⟨"b", cb, []⟩, none⟩),
        ("c", some ⟨⟨"c", cc, []⟩, none⟩),
        ("d", some ⟨⟨"d", cd, []⟩, none⟩)],
       [("c", "a"), ("c", "b")]⟩ : DGraph) "a" then
        DGraph.setEdge (⟨[("a", some ⟨⟨"a", ca, []⟩, none⟩),
        ("b", some ⟨⟨"b", cb, []⟩, none⟩),
        ("c", some ⟨⟨"c", cc, []⟩, none⟩),
        ("d", some ⟨⟨"d", cd, []⟩, none⟩)],
       [("c", "a"), ("c", "b")]⟩ : DGraph) "d" "a"
      else (⟨[("a", some ⟨⟨"a", ca, []⟩, none⟩),
        ("b", some ⟨⟨"b", cb, []⟩, none⟩),
        ("c", some ⟨⟨"c", cc, []⟩, none⟩),
        ("d", some ⟨⟨"d", cd, []⟩, none⟩)],
       [("c", "a"), ("c", "b")]⟩ : DGraph)) = (⟨[("a", some ⟨⟨"a", ca, []⟩, none⟩),
        ("b", some ⟨⟨"b", cb, []⟩, none⟩),
        ("c", some ⟨⟨"c", cc, []⟩, none⟩),
        ("d", some ⟨⟨"d", cd, []⟩, none⟩)],
       [("c", "a"), ("c", "b"), ("d", "a")]⟩ : DGraph) := by
      rw [if_pos (show (DGraph.hasNode (⟨[("a", some ⟨⟨"a", ca, []⟩, none⟩),
        ("b", some ⟨⟨"b", cb, []⟩, none⟩),
        ("c", some ⟨⟨"c", cc, []⟩, none⟩),
        ("d", some ⟨⟨"d", cd, []⟩, none⟩)],
       [("c", "a"), ("c", "b")]⟩ : DGraph) "d"
        && DGraph.hasNode (⟨[("a", some ⟨⟨"a", ca, []⟩, none⟩),
        ("b", some ⟨⟨"b", cb, []⟩, none⟩),
        ("c", some ⟨⟨"c", cc, []⟩, none⟩),
        ("d", some ⟨⟨"d", cd, []⟩, none⟩)],
       [("c", "a"), ("c", "b")]⟩ : DGraph) "a") = true from rfl)]
      rfl
    have c4 : (if DGraph.hasNode (⟨[("a", some ⟨⟨"a", ca, []⟩, none⟩),
        ("b", some ⟨⟨"b", cb, []⟩, none⟩),
        ("c", some ⟨⟨"c", cc, []⟩, none⟩),
        ("d", some ⟨⟨"d", cd, []⟩, none⟩)],
       [("c", "a"), ("c", "b"), ("d", "a")]⟩ : DGraph) "d"
        && DGraph.hasNode (⟨[("a", some ⟨⟨"a", ca, []⟩, none⟩),
        ("b", some ⟨⟨"b", cb, []⟩, none⟩),
        ("c", some ⟨⟨"c", cc, []⟩, none⟩),
        ("d", some ⟨⟨"d", cd, []⟩, none⟩)],
       [("c", "a"), ("c", "b"), ("d", "a")]⟩ : DGraph) "b" then
        DGraph.setEdge (⟨[("a", some ⟨⟨"a", ca, []⟩, none⟩),
        ("b", some ⟨⟨"b", cb, []⟩, none⟩),
        ("c", some ⟨⟨"c", cc, []⟩, none⟩),
        ("d", some ⟨⟨"d", cd, []⟩, none⟩)],
       [("c", "a"), ("c", "b"), ("d", "a")]⟩ : DGraph) "d" "b"
      else (⟨[("a", some ⟨⟨"a", ca, []⟩, none⟩),
        ("b", some ⟨⟨"b", cb, []⟩, none⟩),
        ("c", some ⟨⟨"c", cc, []⟩, none⟩),
        ("d", some ⟨⟨"d", cd, []⟩, none⟩)],
       [("c", "a"), ("c", "b"), ("d", "a")]⟩ : DGraph)) = (⟨[("a", some ⟨⟨"a", ca, []⟩, none⟩),
        ("b", some ⟨⟨"b", cb, []⟩, none⟩),
        ("c", some ⟨⟨"c", cc, []⟩, none⟩),
        ("d", some ⟨⟨"d", cd, []⟩, none⟩)],
       [("c", "a"), ("c", "b"), ("d", "a"), ("d", "b")]⟩ : DGraph) := by
      rw [if_pos (show (DGraph.hasNode (⟨[("a", some ⟨⟨"a", ca, []⟩, none⟩),
        ("b", some ⟨⟨"b", cb, []⟩, none⟩),
        ("c", some ⟨⟨"c", cc, []⟩, none⟩),
        ("d", some ⟨⟨"d", cd, []⟩, none⟩)],
       [("c", "a"), ("c", "b"), ("d", "a")]⟩ : DGraph) "d"
        && DGraph.hasNode (⟨[("a", some ⟨⟨"a", ca, []⟩, none⟩),
        ("b", some ⟨⟨"b", cb, []⟩, none⟩),
        ("c", some ⟨⟨"c", cc, []⟩, none⟩),
        ("d", some ⟨⟨"d", cd, []⟩, none⟩)],
       [("c", "a"), ("c", "b"), ("d", "a")]⟩ : DGraph) "b") = true from rfl)]
      rfl
    have hnone : ∀ (g : DGraph) (names : List String),
        addCommandNode g none names = g := fun g names => rfl
    have hunf : ∀ (g : DGraph), addSeqEdges g [["a", "b"], ["c", "d"]]
        = ["c", "d"].foldl
            (fun g cur => ["a", "b"].foldl
              (fun g prev =>
                if g.hasNode cur && g.hasNode prev then g.setEdge cur prev
                else g) g)
            g := fun g => rfl
    rw [hnone, hunf]
    simp only [List.foldl_cons, List.foldl_nil]
    rw [c1, c2, c3, c4]
  have hkahn : kahn (⟨[("a", some ⟨⟨"a", ca, []⟩, none⟩),
      ("b", some ⟨⟨"b", cb, []⟩, none⟩),
      ("c", some ⟨⟨"c", cc, []⟩, none⟩),
      ("d", some ⟨⟨"d", cd, []⟩, none⟩)],
     [("c", "a"), ("c", "b"), ("d", "a"), ("d", "b")]⟩ : DGraph)
      = (["a", "b", "c", "d"], []) := by
    unfold kahn
    show kahnGo ⟨[("a", some ⟨⟨"a", ca, []⟩, none⟩),
      ("b", some ⟨⟨"b", cb, []⟩, none⟩),
      ("c", some ⟨⟨"c", cc, []⟩, none⟩),
      ("d", some ⟨⟨"d", cd, []⟩, none⟩)],
     [("c", "a"), ("c", "b"), ("d", "a"), ("d", "b")]⟩
      ["a", "b", "c", "d"] [] = (["a", "b", "c", "d"], [])
    rw [kahnGo]
    show kahnGo ⟨[("a", some ⟨⟨"a", ca, []⟩, none⟩),
      ("b", some ⟨⟨"b", cb, []⟩, none⟩),
      ("c", some ⟨⟨"c", cc, []⟩, none⟩),
      ("d", some ⟨⟨"d", cd, []⟩, none⟩)],
     [("c", "a"), ("c", "b"), ("d", "a"), ("d", "b")]⟩
      ["c", "d"] ["a", "b"] = (["a", "b", "c", "d"], [])
    rw [kahnGo]
    show kahnGo ⟨[("a", some ⟨⟨"a", ca, []⟩, none⟩),
      ("b", some ⟨⟨"b", cb, []⟩, none⟩),
      ("c", some ⟨⟨"c", cc, []⟩, none⟩),
      ("d", some ⟨⟨"d", cd, []⟩, none⟩)],
     [("c", "a"), ("c", "b"), ("d", "a"), ("d", "b")]⟩
      [] ["a", "b", "c", "d"] = (["a", "b", "c", "d"], [])
    rw [kahnGo]
    rfl
  have hacy : isAcyclicG ⟨[("a", some ⟨⟨"a", ca, []⟩, none⟩),
      ("b", some ⟨⟨"b", cb, []⟩, none⟩),
      ("c", some ⟨⟨"c", cc, []⟩, none⟩),
      ("d", some ⟨⟨"d", cd, []⟩, none⟩)],
     [("c", "a"), ("c", "b"), ("d", "a"), ("d", "b")]⟩ = true := by
    unfold isAcyclicG
    rw [hkahn]
    rfl
  have hord : (topsortG ⟨[("a", some ⟨⟨"a", ca, []⟩, none⟩),
      ("b", some ⟨⟨"b", cb, []⟩, none⟩),
      ("c", some ⟨⟨"c", cc, []⟩, none⟩),
      ("d", some ⟨⟨"d", cd, []⟩, none⟩)],
     [("c", "a"), ("c", "b"), ("d", "a"), ("d", "b")]⟩).reverse
      = ["a", "b", "c", "d"] := by
    rw [reverse_topsortG, hkahn]
  refine ⟨?_, by rw [hfull]⟩
  rw [buildGraph_eq_of seqPats [⟨"a", ca⟩, ⟨"b", cb⟩, ⟨"c", cc⟩, ⟨"d", cd⟩]
    cfg none _ ["a", "b", "c", "d"] hfull hacy hord (by decide)]
  rfl

theorem C4_sequential_groups_witness :
    (isFrunkCommand "tsc" = false ∧ isFrunkCommand "jest" = false
    ∧ isFrunkCommand "eslint ." = false ∧ isFrunkCommand "vitest" = false)
    ∧ (buildGraph seqPats [⟨"a", "tsc"⟩, ⟨"b", "jest"⟩, ⟨"c", "eslint ."⟩,
        ⟨"d", "vitest"⟩] {} none
      = .ok
        [{ id := nodeId 0, tasks := [⟨"a", "tsc", []⟩], dependencies := [],
           sequential := false },
         { id := nodeId 1, tasks := [⟨"b", "jest", []⟩], dependencies := [],
           sequential := false },
         { id := nodeId 2, tasks := [⟨"c", "eslint .", []⟩],
           dependencies := [nodeId 0, nodeId 1], sequential := false },
         { id := nodeId 3, tasks := [⟨"d", "vitest", []⟩],
           dependencies := [nodeId 0, nodeId 1], sequential := false }]
    ∧ (fullGraph seqPats [⟨"a", "tsc"⟩, ⟨"b", "jest"⟩, ⟨"c", "eslint ."⟩,
        ⟨"d", "vitest"⟩] none).edges
      = [("c", "a"), ("c", "b"), ("d", "a"), ("d", "b")]) :=
  ⟨⟨by decide, by decide, by decide, by decide⟩,
   C4_sequential_groups "tsc" "jest" "eslint ." "vitest" {}
     (by decide) (by decide) (by decide) (by decide)⟩

/-! ## The trailing-command node (claim C5) -/

theorem node_isSome_hasNode {g : DGraph} {k : String}
    (h : ((g.node k).isSome) = true) : g.hasNode k = true := by
  cases hf : g.nodes.find? (fun e => e.1 = k) with
  | none =>
    exfalso
    have hn : g.node k = none := by
      unfold DGraph.node
      rw [hf]
    rw [hn] at h
    cases h
  | some e =>
    have hmem := List.mem_of_find?_eq_some hf
    have hpred := List.find?_some hf
    simp only [decide_eq_true_eq] at hpred
    exact DGraph.hasNode_iff.mpr (List.mem_map.mpr ⟨e, hmem, hpred⟩)

/-- The edge-adding fold of `addCommandNode` links the command node to
every listed name present in the graph. -/
theorem addCommandNode_edge_fold (u : String) :
    ∀ (names : List String) (g : DGraph), u ∈ names → g.hasNode u = true →
      (COMMAND_NODE_NAME, u) ∈ (names.foldl
        (fun g depName =>
          if g.hasNode depName then g.setEdge COMMAND_NODE_NAME depName
          else g) g).edges := by
  intro names
  induction names with
  | nil => intro g hu _; exact absurd hu (List.not_mem_nil u)
  | cons a t ih =>
    intro g hu hn
    rw [List.foldl_cons]
    rcases List.mem_cons.mp hu with rfl | hut
    · rw [if_pos hn]
      refine foldl_edges_mono _ ?_ t _ _
        (DGraph.self_mem_edges_setEdge g _ u)
      intro g2 a2 e he
      by_cases ha : g2.hasNode a2 = true
      · rw [if_pos ha]
        exact DGraph.mem_edges_setEdge.mpr (Or.inl he)
      · rw [if_neg ha]
        exact he
    · apply ih _ hut
      by_cases ha : g.hasNode a = true
      · rw [if_pos ha]
        exact DGraph.hasNode_iff.mpr (DGraph.mem_nodeKeys_setEdge.mpr
          (Or.inl (DGraph.hasNode_iff.mp hn)))
      · rw [if_neg ha]
        exact hn

/-- A truthy trailing command adds an edge from the command node to every
requested name whose key is valued. -/
theorem addCommandNode_edge {g : DGraph} {c : String} {names : List String}
    (hcond : (decide ¬c = "" && decide (names.length > 0)) = true)
    {u : String} (hu : u ∈ names) (hn : ((g.node u).isSome) = true) :
    (COMMAND_NODE_NAME, u) ∈ (addCommandNode g (some c) names).edges := by
  unfold addCommandNode
  dsimp only
  rw [if_pos hcond]
  exact addCommandNode_edge_fold u names _ hu
    (node_isSome_hasNode (node_isSome_setNode g COMMAND_NODE_NAME _ u hn))

/-- With a nonempty truthy command and a nonempty pattern list, the full
graph stores the synthesized command task at the command key. -/
theorem fullGraph_cmd_node (patterns : List String) (scripts : List Script)
    (c : String) (hc : c ≠ "") (hpat : patterns ≠ []) :
    (fullGraph patterns scripts (some c)).node COMMAND_NODE_NAME
      = some { task := { name := "command", command := c,
                         dependencies := [] } } := by
  unfold fullGraph
  apply node_addCommandNode_created
  rw [Bool.and_eq_true]
  refine ⟨decide_eq_true hc, decide_eq_true ?_⟩
  rw [List.length_map]
  exact List.length_pos.mpr hpat

/-- With a nonempty truthy command, the full graph has an edge from the
command node to every requested (marker-stripped) target that carries a
value. -/
theorem fullGraph_cmd_edge (patterns : List String) (scripts : List Script)
    (c : String) (hc : c ≠ "") {p : String} (hp : p ∈ patterns)
    (hne : stripSeqMarker p ≠ COMMAND_NODE_NAME)
    (hval : (((fullGraph patterns scripts (some c)).node
      (stripSeqMarker p)).isSome) = true) :
    (COMMAND_NODE_NAME, stripSeqMarker p)
      ∈ (fullGraph patterns scripts (some c)).edges := by
  have hpre : (((addSeqEdges (mkDiscoveryGraph patterns scripts)
      (parseSequentialGroups patterns)).node (stripSeqMarker p)).isSome)
      = true := by
    unfold fullGraph at hval
    rw [node_addCommandNode_ne _ _ _ hne] at hval
    exact hval
  unfold fullGraph
  apply addCommandNode_edge ?_ (List.mem_map_of_mem _ hp) hpre
  rw [Bool.and_eq_true]
  refine ⟨decide_eq_true hc, decide_eq_true ?_⟩
  rw [List.length_map]
  exact List.length_pos.mpr (List.ne_nil_of_mem hp)

/-- Within the construction output, the count of nodes whose task list
satisfies a predicate equals the count among the valued entries. -/
theorem mkNodes_filter_pred (g : DGraph) (p : Task → Bool) :
    ∀ (prs : List (String × TaskNode)) (counter : Nat)
      (idMap : List (String × String)),
      ((mkNodes g prs counter idMap).filter
        (fun nd => nd.tasks.any p)).length
      = (prs.filter (fun pr => p pr.2.task)).length := by
  intro prs
  induction prs with
  | nil => intro counter idMap; rfl
  | cons pr rest ih =>
    intro counter idMap
    cases pr with
    | mk k tn =>
      cases hpt : p tn.task with
      | true =>
        rw [mkNodes_cons, List.filter_cons, List.filter_cons,
          if_pos (by simp [hpt]), if_pos (by simp [hpt]),
          List.length_cons, List.length_cons, ih]
      | false =>
        rw [mkNodes_cons, List.filter_cons, List.filter_cons,
          if_neg (by simp [hpt]), if_neg (by simp [hpt])]
        exact ih _ _

set_option maxHeartbeats 800000 in
/-- C5 (amended): with a nonempty pattern list, a nonempty trailing
command, no manifest entry named `command`, targets distinct from the
internal command key, and a **successful** build, the output holds
exactly one node whose task is named `command`; that node's single task
carries the trailing command string, and its dependency array references
the node of every requested target that received a graph value (all
top-level targets, not only leaves).  With zero targets the synthesized
command node has zero dependencies.  The success hypothesis is the
amendment: a cyclic manifest satisfies the claim's antecedent yet makes
`buildGraph` throw instead of synthesizing any node (see the
counterexample). -/
theorem C5_trailing_command (patterns : List String) (scripts : List Script)
    (cfg : Config) (c : String) (ns : List ExecutionNode)
    (hpat : patterns ≠ []) (hc : c ≠ "")
    (hcmd : lookupScript scripts "command" = none)
    (hcn : ∀ p ∈ patterns, stripSeqMarker p ≠ COMMAND_NODE_NAME)
    (h : buildGraph patterns scripts cfg (some c) = .ok ns) :
    ((ns.filter (fun nd => nd.tasks.any
        (fun t => t.name = "command"))).length = 1)
    ∧ (∀ i (hi : i < ns.length),
        ((ns.get ⟨i, hi⟩).tasks.any (fun t => t.name = "command")) = true →
        (ns.get ⟨i, hi⟩).tasks
          = [{ name := "command", command := c, dependencies := [] }]
        ∧ ∀ p ∈ patterns, ∀ tnu,
            (fullGraph patterns scripts (some c)).node (stripSeqMarker p)
              = some tnu →
            ∃ j, ∃ hj : j < ns.length,
              ((ns.get ⟨j, hj⟩).tasks.any
                (fun t => t.name = stripSeqMarker p)) = true
              ∧ (ns.get ⟨j, hj⟩).id ∈ (ns.get ⟨i, hi⟩).dependencies)
    ∧ (∀ (scripts2 : List Script) (cfg2 : Config),
        buildGraph [] scripts2 cfg2 (some c)
          = .ok [{ id := nodeId 0,
                   tasks := [{ name := "command", command := c,
                               dependencies := [] }],
                   dependencies := [], sequential := false }]) := by
  obtain ⟨hacy, hns⟩ := buildGraph_ok_eq hpat h
  subst hns
  have hgi := GInv_fullGraph patterns scripts (some c)
  have hos := order_spec hgi hacy
  have hcmdnode := fullGraph_cmd_node patterns scripts c hc hpat
  have hcmdval : (((fullGraph patterns scripts (some c)).node
      COMMAND_NODE_NAME).isSome) = true := by
    rw [hcmdnode]
    rfl
  have hcmdord : COMMAND_NODE_NAME
      ∈ (topsortG (fullGraph patterns scripts (some c))).reverse :=
    (hos.1.mem_iff).mpr (mem_nodeKeys_of_isSome hcmdval)
  have hcmdprs : (COMMAND_NODE_NAME,
      ({ task := { name := "command", command := c,
                   dependencies := [] } } : TaskNode))
      ∈ valuedPairs (fullGraph patterns scripts (some c))
        ((topsortG (fullGraph patterns scripts (some c))).reverse) :=
    mem_valuedPairs.mpr ⟨hcmdord, hcmdnode⟩
  have hcannone : canonicalTaskNode scripts "command" = none := by
    unfold canonicalTaskNode
    rw [hcmd]
  have hiff : ∀ pr ∈ valuedPairs (fullGraph patterns scripts (some c))
      ((topsortG (fullGraph patterns scripts (some c))).reverse),
      (pr.2.task.name = "command" ↔ pr.1 = COMMAND_NODE_NAME) := by
    intro pr hpr
    obtain ⟨hprord, hprval⟩ := mem_valuedPairs.mp hpr
    constructor
    · intro hname
      by_contra hne
      have hcan := values_fullGraph patterns scripts (some c) hne hprval
      have hkname := canonicalTaskNode_name hcan
      rw [hname] at hkname
      rw [← hkname] at hcan
      rw [hcannone] at hcan
      cases hcan
    · intro h1
      rw [h1] at hprval
      rw [hcmdnode] at hprval
      injection hprval with h2
      rw [← h2]
  refine ⟨?_, ?_, ?_⟩
  · rw [mkNodes_filter_pred]
    rw [← List.countP_eq_length_filter]
    rw [List.countP_congr (fun pr hpr => by
      rw [show (decide (pr.2.task.name = "command"))
          = (pr.1 == COMMAND_NODE_NAME) from by
        by_cases hx : pr.1 = COMMAND_NODE_NAME
        · simp [hx, (hiff pr hpr).mpr hx]
        · have hnn : ¬ pr.2.task.name = "command" :=
            fun hn => hx ((hiff pr hpr).mp hn)
          simp [hx, hnn]])]
    have hmap : List.countP (fun pr => pr.1 == COMMAND_NODE_NAME)
        (valuedPairs (fullGraph patterns scripts (some c))
          ((topsortG (fullGraph patterns scripts (some c))).reverse))
        = ((valuedPairs (fullGraph patterns scripts (some c))
          ((topsortG (fullGraph patterns scripts
            (some c))).reverse)).map Prod.fst).count COMMAND_NODE_NAME := by
      rw [show ((valuedPairs (fullGraph patterns scripts (some c))
        ((topsortG (fullGraph patterns scripts
          (some c))).reverse)).map Prod.fst).count COMMAND_NODE_NAME
        = List.countP (fun u => u == COMMAND_NODE_NAME)
          ((valuedPairs (fullGraph patterns scripts (some c))
            ((topsortG (fullGraph patterns scripts
              (some c))).reverse)).map Prod.fst) from rfl]
      rw [List.countP_map]
      rfl
    rw [hmap]
    exact count_eq_one_of_nodup_mem (valuedPairs_keys_nodup hos.2.1)
      (List.mem_map_of_mem _ hcmdprs)
  · intro i hi hname
    have hilen : i < (valuedPairs (fullGraph patterns scripts (some c))
        ((topsortG (fullGraph patterns scripts
          (some c))).reverse)).length := by
      rw [mkNodes_length] at hi
      exact hi
    have hgeti := mkNodes_get (fullGraph patterns scripts (some c)) _ 0 [] i
      hilen hi
    have hpri : (valuedPairs (fullGraph patterns scripts (some c))
        ((topsortG (fullGraph patterns scripts (some c))).reverse)).get
        ⟨i, hilen⟩ ∈ valuedPairs (fullGraph patterns scripts (some c))
        ((topsortG (fullGraph patterns scripts (some c))).reverse) :=
      List.get_mem _ _ _
    have hnamei : ((valuedPairs (fullGraph patterns scripts (some c))
        ((topsortG (fullGraph patterns scripts (some c))).reverse)).get
        ⟨i, hilen⟩).2.task.name = "command" := by
      rw [hgeti] at hname
      simpa using hname
    have hkeyi : ((valuedPairs (fullGraph patterns scripts (some c))
        ((topsortG (fullGraph patterns scripts (some c))).reverse)).get
        ⟨i, hilen⟩).1 = COMMAND_NODE_NAME := (hiff _ hpri).mp hnamei
    have hvali := (mem_valuedPairs.mp hpri).2
    rw [hkeyi, hcmdnode] at hvali
    refine ⟨?_, ?_⟩
    · rw [hgeti]
      injection hvali with h2
      rw [← h2]
    · intro p hp tnu hval
      have hune := hcn p hp
      have huvals : (((fullGraph patterns scripts (some c)).node
          (stripSeqMarker p)).isSome) = true := by
        rw [hval]
        rfl
      have hedge := fullGraph_cmd_edge patterns scripts c hc hp hune huvals
      have huord : stripSeqMarker p
          ∈ (topsortG (fullGraph patterns scripts (some c))).reverse :=
        (hos.1.mem_iff).mpr (mem_nodeKeys_of_isSome huvals)
      have huprs : (stripSeqMarker p, tnu)
          ∈ valuedPairs (fullGraph patterns scripts (some c))
            ((topsortG (fullGraph patterns scripts (some c))).reverse) :=
        mem_valuedPairs.mpr ⟨huord, hval⟩
      obtain ⟨⟨j, hjlen⟩, hgetu⟩ := List.get_of_mem huprs
      have hjns : j < (mkNodes (fullGraph patterns scripts (some c))
          (valuedPairs (fullGraph patterns scripts (some c))
            ((topsortG (fullGraph patterns scripts (some c))).reverse)) 0
          []).length := by
        rw [mkNodes_length]
        exact hjlen
      have hgetj := mkNodes_get (fullGraph patterns scripts (some c)) _ 0 []
        j hjlen hjns
      refine ⟨j, hjns, ?_, ?_⟩
      · rw [hgetj]
        simp only [List.any_cons, List.any_nil, Bool.or_false,
          decide_eq_true_eq]
        rw [hgetu]
        exact canonicalTaskNode_name
          (values_fullGraph patterns scripts (some c) hune hval)
      · rw [hgetj, hgeti]
        simp only [List.nil_append, Nat.zero_add]
        have hdkey : ((valuedPairs (fullGraph patterns scripts (some c))
            ((topsortG (fullGraph patterns scripts (some c))).reverse)).get
            ⟨j, hjlen⟩).1 = stripSeqMarker p := by
          rw [hgetu]
        have hcount := node_dep_count hgi hos.2.2 hos.2.1 hilen hjlen hdkey
          huvals
        rw [hkeyi] at hcount
        rw [if_pos hedge] at hcount
        have hpos : 0 < (((fullGraph patterns scripts (some c)).successors
            (((valuedPairs (fullGraph patterns scripts (some c))
              ((topsortG (fullGraph patterns scripts
                (some c))).reverse)).get ⟨i, hilen⟩).1)).filterMap
            (fun dep => ((idsOf ((valuedPairs (fullGraph patterns scripts
              (some c)) ((topsortG (fullGraph patterns scripts
              (some c))).reverse)).take i) 0).find?
              (fun e => e.1 = dep)).map (fun e => e.2))).count
            (nodeId j) := by
          rw [hkeyi, hcount]
          omega
        exact List.count_pos_iff_mem.mp hpos
  · intro scripts2 cfg2
    exact buildGraph_nil_cmd scripts2 cfg2 c hc

/-- A one-entry manifest with a plain command, run with a trailing
command. -/
def scriptsV : List Script := [⟨"y", "tsc"⟩]

/-- The graph for target `y` over `scriptsV` with trailing command
`echo done`. -/
def graphV : DGraph :=
  ⟨[("y", some ⟨⟨"y", "tsc", []⟩, none⟩),
    ("__frunk_command__", some ⟨⟨"command", "echo done", []⟩, none⟩)],
   [("__frunk_command__", "y")]⟩

/-- The execution nodes for `scriptsV` with the trailing command. -/
def nodesV : List ExecutionNode :=
  [{ id := nodeId 0, tasks := [⟨"y", "tsc", []⟩], dependencies := [],
     sequential := false },
   { id := nodeId 1, tasks := [⟨"command", "echo done", []⟩],
     dependencies := [nodeId 0], sequential := false }]

theorem fullGraph_V : fullGraph ["y"] scriptsV (some "echo done")
    = graphV := by
  have hd : mkDiscoveryGraph ["y"] scriptsV
      = ⟨[("y", some ⟨⟨"y", "tsc", []⟩, none⟩)], []⟩ := by
    show discoverLoop scriptsV [Job.proc "y"] [] DGraph.empty = _
    rw [@discoverLoop_proc_plain scriptsV "y" [] [] DGraph.empty
      ⟨"y", "tsc"⟩ (by decide) (by decide) (by decide)]
    rw [discoverLoop_nil]
    decide
  unfold fullGraph
  rw [hd]
  decide

theorem kahn_V : kahn graphV = (["y", "__frunk_command__"], []) := by
  unfold kahn
  show kahnGo graphV ["y", "__frunk_command__"] []
    = (["y", "__frunk_command__"], [])
  rw [kahnGo]
  show kahnGo graphV ["__frunk_command__"] ["y"]
    = (["y", "__frunk_command__"], [])
  rw [kahnGo]
  show kahnGo graphV [] ["y", "__frunk_command__"]
    = (["y", "__frunk_command__"], [])
  rw [kahnGo]
  rfl

theorem isAcyclicG_V : isAcyclicG graphV = true := by
  unfold isAcyclicG
  rw [kahn_V]
  rfl

theorem topsort_V : (topsortG graphV).reverse
    = ["y", "__frunk_command__"] := by
  rw [reverse_topsortG, kahn_V]

theorem buildGraph_V : buildGraph ["y"] scriptsV {} (some "echo done")
    = .ok nodesV := by
  rw [buildGraph_eq_of ["y"] scriptsV {} (some "echo done") graphV
    ["y", "__frunk_command__"] fullGraph_V isAcyclicG_V topsort_V
    (by decide)]
  rfl

theorem node_V : (fullGraph ["y"] scriptsV (some "echo done")).node
    (stripSeqMarker "y") = some ⟨⟨"y", "tsc", []⟩, none⟩ := by
  rw [fullGraph_V]
  decide

theorem C5_trailing_command_witness :
    ((["y"] : List String) ≠ []
    ∧ ("echo done" : String) ≠ ""
    ∧ lookupScript scriptsV "command" = none
    ∧ (∀ p ∈ (["y"] : List String),
        stripSeqMarker p ≠ COMMAND_NODE_NAME)
    ∧ buildGraph ["y"] scriptsV {} (some "echo done") = .ok nodesV)
    ∧ (((nodesV.filter (fun nd => nd.tasks.any
          (fun t => t.name = "command"))).length = 1)
      ∧ (∀ i (hi : i < nodesV.length),
          ((nodesV.get ⟨i, hi⟩).tasks.any
            (fun t => t.name = "command")) = true →
          (nodesV.get ⟨i, hi⟩).tasks
            = [{ name := "command", command := "echo done",
                 dependencies := [] }]
          ∧ ∀ p ∈ (["y"] : List String), ∀ tnu,
              (fullGraph ["y"] scriptsV (some "echo done")).node
                (stripSeqMarker p) = some tnu →
              ∃ j, ∃ hj : j < nodesV.length,
                ((nodesV.get ⟨j, hj⟩).tasks.any
                  (fun t => t.name = stripSeqMarker p)) = true
                ∧ (nodesV.get ⟨j, hj⟩).id
                    ∈ (nodesV.get ⟨i, hi⟩).dependencies)
      ∧ (∀ (scripts2 : List Script) (cfg2 : Config),
          buildGraph [] scripts2 cfg2 (some "echo done")
            = .ok [{ id := nodeId 0,
                     tasks := [{ name := "command",
                                 command := "echo done",
                                 dependencies := [] }],
                     dependencies := [], sequential := false }])) :=
  ⟨⟨by decide, by decide, by decide, by decide, buildGraph_V⟩,
   C5_trailing_command ["y"] scriptsV {} "echo done" nodesV
     (by decide) (by decide) (by decide) (by decide) buildGraph_V⟩

/-- A one-entry manifest whose entry orchestrates itself. -/
def scriptsX : List Script := [⟨"x", "f [x]"⟩]

/-- The (cyclic) graph for target `x` over `scriptsX` with a trailing
command. -/
def graphX : DGraph :=
  ⟨[("x", some ⟨⟨"x", "echo \"No command\"", []⟩, none⟩),
    ("__frunk_command__", some ⟨⟨"command", "echo done", []⟩, none⟩)],
   [("x", "x"), ("__frunk_command__", "x")]⟩

theorem fullGraph_X : fullGraph ["x"] scriptsX (some "echo done")
    = graphX := by
  have hd : mkDiscoveryGraph ["x"] scriptsX
      = ⟨[("x", some ⟨⟨"x", "echo \"No command\"", []⟩, none⟩)],
         [("x", "x")]⟩ := by
    show discoverLoop scriptsX [Job.proc "x"] [] DGraph.empty = _
    rw [@discoverLoop_proc_frunk scriptsX "x" [] [] DGraph.empty
      ⟨"x", "f [x]"⟩ ⟨["x"], none⟩ (by decide) (by decide) (by decide)
      (by decide)]
    show discoverLoop scriptsX [Job.edge "x" "x", Job.proc "x"] ["x"]
      ⟨[("x", some ⟨⟨"x", "echo \"No command\"", []⟩, none⟩)], []⟩ = _
    rw [discoverLoop_edge]
    show discoverLoop scriptsX [Job.proc "x"] ["x"]
      ⟨[("x", some ⟨⟨"x", "echo \"No command\"", []⟩, none⟩)],
       [("x", "x")]⟩ = _
    rw [@discoverLoop_proc_visited scriptsX "x" [] ["x"]
      ⟨[("x", some ⟨⟨"x", "echo \"No command\"", []⟩, none⟩)],
       [("x", "x")]⟩ (by decide)]
    rw [discoverLoop_nil]
  unfold fullGraph
  rw [hd]
  decide

theorem isAcyclicG_X : isAcyclicG graphX = false := by
  unfold isAcyclicG kahn
  rw [kahnGo]
  rfl

/-- C5 counterexample: the manifest `x: f [x]` with target `x` and
trailing command `echo done` satisfies the claim's antecedent — a
trailing command is supplied and the target `x` resolved to a graph
node — yet `buildGraph` raises the circular-dependency error and
synthesizes no command node at all. -/
theorem C5_trailing_command_counterexample :
    (fullGraph ["x"] scriptsX (some "echo done")).node "x"
      = some ⟨⟨"x", "echo \"No command\"", []⟩, none⟩
    ∧ buildGraph ["x"] scriptsX {} (some "echo done")
      = .error (.circular [["x"]]) := by
  constructor
  · rw [fullGraph_X]
    decide
  · rw [buildGraph_error_of ["x"] scriptsX {} (some "echo done") graphX
      fullGraph_X isAcyclicG_X]
    decide

/-- C6: a nested dependency name matching no manifest entry never makes
`buildGraph` throw — the only error it ever raises is the circular one
(resolution failures are caught); the unknown name is skipped: no
emitted node carries a task with that name; and edges between names that
do exist are still realized as dependency references in the output. -/
theorem C6_unknown_dependency_tolerated (patterns : List String)
    (scripts : List Script) (cfg : Config) (cmd : Option String) :
    (∀ e, buildGraph patterns scripts cfg cmd = .error e →
      ∃ cycles, e = .circular cycles)
    ∧ (∀ ns, buildGraph patterns scripts cfg cmd = .ok ns →
        ∀ w, lookupScript scripts w = none → w ≠ "command" →
          ∀ i (hi : i < ns.length),
            ((ns.get ⟨i, hi⟩).tasks.any (fun t => t.name = w)) = false)
    ∧ (∀ ns, buildGraph patterns scripts cfg cmd = .ok ns →
        ∀ u tnu d tnd, u ≠ COMMAND_NODE_NAME → d ≠ COMMAND_NODE_NAME →
          (fullGraph patterns scripts cmd).node u = some tnu →
          (fullGraph patterns scripts cmd).node d = some tnd →
          (u, d) ∈ (fullGraph patterns scripts cmd).edges →
          ∃ i, ∃ hi : i < ns.length, ∃ j, ∃ hj : j < ns.length,
            ((ns.get ⟨i, hi⟩).tasks.any (fun t => t.name = d)) = true
            ∧ ((ns.get ⟨j, hj⟩).tasks.any (fun t => t.name = u)) = true
            ∧ (ns.get ⟨i, hi⟩).id ∈ (ns.get ⟨j, hj⟩).dependencies) := by
  refine ⟨buildGraph_error_shape patterns scripts cfg cmd, ?_, ?_⟩
  · intro ns h w hw hwc i hi
    by_cases hpat : patterns = []
    · subst hpat
      cases cmd with
      | none =>
        rw [buildGraph_nil_none scripts cfg] at h
        injection h with h
        subst h
        have hi1 : i < 1 := by simpa using hi
        have hi0 : i = 0 := by omega
        subst hi0
        rfl
      | some c =>
        by_cases hcz : c = ""
        · subst hcz
          rw [buildGraph_def, fullGraph_nil, isAcyclicG_empty] at h
          rw [if_neg (by decide)] at h
          rw [topsortG_empty_reverse] at h
          rw [if_neg (by decide)] at h
          rw [if_pos (by decide)] at h
          injection h with h
          subst h
          have hi1 : i < 1 := by simpa [buildNodesGo_nil] using hi
          have hi0 : i = 0 := by omega
          subst hi0
          rfl
        · rw [buildGraph_nil_cmd scripts cfg c hcz] at h
          injection h with h
          subst h
          have hi1 : i < 1 := by simpa using hi
          have hi0 : i = 0 := by omega
          subst hi0
          simp only [List.get, List.any_cons, List.any_nil, Bool.or_false]
          exact decide_eq_false (fun heq => hwc (Eq.symm heq))
    · obtain ⟨hacy, hns⟩ := buildGraph_ok_eq hpat h
      subst hns
      have hilen : i < (valuedPairs (fullGraph patterns scripts cmd)
          ((topsortG (fullGraph patterns scripts cmd)).reverse)).length := by
        rw [mkNodes_length] at hi
        exact hi
      rw [mkNodes_get _ _ 0 [] i hilen hi]
      simp only [List.any_cons, List.any_nil, Bool.or_false]
      apply decide_eq_false
      intro heq
      have hpri : (valuedPairs (fullGraph patterns scripts cmd)
          ((topsortG (fullGraph patterns scripts cmd)).reverse)).get
          ⟨i, hilen⟩ ∈ valuedPairs (fullGraph patterns scripts cmd)
          ((topsortG (fullGraph patterns scripts cmd)).reverse) :=
        List.get_mem _ _ _
      obtain ⟨_, hval⟩ := mem_valuedPairs.mp hpri
      rcases values_fullGraph_all patterns scripts cmd hval with hcan | hcmd2
      · have hname := canonicalTaskNode_name hcan
        rw [heq] at hname
        rw [← hname] at hcan
        unfold canonicalTaskNode at hcan
        rw [hw] at hcan
        cases hcan
      · exact hwc (heq.symm.trans hcmd2)
  · intro ns h u tnu d tnd hucmd hdcmd huval hdval hedge
    by_cases hpat : patterns = []
    · subst hpat
      rw [fullGraph_nil] at huval
      rw [node_empty] at huval
      cases huval
    · obtain ⟨hacy, hns⟩ := buildGraph_ok_eq hpat h
      subst hns
      have hgi := GInv_fullGraph patterns scripts cmd
      have hos := order_spec hgi hacy
      have hdvals : (((fullGraph patterns scripts cmd).node d).isSome)
          = true := by
        rw [hdval]
        rfl
      have huvals : (((fullGraph patterns scripts cmd).node u).isSome)
          = true := by
        rw [huval]
        rfl
      have hdord : d ∈ (topsortG (fullGraph patterns scripts cmd)).reverse :=
        (hos.1.mem_iff).mpr (mem_nodeKeys_of_isSome hdvals)
      have huord : u ∈ (topsortG (fullGraph patterns scripts cmd)).reverse :=
        (hos.1.mem_iff).mpr (mem_nodeKeys_of_isSome huvals)
      have hdprs : (d, tnd) ∈ valuedPairs (fullGraph patterns scripts cmd)
          ((topsortG (fullGraph patterns scripts cmd)).reverse) :=
        mem_valuedPairs.mpr ⟨hdord, hdval⟩
      have huprs : (u, tnu) ∈ valuedPairs (fullGraph patterns scripts cmd)
          ((topsortG (fullGraph patterns scripts cmd)).reverse) :=
        mem_valuedPairs.mpr ⟨huord, huval⟩
      obtain ⟨⟨i, hilen⟩, hgetd⟩ := List.get_of_mem hdprs
      obtain ⟨⟨j, hjlen⟩, hgetu⟩ := List.get_of_mem huprs
      have hins : i < (mkNodes (fullGraph patterns scripts cmd)
          (valuedPairs (fullGraph patterns scripts cmd)
            ((topsortG (fullGraph patterns scripts cmd)).reverse)) 0
          []).length := by
        rw [mkNodes_length]
        exact hilen
      have hjns : j < (mkNodes (fullGraph patterns scripts cmd)
          (valuedPairs (fullGraph patterns scripts cmd)
            ((topsortG (fullGraph patterns scripts cmd)).reverse)) 0
          []).length := by
        rw [mkNodes_length]
        exact hjlen
      have hgeti := mkNodes_get (fullGraph patterns scripts cmd) _ 0 [] i
        hilen hins
      have hgetj := mkNodes_get (fullGraph patterns scripts cmd) _ 0 [] j
        hjlen hjns
      refine ⟨i, hins, j, hjns, ?_, ?_, ?_⟩
      · rw [hgeti]
        simp only [List.any_cons, List.any_nil, Bool.or_false,
          decide_eq_true_eq]
        rw [hgetd]
        exact canonicalTaskNode_name
          (values_fullGraph patterns scripts cmd hdcmd hdval)
      · rw [hgetj]
        simp only [List.any_cons, List.any_nil, Bool.or_false,
          decide_eq_true_eq]
        rw [hgetu]
        exact canonicalTaskNode_name
          (values_fullGraph patterns scripts cmd hucmd huval)
      · rw [hgeti, hgetj]
        simp only [List.nil_append, Nat.zero_add]
        have hdkey : ((valuedPairs (fullGraph patterns scripts cmd)
            ((topsortG (fullGraph patterns scripts cmd)).reverse)).get
            ⟨i, hilen⟩).1 = d := by
          rw [hgetd]
        have hcount := node_dep_count hgi hos.2.2 hos.2.1 hjlen hilen hdkey
          hdvals
        have hedge2 : (((valuedPairs (fullGraph patterns scripts cmd)
            ((topsortG (fullGraph patterns scripts cmd)).reverse)).get
            ⟨j, hjlen⟩).1, d) ∈ (fullGraph patterns scripts cmd).edges := by
          rw [hgetu]
          exact hedge
        rw [if_pos hedge2] at hcount
        have hpos : 0 < (((fullGraph patterns scripts cmd).successors
            (((valuedPairs (fullGraph patterns scripts cmd)
              ((topsortG (fullGraph patterns scripts cmd)).reverse)).get
              ⟨j, hjlen⟩).1)).filterMap
            (fun dep => ((idsOf ((valuedPairs (fullGraph patterns scripts
              cmd) ((topsortG (fullGraph patterns scripts
              cmd)).reverse)).take j) 0).find?
              (fun e => e.1 = dep)).map (fun e => e.2))).count
            (nodeId i) := by
          rw [hcount]
          omega
        exact List.count_pos_iff_mem.mp hpos

end Frunk
